import Mathlib

/-!
Verification of the FPGA bitstream Huffman compression/decompression
co-design (src/Software/compression.c, src/Software/decompression.c).

Artifact contents (file bytes) are modelled as `List Nat` with each element a
byte value; characters are their ASCII codes.  The fixed-function accelerators
(bit parser, histogram counter, Huffman encode/decode unit, 4-byte merger,
single-byte cipher) are reachable only through register reads/writes in the C
code, so they enter the model as function parameters constrained by the
contracts of spec section 4.3.
-/

namespace HuffmanCodesign

/-- ASCII code of the character 0. -/
def byteZero : Nat := 48

/-- ASCII code of the character 1. -/
def byteOne : Nat := 49

/-- Test for the characters 0 and 1, as in the C comparisons `c == '0' || c == '1'`. -/
def isBitByte (c : Nat) : Bool := c == 48 || c == 49

/-- C `isspace` on the ASCII range: space, tab, LF, VT, FF, CR. -/
def isSpaceByte (c : Nat) : Bool :=
  c == 32 || c == 9 || c == 10 || c == 11 || c == 12 || c == 13

/-- C `isdigit`. -/
def isDigitByte (c : Nat) : Bool := 48 ≤ c && c ≤ 57

/-- Loop of `binstr_to_int` (both compression.c and decompression.c):
`v = (v << 1) | (*s++ - '0')` while the current character is 0 or 1. -/
def binstrToIntGo (v : Nat) : List Nat → Nat
  | [] => v
  | c :: cs => if isBitByte c then binstrToIntGo (2 * v + (c - 48)) cs else v

/-- `binstr_to_int`: value of the leading run of binary digits. -/
def binstrToInt (s : List Nat) : Nat := binstrToIntGo 0 s

/-- `binstr_to_byte` (decompression.c): consumes at most 8 leading binary
digits into a `uint8_t`, so the accumulator is reduced mod 256 each step. -/
def binstrToByteGo (v : Nat) (k : Nat) : List Nat → Nat
  | [] => v
  | c :: cs =>
    if k < 8 && isBitByte c then binstrToByteGo ((2 * v + (c - 48)) % 256) (k + 1) cs else v

/-- `binstr_to_byte`. -/
def binstrToByte (s : List Nat) : Nat := binstrToByteGo 0 0 s

/-- Character for bit `i` of `v`, as in `(v >> i) & 1 ? '1' : '0'`. -/
def natBitChar (v i : Nat) : Nat := if v / 2 ^ i % 2 == 1 then 49 else 48

/-- `uint_to_binstr` / `get_binary_string` / the inline bit loops: the `w`
low-order bits of `v`, most significant first. -/
def renderBin (w v : Nat) : List Nat :=
  (List.range w).map (fun j => natBitChar v (w - 1 - j))

/-- Fuel-driven loop of the decimal rendering done by `sprintf` with a
`%u`-style conversion: most significant digit first. -/
def renderDecGo : Nat → Nat → List Nat
  | 0, _ => []
  | fuel + 1, n => if n < 10 then [48 + n] else renderDecGo fuel (n / 10) ++ [48 + n % 10]

/-- Decimal rendering of a natural number, as printed by `sprintf` for the
frequency and code-length fields. -/
def renderDec (n : Nat) : List Nat := renderDecGo (n + 1) n

/-- Digit-consuming loop of C `atoi`. -/
def parseDigitsGo (v : Nat) : List Nat → Nat
  | [] => v
  | c :: cs => if isDigitByte c then parseDigitsGo (10 * v + (c - 48)) cs else v

/-- C `atoi`: skip leading whitespace, optional sign, then decimal digits. -/
def atoiBytes (s : List Nat) : Int :=
  let s1 := s.dropWhile (fun c => isSpaceByte c)
  if s1.headD 0 == 45 then - (parseDigitsGo 0 s1.tail : Int)
  else if s1.headD 0 == 43 then (parseDigitsGo 0 s1.tail : Int)
  else (parseDigitsGo 0 s1 : Int)

/-- C `strtol(s, NULL, 2)`: skip leading whitespace, optional sign, then
binary digits. -/
def strtol2Bytes (s : List Nat) : Int :=
  let s1 := s.dropWhile (fun c => isSpaceByte c)
  if s1.headD 0 == 45 then - (binstrToInt s1.tail : Int)
  else if s1.headD 0 == 43 then (binstrToInt s1.tail : Int)
  else (binstrToInt s1 : Int)

/-! Line readers.  Both `f_readline` functions read single characters until a
newline, end of file or the buffer bound `len - 1`, dropping carriage returns.
They differ only in the return value: the compression-side reader returns 0
only for an empty line at end of file, the decompression-side reader returns 0
for every empty line. -/

/-- Shared character-consuming loop of both `f_readline` implementations.
`i` is the number of characters stored so far; the result is the line read and
the remaining input. -/
def fReadlineAux (len : Nat) : Nat → List Nat → List Nat → (List Nat × List Nat)
  | _, acc, [] => (acc.reverse, [])
  | i, acc, c :: cs =>
    if i + 1 < len then
      if c = 10 then (acc.reverse, cs)
      else if c = 13 then fReadlineAux len i acc cs
      else fReadlineAux len (i + 1) (c :: acc) cs
    else (acc.reverse, c :: cs)

/-- `f_readline` of compression.c: returns 0 only when the line is empty and
the file position is at end of file. -/
def fReadlineComp (len : Nat) (input : List Nat) : Nat × List Nat × List Nat :=
  let p := fReadlineAux len 0 [] input
  (if p.1.isEmpty && p.2.isEmpty then 0 else 1, p.1, p.2)

/-- `f_readline` of decompression.c: returns `i > 0`, i.e. 0 for every empty
line, whether or not the file continues. -/
def fReadlineDecomp (len : Nat) (input : List Nat) : Nat × List Nat × List Nat :=
  let p := fReadlineAux len 0 [] input
  (if p.1.isEmpty then 0 else 1, p.1, p.2)

/-- Fuel-driven model of a `while (f_readline(...))` driver loop: the list of
lines a stage's loop body sees, in order.  `comp` selects which reader's
stopping rule applies. -/
def readLinesGo (comp : Bool) (len : Nat) : Nat → List Nat → List (List Nat)
  | 0, _ => []
  | fuel + 1, input =>
    let p := fReadlineAux len 0 [] input
    let ret : Bool := if comp then !(p.1.isEmpty && p.2.isEmpty) else !p.1.isEmpty
    if ret then p.1 :: readLinesGo comp len fuel p.2 else []

/-- Lines yielded to a reader-driven loop over the given input bytes. -/
def readLines (comp : Bool) (len : Nat) (input : List Nat) : List (List Nat) :=
  readLinesGo comp len (input.length + 1) input

/-- A well-behaved line for a reader with buffer length `len`: free of CR/LF
and short enough to fit with its terminator. -/
def goodLine (len : Nat) (l : List Nat) : Prop :=
  (∀ c ∈ l, c ≠ 10 ∧ c ≠ 13) ∧ l.length + 2 ≤ len

/-- A line terminator as written by the two programs: LF or CRLF. -/
def isLineTerm (t : List Nat) : Prop := t = [10] ∨ t = [13, 10]

/-- Serialize lines with a fixed terminator after each line. -/
def serializeWith (t : List Nat) (ls : List (List Nat)) : List Nat :=
  (ls.map (fun l => l ++ t)).flatten

/-! Huffman tree builder (compression.c).  The node pool, `HuffNode` struct and
the array-based binary min-heap are modelled with an inductive tree type and a
`List` for the heap array `nodes[0..size-1]`.  Sift loops are written with
explicit fuel so that every definition evaluates by kernel reduction; the fuel
supplied by the wrappers always exceeds the loop's iteration count. -/

/-- `struct HuffNode`: a leaf carries the symbol (internal nodes store -1 in C,
which is never read back), every internal node created by the build loop has
exactly two children. -/
inductive HuffNode where
  | leaf (s : Nat) (f : Nat)
  | node (f : Nat) (l : HuffNode) (r : HuffNode)
deriving DecidableEq

/-- Frequency field of a node. -/
def HuffNode.freq : HuffNode → Nat
  | .leaf _ f => f
  | .node f _ _ => f

/-- Placeholder for out-of-range heap reads (never hit in a real run). -/
def hDefault : HuffNode := HuffNode.leaf 0 0

/-- Sift-up loop of `heap_push`: while the new node's frequency beats its
parent's, move the parent down and climb. -/
def heapPushAux : Nat → List HuffNode → HuffNode → Nat → List HuffNode
  | 0, arr, nd, i => arr.set i nd
  | fuel + 1, arr, nd, i =>
    if 0 < i ∧ nd.freq < (arr.getD ((i - 1) / 2) hDefault).freq then
      heapPushAux fuel (arr.set i (arr.getD ((i - 1) / 2) hDefault)) nd ((i - 1) / 2)
    else arr.set i nd

/-- `heap_push`: append a slot at index `size`, then sift up. -/
def heapPush (arr : List HuffNode) (nd : HuffNode) : List HuffNode :=
  heapPushAux (arr.length + 1) (arr ++ [nd]) nd arr.length

/-- Index `smallest` selected by one `heap_pop` sift iteration: the child with
the smaller frequency. -/
def heapPopSel (arr : List HuffNode) (i : Nat) : Nat :=
  if 2 * i + 2 < arr.length ∧
      (arr.getD (2 * i + 2) hDefault).freq < (arr.getD (2 * i + 1) hDefault).freq
  then 2 * i + 2 else 2 * i + 1

/-- Sift-down loop of `heap_pop` over the shrunken array, floating `last`. -/
def heapPopAux : Nat → List HuffNode → HuffNode → Nat → List HuffNode
  | 0, arr, last, i => arr.set i last
  | fuel + 1, arr, last, i =>
    if 2 * i + 1 < arr.length then
      if last.freq ≤ (arr.getD (heapPopSel arr i) hDefault).freq then arr.set i last
      else heapPopAux fuel (arr.set i (arr.getD (heapPopSel arr i) hDefault)) last
        (heapPopSel arr i)
    else arr.set i last

/-- `heap_pop`: returns the root and the array after removing it (the C write
of `last` one past the new size is invisible, matching `List.set` out of
range being the identity). -/
def heapPop (arr : List HuffNode) : HuffNode × List HuffNode :=
  (arr.headD hDefault, heapPopAux (arr.length + 1) arr.dropLast (arr.getLastD hDefault) 0)

/-- Heap initialization in `generate_huffman_codes`: one leaf per symbol with
non-zero frequency, pushed in ascending symbol order over 0..255. -/
def initHeap (freq : Nat → Nat) : List HuffNode :=
  (List.range 256).foldl
    (fun h i => if 0 < freq i then heapPush h (HuffNode.leaf i (freq i)) else h) []

/-- Merge loop of `generate_huffman_codes`: while more than one node remains,
pop the two minima and push an internal node combining them
(first-popped on the left). -/
def buildLoopGo : Nat → List HuffNode → List HuffNode
  | 0, h => h
  | fuel + 1, h =>
    if 1 < h.length then
      let p₁ := heapPop h
      let p₂ := heapPop p₁.2
      buildLoopGo fuel (heapPush p₂.2 (HuffNode.node (p₁.1.freq + p₂.1.freq) p₁.1 p₂.1))
    else h

/-- Merge loop with sufficient fuel (the heap shrinks by one per iteration). -/
def buildLoop (h : List HuffNode) : List HuffNode := buildLoopGo h.length h

/-- `assign_codes`: depth-first walk writing each leaf's path into the global
table, 0 on the left edge, 1 on the right edge, left subtree first.  The
result is the list of writes `(symbol, code)` in execution order; a code is a
bit list (character 0 ↦ `false`, character 1 ↦ `true`). -/
def assignCodes : HuffNode → List Bool → List (Nat × List Bool)
  | .leaf s _, p => [(s, p)]
  | .node _ l r, p => assignCodes l (p ++ [false]) ++ assignCodes r (p ++ [true])

/-- `generate_huffman_codes`: build the heap, merge, and if one node remains
assign codes from it with the empty path. -/
def generateHuffmanCodes (freq : Nat → Nat) : List (Nat × List Bool) :=
  match buildLoop (initHeap freq) with
  | [root] => assignCodes root []
  | _ => []

/-- Final contents of the global `huff_table[i].code` after a write list:
later writes win; unwritten entries keep the zero-initialized empty string. -/
def tableAfterWrites (ws : List (Nat × List Bool)) (i : Nat) : List Bool :=
  ws.foldl (fun acc e => if e.1 == i then e.2 else acc) []

/-- Character rendering of a code bit string, as stored in `huff_table`. -/
def renderCode (c : List Bool) : List Nat := c.map (fun b => if b then 49 else 48)

/-- Value of a code, as computed by `codeword |= 1 << (code_len - 1 - b)`. -/
def codeVal (c : List Bool) : Nat := c.foldl (fun v b => 2 * v + (if b then 1 else 0)) 0

/-- Kraft sum of a write list: `Σ 2 ^ (-code_len)` over the assigned codes. -/
def kraftSum (ws : List (Nat × List Bool)) : ℚ :=
  (ws.map (fun e => (1 / 2 : ℚ) ^ e.2.length)).sum

/-! Codebook generation stage (compression.c `stage_codebook_gen`). -/

/-- One line read by `parse_sym_freq_files`: at most 31 characters, carriage
returns dropped, stop at LF (consuming it) or at the 31-character cap
(the `si++` after the inner loop then skips one character). -/
def readShortLineGo (sj : Nat) (acc : List Nat) : List Nat → (List Nat × List Nat)
  | [] => (acc.reverse, [])
  | c :: cs =>
    if c = 10 then (acc.reverse, cs)
    else if sj < 31 then
      if c = 13 then readShortLineGo sj acc cs
      else readShortLineGo (sj + 1) (c :: acc) cs
    else (acc.reverse, cs)

/-- Read one sym/freq line. -/
def readShortLine (s : List Nat) : List Nat × List Nat := readShortLineGo 0 [] s

/-- Loop of `parse_sym_freq_files`: pair up lines of the symbol and count
files positionally, parse them with `strtol(_, _, 2)` and `atoi`, and record
entries with `0 ≤ symbol < 256` and positive frequency, up to 256 entries.
The table starts from the zero-initialized global `freq_table`. -/
def parseSymFreqGo : Nat → List Nat → List Nat → Nat → (Nat → Nat) → (Nat → Nat)
  | 0, _, _, _, table => table
  | fuel + 1, symRest, freqRest, lineNum, table =>
    if symRest ≠ [] ∧ freqRest ≠ [] ∧ lineNum < 256 then
      let ps := readShortLine symRest
      let pf := readShortLine freqRest
      let symbol := strtol2Bytes ps.1
      let fr := atoiBytes pf.1
      if 0 ≤ symbol ∧ symbol < 256 ∧ 0 < fr then
        parseSymFreqGo fuel ps.2 pf.2 (lineNum + 1)
          (fun j => if j = symbol.toNat then fr.toNat else table j)
      else
        parseSymFreqGo fuel ps.2 pf.2 lineNum table
    else table

/-- `parse_sym_freq_files`. -/
def parseSymFreqFiles (symBytes freqBytes : List Nat) : Nat → Nat :=
  parseSymFreqGo (symBytes.length + 1) symBytes freqBytes 0 (fun _ => 0)

/-- Code of symbol `i` in the global `huff_table` after the build. -/
def huffTableCode (freq : Nat → Nat) (i : Nat) : List Bool :=
  tableAfterWrites (generateHuffmanCodes freq) i

/-- Left-justified minimum-width field of `sprintf %-<w>s`. -/
def padRight (l : List Nat) (w : Nat) : List Nat := l ++ List.replicate (w - l.length) 32

/-- Right-justified minimum-width-2 field of `sprintf %2d`. -/
def pad2 (n : Nat) : List Nat := if n < 10 then 32 :: renderDec n else renderDec n

/-- Header of the human-readable codebook report
(`Symbol       Codeword         Length` and a dash separator). -/
def hmcHeaderLine : List Nat :=
  [83, 121, 109, 98, 111, 108, 32, 32, 32, 32, 32, 32, 32, 67, 111, 100, 101,
   119, 111, 114, 100, 32, 32, 32, 32, 32, 32, 32, 32, 32, 76, 101, 110, 103,
   116, 104]

/-- Separator line of the codebook report: 38 dashes. -/
def hmcSepLine : List Nat := List.replicate 38 45

/-- One row of the codebook report: `%-10s %-20s %2d`. -/
def hmcRow (i : Nat) (code : List Bool) : List Nat :=
  padRight (renderBin 8 i) 10 ++ [32] ++ padRight (renderCode code) 20 ++ [32]
    ++ pad2 code.length

/-- `stage_codebook_gen` with open files: parses the two parallel artifacts,
builds the Huffman table, and emits `(SYMIN, CODEWIN, CODELEN, HMC report,
return value)`.  The codeword field is rendered at exactly 16 bits — the
low-order 16 bits of the codeword value — and the length field at 5 bits,
whatever the actual code length; the stage returns 0 on every such run. -/
def stageCodebookGen (symBytes cntBytes : List Nat) :
    List Nat × List Nat × List Nat × List Nat × Int :=
  let table := parseSymFreqFiles symBytes cntBytes
  let rows := (List.range 256).filter (fun i => decide (0 < table i))
  let symOut := (rows.map (fun i => renderBin 8 i ++ [13, 10])).flatten
  let cwOut :=
    (rows.map (fun i => renderBin 16 (codeVal (huffTableCode table i)) ++ [13, 10])).flatten
  let lenOut :=
    (rows.map (fun i => renderBin 5 (huffTableCode table i).length ++ [13, 10])).flatten
  let hmcOut := hmcHeaderLine ++ [13, 10] ++ hmcSepLine ++ [13, 10]
    ++ (rows.map (fun i => hmcRow i (huffTableCode table i) ++ [13, 10])).flatten
  (symOut, cwOut, lenOut, hmcOut, 0)

/-- Fibonacci frequencies: 18 symbols whose Huffman tree has depth 17. -/
def fibFreqNat : Nat → Nat
  | 0 => 1
  | 1 => 1
  | n + 2 => fibFreqNat n + fibFreqNat (n + 1)

/-- SYMBOL_FILE contents listing symbols 0..17 (8-bit rows, LF-terminated),
as written by `stage_freq_counter`. -/
def c3SymBytes : List Nat := ((List.range 18).map (fun i => renderBin 8 i ++ [10])).flatten

/-- COUNT_FILE contents with Fibonacci frequencies 1,1,2,3,...,2584. -/
def c3CntBytes : List Nat :=
  ((List.range 18).map (fun i => renderDec (fibFreqNat i) ++ [10])).flatten

instance (len : Nat) (l : List Nat) : Decidable (goodLine len l) := by
  unfold goodLine
  infer_instance

/-! Split stage (decompression.c `split_comp_bin`): three-state line
classifier. -/

/-- `strncmp(line, "Symbol", 6) == 0`. -/
def startsWithSymbol (l : List Nat) : Bool := [83, 121, 109, 98, 111, 108].isPrefixOf l

/-- `is_binstr`: non-empty and consisting solely of the characters 0 and 1. -/
def isBinstr (l : List Nat) : Bool := !l.isEmpty && l.all isBitByte

/-- One step of the token counting loop of `split_comp_bin`: state is
`(token_count, in_token)`. -/
def tokenCountStep (st : Nat × Bool) (c : Nat) : Nat × Bool :=
  if !(isSpaceByte c) then (if st.2 then st else (st.1 + 1, true)) else (st.1, false)

/-- Token counting loop of `split_comp_bin`. -/
def tokenCount (l : List Nat) : Nat := (l.foldl tokenCountStep (0, false)).1

/-- One classifier step of `split_comp_bin` over the state
`(state, header, codebook, output)`. -/
def splitStep (acc : Nat × List (List Nat) × List (List Nat) × List (List Nat))
    (line : List Nat) : Nat × List (List Nat) × List (List Nat) × List (List Nat) :=
  match acc with
  | (st, hdr, cds, out) =>
    if st = 0 then
      if startsWithSymbol line then (1, hdr, cds ++ [line], out)
      else (0, hdr ++ [line], cds, out)
    else if st = 1 then
      if tokenCount line = 1 ∧ isBinstr line = true then (2, hdr, cds, out ++ [line])
      else (1, hdr, cds ++ [line], out)
    else (st, hdr, cds, out ++ [line])

/-- Classifier of `split_comp_bin` over the line sequence its reader yields. -/
def splitClassify (lines : List (List Nat)) :
    Nat × List (List Nat) × List (List Nat) × List (List Nat) :=
  lines.foldl splitStep (0, [], [], [])

/-- Whitespace-delimited tokens of a line. -/
def tokensGo : Nat → List Nat → List (List Nat)
  | 0, _ => []
  | _ + 1, [] => []
  | fuel + 1, c :: cs =>
    if isSpaceByte c then tokensGo fuel cs
    else ((c :: cs).takeWhile (fun d => !isSpaceByte d))
      :: tokensGo fuel ((c :: cs).dropWhile (fun d => !isSpaceByte d))

/-- Whitespace-delimited tokens of a line. -/
def tokensOf (l : List Nat) : List (List Nat) := tokensGo l.length l

/-- Output phase of the classifier as the spec describes it: remaining lines
are copied verbatim. -/
def specOutputPhase (ls : List (List Nat)) : List (List Nat) := ls

/-- Codebook phase as the claim words it: copy lines to the codebook artifact
until a line whose whitespace-delimited token count is exactly one and whose
sole token is a non-empty binary string; that line and the rest go to the
output artifact. -/
def specCodebookPhase : List (List Nat) → List (List Nat) × List (List Nat)
  | [] => ([], [])
  | l :: ls =>
    if (tokensOf l).length = 1 ∧ isBinstr ((tokensOf l).headD []) = true then
      ([], l :: specOutputPhase ls)
    else
      let p := specCodebookPhase ls
      (l :: p.1, p.2)

/-- Header phase as the claim words it: copy lines to the header artifact
until the first line starting with the sentinel `Symbol`, which goes to the
codebook artifact and switches the state. -/
def specHeaderPhase : List (List Nat) → List (List Nat) × List (List Nat) × List (List Nat)
  | [] => ([], [], [])
  | l :: ls =>
    if startsWithSymbol l then
      let p := specCodebookPhase ls
      ([], l :: p.1, p.2)
    else
      let p := specHeaderPhase ls
      (l :: p.1, p.2.1, p.2.2)

/-- Amended codebook phase: the boundary test applies `is_binstr` to the whole
line, so the sole token must make up the entire line, with no surrounding
whitespace. -/
def amendedCodebookPhase : List (List Nat) → List (List Nat) × List (List Nat)
  | [] => ([], [])
  | l :: ls =>
    if (tokensOf l).length = 1 ∧ isBinstr l = true then
      ([], l :: specOutputPhase ls)
    else
      let p := amendedCodebookPhase ls
      (l :: p.1, p.2)

/-- Amended three-phase description of the split classifier. -/
def amendedHeaderPhase : List (List Nat) → List (List Nat) × List (List Nat) × List (List Nat)
  | [] => ([], [], [])
  | l :: ls =>
    if startsWithSymbol l then
      let p := amendedCodebookPhase ls
      ([], l :: p.1, p.2)
    else
      let p := amendedHeaderPhase ls
      (l :: p.1, p.2.1, p.2.2)

/-! Claim C4: what the bundling, encryption and decryption stages return when
a read or write fails after their files are open.  A step is one iteration of
the `do { f_read; transform; f_write } while (br > 0)` loop: the read result
(`Except.error` for a failing `f_read`, otherwise the chunk read) paired with
whether the following `f_write` succeeds in full. -/

/-- Loop and return value of `decrypt_file` after the files are open: a read
error or a short write prints a message and breaks out of the loop, and the
function then closes the files and returns 0. -/
def decryptFileRet : List (Except Unit (List Nat) × Bool) → Int
  | [] => 0
  | (Except.error _, _) :: _ => 0
  | (Except.ok chunk, wok) :: rest =>
    if !wok then 0 else if chunk.isEmpty then 0 else decryptFileRet rest

/-- Loop and return value of `stage_encrypt_comp_bin` after the files are
open: identical control flow to `decrypt_file`; every path returns 0. -/
def stageEncryptCompBinRet : List (Except Unit (List Nat) × Bool) → Int
  | [] => 0
  | (Except.error _, _) :: _ => 0
  | (Except.ok chunk, wok) :: rest =>
    if !wok then 0 else if chunk.isEmpty then 0 else stageEncryptCompBinRet rest

/-- Result of `copy_file`: the first failing read or short write yields the
error, otherwise `FR_OK`. -/
def copyFileRes : List (Except Unit (List Nat) × Bool) → Except Unit Unit
  | [] => Except.ok ()
  | (Except.error _, _) :: _ => Except.error ()
  | (Except.ok chunk, wok) :: rest =>
    if !wok then Except.error () else if chunk.isEmpty then Except.ok () else copyFileRes rest

/-- Return value of `stage_create_comp_bin` after the files are open: each of
the three `copy_file` results is checked only to print a message; the stage
returns 0 whatever they are. -/
def stageCreateCompBinRet (s₁ s₂ s₃ : List (Except Unit (List Nat) × Bool)) : Int :=
  match copyFileRes s₁, copyFileRes s₂, copyFileRes s₃ with
  | _, _, _ => 0

/-! Claims C6/C7/C8: record-width validation, byte merging, bit parsing. -/

/-- `rstrip` (decompression.c): remove trailing spaces and tabs. -/
def rstrip (l : List Nat) : List Nat :=
  (l.reverse.dropWhile (fun c => c == 32 || c == 9)).reverse

/-- Lockstep loop of `load_huffman_table_from_files` over the record streams
of the three table artifacts: records whose widths are not exactly 8/16/5 are
skipped, the rest are loaded as `(symbol, codeword, length)` with the C casts
`uint8_t`/`uint32_t`/`uint8_t`. -/
def loadTableGo : List (List Nat) → List (List Nat) → List (List Nat) → List (Nat × Nat × Nat)
  | ls :: lss, lc :: lcs, ll :: lls =>
    if ls.length = 8 ∧ lc.length = 16 ∧ ll.length = 5 then
      (binstrToInt ls % 256, binstrToInt lc % 2 ^ 32, binstrToInt ll % 256)
        :: loadTableGo lss lcs lls
    else loadTableGo lss lcs lls
  | _, _, _ => []

/-- Three-way zip, truncating at the shortest list. -/
def zip3L : List α → List β → List γ → List (α × β × γ)
  | a :: as, b :: bs, c :: cs => (a, b, c) :: zip3L as bs cs
  | _, _, _ => []

/-- Lockstep loop of `decompress_from_files` over the occurrence streams:
records whose widths are not exactly 16/5 are skipped with a warning, the
rest are fed to the decoder accelerator `dec` and the returned byte is written
as an 8-bit record. -/
def decompressGo (dec : Nat → Nat → Nat) : List (List Nat) → List (List Nat) → List Nat
  | lc :: lcs, ll :: lls =>
    if lc.length = 16 ∧ ll.length = 5 then
      renderBin 8 (dec (binstrToInt lc % 2 ^ 32) (binstrToInt ll % 256) % 256) ++ [13, 10]
        ++ decompressGo dec lcs lls
    else decompressGo dec lcs lls
  | _, _ => []

/-- Loop of `generate_out_stream_files_from_OUTPUT`: per line, strip trailing
whitespace, keep only 0/1 characters, skip the line if nothing remains, fail
the stage if more than 16 bits remain, otherwise emit the 16-bit codeword and
5-bit length records. -/
def genOutStreamGo : List (List Nat) → Except Unit (List Nat × List Nat)
  | [] => Except.ok ([], [])
  | l :: ls =>
    let w := (rstrip l).filter isBitByte
    if w.isEmpty then genOutStreamGo ls
    else if 16 < w.length then Except.error ()
    else
      match genOutStreamGo ls with
      | Except.error _ => Except.error ()
      | Except.ok p =>
        Except.ok (renderBin 16 (binstrToInt w) ++ [13, 10] ++ p.1,
          renderBin 5 w.length ++ [13, 10] ++ p.2)

/-- Loop of `merge_symbols_to_words` over the symbol-stream records, with the
4-entry `symbols` buffer as explicit state: records that are not 8-bit binary
strings are skipped; each full group of 4 is fed to the merger accelerator
`mrg` and the 32-bit result written as a record. -/
def mergeSymbolsGo (mrg : Nat → Nat → Nat → Nat → Nat) :
    List Nat → List (List Nat) → List Nat
  | _, [] => []
  | buf, l :: ls =>
    if isBinstr l = true ∧ l.length = 8 then
      let buf' := buf ++ [binstrToByte l]
      if buf'.length = 4 then
        renderBin 32 (mrg (buf'.getD 0 0) (buf'.getD 1 0) (buf'.getD 2 0) (buf'.getD 3 0))
          ++ [13, 10] ++ mergeSymbolsGo mrg [] ls
      else mergeSymbolsGo mrg buf' ls
    else mergeSymbolsGo mrg buf ls

/-- `merge_symbols_to_words` over the record stream its reader yields. -/
def mergeSymbolsToWords (mrg : Nat → Nat → Nat → Nat → Nat)
    (lines : List (List Nat)) : List Nat :=
  mergeSymbolsGo mrg [] lines

/-- Exact groups of 4; a trailing group of fewer than 4 is dropped. -/
def groups4 : List Nat → List (Nat × Nat × Nat × Nat)
  | a :: b :: c :: d :: t => (a, b, c, d) :: groups4 t
  | _ => []

/-- Valid 8-bit record test of the merge stage. -/
def validMergeRec (l : List Nat) : Bool := isBinstr l && l.length == 8

/-- The 4 bytes the bit-parser accelerator returns for one 32-bit word, each
masked with `0xFF` and rendered as an 8-bit LF-terminated record by
`write_binary_string`. -/
def parsedRecords (pw : Nat → Nat × Nat × Nat × Nat) (word : Nat) : List Nat :=
  renderBin 8 ((pw word).1 % 256) ++ [10]
    ++ renderBin 8 ((pw word).2.1 % 256) ++ [10]
    ++ renderBin 8 ((pw word).2.2.1 % 256) ++ [10]
    ++ renderBin 8 ((pw word).2.2.2 % 256) ++ [10]

/-- Per-character step of the payload loop of `stage_bit_parser`: state is
`(input_word, bit_count, output bytes)`; `input_word` is a `u32`. -/
def bitParseStep (pw : Nat → Nat × Nat × Nat × Nat) (st : Nat × Nat × List Nat)
    (c : Nat) : Nat × Nat × List Nat :=
  match st with
  | (w, cnt, out) =>
    if isBitByte c then
      let w' := (2 * w + (c - 48)) % 2 ^ 32
      if cnt + 1 = 32 then (0, 0, out ++ parsedRecords pw w')
      else (w', cnt + 1, out)
    else st

/-- Payload processing of `stage_bit_parser` including the final flush: a
leftover partial word is shifted left by `32 - bit_count` (zero-padding the
low-order side) and parsed like a full word. -/
def bitParseBody (pw : Nat → Nat × Nat × Nat × Nat) (chars : List Nat) : List Nat :=
  let st := chars.foldl (bitParseStep pw) (0, 0, [])
  if 0 < st.2.1 then st.2.2 ++ parsedRecords pw ((st.1 * 2 ^ (32 - st.2.1)) % 2 ^ 32)
  else st.2.2

/-- Big-endian 4-byte split, the natural instance of the `parseWord`
contract of spec section 4.3. -/
def pwSplit (w : Nat) : Nat × Nat × Nat × Nat :=
  (w / 2 ^ 24, w / 2 ^ 16, w / 2 ^ 8, w)

/-! Claim C1: the full compress-then-decompress round trip.  The remaining
stage functions are modelled below; the accelerators stay parameters
(`pw` = parseWord, `mrg` = mergeBytes4, `ciph` = cipherByte,
`enc` = encodeSymbol, `dec` = decodeCodeword) constrained by the contracts of
spec section 4.3 in the hypotheses of the round-trip theorem. -/

/-- `strncmp(linebuf, "Bits:", 5) == 0`. -/
def startsWithBits (l : List Nat) : Bool := [66, 105, 116, 115, 58].isPrefixOf l

/-- Header/payload split of `stage_bit_parser`: lines are header lines up to
and including the first line starting with `Bits:`; the rest is payload. -/
def splitHeaderLines : List (List Nat) → (List (List Nat) × List (List Nat))
  | [] => ([], [])
  | l :: ls =>
    if startsWithBits l then ([l], ls)
    else
      let p := splitHeaderLines ls
      (l :: p.1, p.2)

/-- `stage_bit_parser`: header artifact (lines re-terminated with LF) and the
parsed-payload artifact obtained by streaming the payload characters through
the bit-parser accelerator. -/
def stageBitParser (pw : Nat → Nat × Nat × Nat × Nat) (input : List Nat) :
    List Nat × List Nat :=
  let p := splitHeaderLines (readLines true 256 input)
  (serializeWith [10] p.1, bitParseBody pw p.2.flatten)

/-- Loop of `stage_freq_counter` regrouping the raw 0/1 characters of the
parsed-payload artifact into bytes (`symbol_value` is a `u32`). -/
def bytesOfBitsGo (v cnt : Nat) : List Nat → List Nat
  | [] => []
  | c :: cs =>
    if isBitByte c then
      let v' := (2 * v + (c - 48)) % 2 ^ 32
      if cnt + 1 = 8 then v' :: bytesOfBitsGo 0 0 cs
      else bytesOfBitsGo v' (cnt + 1) cs
    else bytesOfBitsGo v cnt cs

/-- Byte stream the frequency stage sends through `countSymbol`. -/
def symbolsOf (raw : List Nat) : List Nat := bytesOfBitsGo 0 0 raw

/-- `read_symbol_frequency`: the accelerator's count for a symbol, masked with
`0xFFFFFF`.  Per the section 4.3 contract `countSymbol` accumulates exactly
and `readFrequency` is a pure query, so the count is the number of
occurrences streamed. -/
def freqOf (bytes : List Nat) (s : Nat) : Nat := bytes.count s % 2 ^ 24

/-- `stage_freq_counter`: the SYMBOL_FILE and COUNT_FILE artifacts, one row
per present symbol in ascending order (the FREQ_FILE report is written too
but consumed by no later stage). -/
def stageFreqCounter (parsedBytes : List Nat) : List Nat × List Nat :=
  let syms := symbolsOf parsedBytes
  let present := (List.range 256).filter (fun i => decide (0 < freqOf syms i))
  (serializeWith [10] (present.map (fun i => renderBin 8 i)),
    serializeWith [10] (present.map (fun i => renderDec (freqOf syms i))))

/-- Table-load loop of `stage_huffman_encode` (no width validation on the
compression side), with the C casts. -/
def loadCompGo : List (List Nat) → List (List Nat) → List (List Nat) → List (Nat × Nat × Nat)
  | ls :: lss, lc :: lcs, ll :: lls =>
    (binstrToInt ls % 256, binstrToInt lc % 2 ^ 32, binstrToInt ll % 256)
      :: loadCompGo lss lcs lls
  | _, _, _ => []

/-- Entries loaded into the encoder accelerator by `stage_huffman_encode`
(`MAX_LINE_LEN` is 32 in compression.c). -/
def loadTableComp (symBytes cwBytes lenBytes : List Nat) : List (Nat × Nat × Nat) :=
  loadCompGo (readLines true 32 symBytes) (readLines true 32 cwBytes)
    (readLines true 32 lenBytes)

/-- Encode loop of `stage_huffman_encode`: each parsed 8-bit record is
streamed through `encodeSymbol` and the returned codeword is written trimmed
to exactly its reported length (`cw16` masked `0xFFFFFF`, `len5` masked
`0x1F`). -/
def encodeRecords (enc : Nat → Nat × Nat) (lines : List (List Nat)) : List Nat :=
  (lines.map (fun l =>
    renderBin ((enc (binstrToInt l % 256)).2 % 32) ((enc (binstrToInt l % 256)).1 % 2 ^ 24)
      ++ [13, 10])).flatten

/-- `stage_huffman_encode` output artifact. -/
def stageHuffmanEncode (enc : Nat → Nat × Nat) (parsedBytes : List Nat) : List Nat :=
  encodeRecords enc (readLines true 32 parsedBytes)

/-- Byte-for-byte cipher pass (`stage_encrypt_comp_bin` / `decrypt_file`):
every byte goes through `cipherByte` with the fixed key and is masked
`0xFF`. -/
def cipherMap (ciph : Nat → Nat → Nat) (key : Nat) (bytes : List Nat) : List Nat :=
  bytes.map (fun b => ciph b key % 256)

/-- ENCRYPT_KEY = DECRYPT_KEY = 0x5A. -/
def cipherKey : Nat := 90

/-- `split_comp_bin`: classify the decrypted bundle's lines and emit the
three artifacts, each line re-terminated with CRLF. -/
def splitCompBin (bytes : List Nat) : List Nat × List Nat × List Nat :=
  let r := splitClassify (readLines false 256 bytes)
  (serializeWith [13, 10] r.2.1, serializeWith [13, 10] r.2.2.1,
    serializeWith [13, 10] r.2.2.2)

/-- Token extraction of `generate_huffman_table_files_from_HMCODES`: up to
one token per remaining buffer, each truncated at its buffer's capacity, the
remainder of an over-long token starting the next one. -/
def extractTokens : List Nat → List Nat → List (List Nat)
  | [], _ => []
  | cap :: caps, l =>
    let l1 := l.dropWhile isSpaceByte
    if l1.isEmpty then []
    else
      let t := (l1.takeWhile (fun c => !isSpaceByte c)).take cap
      t :: extractTokens caps (l1.drop t.length)

/-- Header skipping of `generate_huffman_table_files_from_HMCODES`: the first
line is consumed; if it starts with `Symbol` a second (separator) line is
consumed as well. -/
def hmcSkipHeader : List (List Nat) → List (List Nat)
  | [] => []
  | l₀ :: rest => if startsWithSymbol l₀ then rest.drop 1 else rest

/-- Row loop of `generate_huffman_table_files_from_HMCODES`: tokenize, apply
the validations in source order (missing tokens, 8-bit binary symbol, binary
codeword, decimal length in 0..31 — each skipping the row), fail on a
codeword longer than 16 bits, otherwise emit the three parallel records. -/
def genTableRowsGo : List (List Nat) → Except Unit (List Nat × List Nat × List Nat)
  | [] => Except.ok ([], [], [])
  | l :: ls =>
    let l' := rstrip l
    if l'.isEmpty then genTableRowsGo ls
    else
      let ts := extractTokens [63, 127, 63] l'
      if ts.length < 3 then genTableRowsGo ls
      else
        let symbol := ts.getD 0 []
        let codeword := ts.getD 1 []
        let lenstr := ts.getD 2 []
        if ¬(symbol.length = 8) ∨ isBinstr symbol = false then genTableRowsGo ls
        else if isBinstr codeword = false then genTableRowsGo ls
        else if atoiBytes lenstr < 0 ∨ 31 < atoiBytes lenstr then genTableRowsGo ls
        else if 16 < codeword.length then Except.error ()
        else
          match genTableRowsGo ls with
          | Except.error e => Except.error e
          | Except.ok p =>
            Except.ok (symbol ++ [13, 10] ++ p.1,
              renderBin 16 (binstrToInt codeword) ++ [13, 10] ++ p.2.1,
              renderBin 5 (atoiBytes lenstr).toNat ++ [13, 10] ++ p.2.2)

/-- `generate_huffman_table_files_from_HMCODES`. -/
def genTableFilesFromHMC (hmcBytes : List Nat) : Except Unit (List Nat × List Nat × List Nat) :=
  genTableRowsGo (hmcSkipHeader (readLines false 256 hmcBytes))

/-- `generate_out_stream_files_from_OUTPUT`. -/
def genOutStreamFiles (outputBytes : List Nat) : Except Unit (List Nat × List Nat) :=
  genOutStreamGo (readLines false 256 outputBytes)

/-- `load_huffman_table_from_files`: the entries loaded into the decoder. -/
def loadTableFromFiles (symBytes cwBytes lenBytes : List Nat) : List (Nat × Nat × Nat) :=
  loadTableGo (readLines false 256 symBytes) (readLines false 256 cwBytes)
    (readLines false 256 lenBytes)

/-- `decompress_from_files` over the artifact bytes. -/
def decompressFromFiles (dec : Nat → Nat → Nat) (cwBytes lenBytes : List Nat) : List Nat :=
  decompressGo dec (readLines false 256 cwBytes) (readLines false 256 lenBytes)

/-- `merge_symbols_to_words` over the artifact bytes. -/
def mergeSymbolsToWordsBytes (mrg : Nat → Nat → Nat → Nat → Nat) (bytes : List Nat) :
    List Nat :=
  mergeSymbolsToWords mrg (readLines false 256 bytes)

/-- `merge_header_and_data`: copy the header lines, then the merged-word
lines, each re-terminated with CRLF. -/
def mergeHeaderAndData (headerBytes mergedBytes : List Nat) : List Nat :=
  serializeWith [13, 10] (readLines false 256 headerBytes)
    ++ serializeWith [13, 10] (readLines false 256 mergedBytes)

/-- Compression pipeline, `stage_bit_parser` through `stage_encrypt_comp_bin`
(the helper SYMIN/CODEWIN/CODELEN artifacts are produced along the way; the
bundle concatenates header, codebook report and encoded output). -/
def compressPipeline (pw : Nat → Nat × Nat × Nat × Nat) (ciph : Nat → Nat → Nat)
    (enc : Nat → Nat × Nat) (input : List Nat) : List Nat :=
  let bp := stageBitParser pw input
  let fc := stageFreqCounter bp.2
  let cb := stageCodebookGen fc.1 fc.2
  cipherMap ciph cipherKey (bp.1 ++ cb.2.2.2.1 ++ stageHuffmanEncode enc bp.2)

/-- Decompression pipeline, `decrypt_file` through `merge_header_and_data`.
The pipeline aborts (error) at the first failing stage; the table-load stage
only programs the decoder accelerator, whose behavior is the parameter
`dec`. -/
def decompressPipeline (ciph : Nat → Nat → Nat) (dec : Nat → Nat → Nat)
    (mrg : Nat → Nat → Nat → Nat → Nat) (encrBytes : List Nat) :
    Except Unit (List Nat) :=
  let sp := splitCompBin (cipherMap ciph cipherKey encrBytes)
  match genTableFilesFromHMC sp.2.1 with
  | Except.error e => Except.error e
  | Except.ok _ =>
    match genOutStreamFiles sp.2.2 with
    | Except.error e => Except.error e
    | Except.ok os =>
      Except.ok (mergeHeaderAndData sp.1
        (mergeSymbolsToWordsBytes mrg (decompressFromFiles dec os.1 os.2)))

/-- Symbols at the leaves of a tree, in left-to-right order. -/
def HuffNode.leavesL : HuffNode → List Nat
  | .leaf s _ => [s]
  | .node _ l r => l.leavesL ++ r.leavesL

/-- Leaf symbols of all nodes of a heap array. -/
def heapSyms (h : List HuffNode) : List Nat := (h.map HuffNode.leavesL).flatten

/-! Stage-level lemmas for the round trip. -/

/-- The 4 masked bytes the bit parser returns for a word. -/
def wordBytes (pw : Nat → Nat × Nat × Nat × Nat) (w : Nat) : List Nat :=
  [(pw w).1 % 256, (pw w).2.1 % 256, (pw w).2.2.1 % 256, (pw w).2.2.2 % 256]

/-- Payload byte stream determined by the body lines and the parser. -/
def payloadOf (pw : Nat → Nat × Nat × Nat × Nat) (bodyLines : List (List Nat)) : List Nat :=
  (bodyLines.map (fun l => wordBytes pw (binstrToInt l))).flatten

/-- Symbols 0..255 with a non-zero masked count, in ascending order. -/
def presentOf (bytes : List Nat) : List Nat :=
  (List.range 256).filter (fun i => decide (0 < freqOf bytes i))

/-- Big-endian byte split meeting the `parseWord` contract. -/
def rtPw (w : Nat) : Nat × Nat × Nat × Nat :=
  (w / 2 ^ 24 % 256, w / 2 ^ 16 % 256, w / 2 ^ 8 % 256, w % 256)

/-- Big-endian byte merge meeting the `mergeBytes4` contract. -/
def rtMrg (a b c d : Nat) : Nat := a * 2 ^ 24 + b * 2 ^ 16 + c * 2 ^ 8 + d

/-- An involutory byte transform meeting the `cipherByte` contract. -/
def rtCiph (b : Nat) (_k : Nat) : Nat := 255 - b

/-- One 32-bit body line: sixteen 0 bits then sixteen 1 bits. -/
def rtBody : List (List Nat) := [renderBin 32 65535]

/-- Encoder consistent with the generated table for the witness run. -/
def rtEnc (b : Nat) : Nat × Nat :=
  (codeVal (huffTableCode (freqOf (payloadOf rtPw rtBody)) b),
   (huffTableCode (freqOf (payloadOf rtPw rtBody)) b).length)

/-- Decoder consistent with the generated table for the witness run. -/
def rtDec (v n : Nat) : Nat :=
  (((generateHuffmanCodes (freqOf (payloadOf rtPw rtBody))).filter
      (fun e => codeVal e.2 == v && e.2.length == n)).headD (0, [])).1

/-- The sentinel header line `Bits:`. -/
def rtBits : List Nat := [66, 105, 116, 115, 58]

/-! Theorems. -/

@[simp] theorem length_renderBin (w v : Nat) : (renderBin w v).length = w := by
  simp [renderBin]

theorem renderBin_succ (w v : Nat) :
    renderBin (w + 1) v = natBitChar v w :: renderBin w v := by
  simp only [renderBin, List.range_succ_eq_map, List.map_cons, List.map_map,
    Function.comp_def, Nat.add_sub_cancel, Nat.sub_zero]
  congr 1
  apply List.map_congr_left
  intro a ha
  congr 1
  simp only [List.mem_range] at ha
  omega

theorem isBitByte_natBitChar (v i : Nat) : isBitByte (natBitChar v i) = true := by
  unfold natBitChar; split <;> decide

theorem mem_renderBin_isBit {c w v : Nat} (h : c ∈ renderBin w v) : isBitByte c = true := by
  simp only [renderBin, List.mem_map] at h
  obtain ⟨j, -, rfl⟩ := h
  exact isBitByte_natBitChar _ _

theorem isBitByte_facts {c : Nat} (h : isBitByte c = true) :
    c ≠ 10 ∧ c ≠ 13 ∧ c < 256 ∧ isSpaceByte c = false ∧ isDigitByte c = true := by
  simp only [isBitByte, Bool.or_eq_true, beq_iff_eq] at h
  rcases h with rfl | rfl <;> refine ⟨by decide, by decide, by decide, by decide, by decide⟩

theorem binstrToIntGo_renderBin (a w v : Nat) :
    binstrToIntGo a (renderBin w v) = a * 2 ^ w + v % 2 ^ w := by
  induction w generalizing a with
  | zero => simp [renderBin, binstrToIntGo, Nat.mod_one]
  | succ w ih =>
    rw [renderBin_succ, binstrToIntGo, if_pos (isBitByte_natBitChar v w)]
    rw [ih]
    have hchar : natBitChar v w - 48 = v / 2 ^ w % 2 := by
      unfold natBitChar
      rcases Nat.mod_two_eq_zero_or_one (v / 2 ^ w) with h | h <;> simp [h]
    rw [hchar]
    have hsplit : v % 2 ^ (w + 1) = v % 2 ^ w + 2 ^ w * (v / 2 ^ w % 2) := by
      rw [pow_succ, Nat.mod_mul]
    rw [hsplit]; ring

theorem binstrToInt_renderBin (w v : Nat) : binstrToInt (renderBin w v) = v % 2 ^ w := by
  simp [binstrToInt, binstrToIntGo_renderBin]

theorem binstrToIntGo_allBits (a : Nat) (s : List Nat)
    (h : ∀ c ∈ s, isBitByte c = true) :
    binstrToIntGo a s = s.foldl (fun v c => 2 * v + (c - 48)) a := by
  induction s generalizing a with
  | nil => rfl
  | cons c cs ih =>
    rw [binstrToIntGo, if_pos (h c (List.mem_cons_self ..)), List.foldl_cons]
    exact ih _ (fun d hd => h d (List.mem_cons_of_mem _ hd))

/-- Value of a pure binary string is bounded by `2 ^ length`. -/
theorem binstrToIntGo_lt (s : List Nat) (h : ∀ c ∈ s, isBitByte c = true) :
    ∀ a k, a < 2 ^ k → binstrToIntGo a s < 2 ^ (k + s.length) := by
  induction s with
  | nil => intro a k ha; simpa [binstrToIntGo] using ha
  | cons c cs ih =>
    intro a k ha
    rw [binstrToIntGo, if_pos (h c (List.mem_cons_self ..))]
    have hc : c - 48 ≤ 1 := by
      have := h c (List.mem_cons_self ..)
      simp only [isBitByte, Bool.or_eq_true, beq_iff_eq] at this
      rcases this with rfl | rfl <;> decide
    have hacc : 2 * a + (c - 48) < 2 ^ (k + 1) := by
      have h2 : 2 ^ (k + 1) = 2 * 2 ^ k := by ring
      omega
    have := ih (fun d hd => h d (List.mem_cons_of_mem _ hd)) _ _ hacc
    have harith : k + 1 + cs.length = k + (c :: cs).length := by
      simp [List.length_cons]; omega
    rwa [harith] at this

theorem binstrToInt_lt (s : List Nat) (h : ∀ c ∈ s, isBitByte c = true) :
    binstrToInt s < 2 ^ s.length := by
  have := binstrToIntGo_lt s h 0 0 (by decide)
  simpa [binstrToInt] using this

/-- Accumulator form of `binstrToIntGo` on a pure binary string. -/
theorem binstrToIntGo_acc (a : Nat) (s : List Nat)
    (h : ∀ c ∈ s, isBitByte c = true) :
    binstrToIntGo a s = a * 2 ^ s.length + binstrToInt s := by
  induction s generalizing a with
  | nil => simp [binstrToIntGo, binstrToInt]
  | cons c cs ih =>
    have hc := h c (List.mem_cons_self ..)
    have hcs : ∀ d ∈ cs, isBitByte d = true := fun d hd => h d (List.mem_cons_of_mem _ hd)
    rw [binstrToIntGo, if_pos hc, ih _ hcs]
    have hcons : binstrToInt (c :: cs) = (c - 48) * 2 ^ cs.length + binstrToInt cs := by
      rw [binstrToInt, binstrToIntGo, if_pos hc]
      simpa using ih (c - 48) hcs
    rw [hcons]
    simp [List.length_cons, pow_succ]
    ring

/-- Only the low `w` bits of the value matter to `renderBin`. -/
theorem renderBin_mod (w v : Nat) : renderBin w v = renderBin w (v % 2 ^ w) := by
  unfold renderBin
  apply List.map_congr_left
  intro j hj
  simp only [List.mem_range] at hj
  unfold natBitChar
  have hi : w - 1 - j < w := by omega
  have hsplit : 2 ^ w = 2 ^ (w - 1 - j) * 2 ^ (w - (w - 1 - j)) := by
    rw [← pow_add]
    congr 1
    omega
  have : v % 2 ^ w / 2 ^ (w - 1 - j) % 2 = v / 2 ^ (w - 1 - j) % 2 := by
    rw [hsplit, Nat.mod_mul_right_div_self]
    have h2 : (2 : Nat) ∣ 2 ^ (w - (w - 1 - j)) := dvd_pow_self 2 (by omega)
    rw [Nat.mod_mod_of_dvd _ h2]
  rw [this]

/-- Rendering the value of a full-width binary string gives the string back. -/
theorem renderBin_binstrToInt (s : List Nat) (h : ∀ c ∈ s, isBitByte c = true) :
    renderBin s.length (binstrToInt s) = s := by
  induction s with
  | nil => rfl
  | cons c cs ih =>
    have hc := h c (List.mem_cons_self ..)
    have hcs : ∀ d ∈ cs, isBitByte d = true := fun d hd => h d (List.mem_cons_of_mem _ hd)
    have hcv : c - 48 ≤ 1 ∧ 48 ≤ c := by
      simp only [isBitByte, Bool.or_eq_true, beq_iff_eq] at hc
      rcases hc with rfl | rfl <;> exact ⟨by decide, by decide⟩
    have hval : binstrToInt (c :: cs) = (c - 48) * 2 ^ cs.length + binstrToInt cs := by
      rw [binstrToInt, binstrToIntGo, if_pos hc]
      simpa using binstrToIntGo_acc (c - 48) cs hcs
    have hlt : binstrToInt cs < 2 ^ cs.length := binstrToInt_lt cs hcs
    rw [List.length_cons, renderBin_succ, List.cons.injEq]
    have hdiv : binstrToInt (c :: cs) / 2 ^ cs.length = c - 48 := by
      rw [hval, Nat.add_comm,
        Nat.add_mul_div_right _ _ (Nat.pos_pow_of_pos _ (by decide)),
        Nat.div_eq_of_lt hlt]
      omega
    refine ⟨?_, ?_⟩
    · -- leading character is bit `cs.length` of the value
      unfold natBitChar
      have hm2 : binstrToInt (c :: cs) / 2 ^ cs.length % 2 = c - 48 := by
        rw [hdiv]; omega
      rw [hm2]
      simp only [isBitByte, Bool.or_eq_true, beq_iff_eq] at hc
      rcases hc with rfl | rfl <;> decide
    · rw [renderBin_mod]
      have hmod : binstrToInt (c :: cs) % 2 ^ cs.length = binstrToInt cs := by
        rw [hval, Nat.add_comm, Nat.add_mul_mod_self_right, Nat.mod_eq_of_lt hlt]
      rw [hmod]
      exact ih hcs

theorem renderDecGo_eq : ∀ n fuel, n < fuel → renderDecGo fuel n = renderDec n := by
  intro n
  induction n using Nat.strong_induction_on with
  | _ n ih =>
    intro fuel hf
    match fuel, hf with
    | fuel + 1, _ =>
      by_cases h10 : n < 10
      · rw [renderDecGo, if_pos h10, renderDec, renderDecGo, if_pos h10]
      · have hdiv : n / 10 < n := Nat.div_lt_self (by omega) (by decide)
        rw [renderDecGo, if_neg h10, renderDec, renderDecGo, if_neg h10,
          ih _ hdiv fuel (by omega), ih _ hdiv n (by omega)]

theorem renderDec_unfold (n : Nat) :
    renderDec n = if n < 10 then [48 + n] else renderDec (n / 10) ++ [48 + n % 10] := by
  rw [renderDec, renderDecGo]
  by_cases h10 : n < 10
  · rw [if_pos h10, if_pos h10]
  · have hdiv : n / 10 < n := Nat.div_lt_self (by omega) (by decide)
    rw [if_neg h10, if_neg h10, renderDecGo_eq _ _ (by omega)]

theorem renderDec_digits (n : Nat) : ∀ c ∈ renderDec n, isDigitByte c = true := by
  induction n using Nat.strong_induction_on with
  | _ n ih =>
    rw [renderDec_unfold]
    by_cases h10 : n < 10
    · rw [if_pos h10]
      intro c hc
      simp only [List.mem_singleton] at hc
      subst hc
      simp [isDigitByte]
      omega
    · have hdiv : n / 10 < n := Nat.div_lt_self (by omega) (by decide)
      rw [if_neg h10]
      intro c hc
      rcases List.mem_append.mp hc with h | h
      · exact ih _ hdiv c h
      · simp only [List.mem_singleton] at h
        subst h
        have := Nat.mod_lt n (y := 10) (by decide)
        simp [isDigitByte]
        omega

theorem renderDec_ne_nil (n : Nat) : renderDec n ≠ [] := by
  rw [renderDec_unfold]
  by_cases h10 : n < 10
  · simp [h10]
  · simp [h10]

theorem isDigitByte_facts {c : Nat} (h : isDigitByte c = true) :
    c ≠ 10 ∧ c ≠ 13 ∧ c ≠ 45 ∧ c ≠ 43 ∧ c < 256 ∧ isSpaceByte c = false := by
  simp only [isDigitByte, Bool.and_eq_true, decide_eq_true_eq] at h
  refine ⟨by omega, by omega, by omega, by omega, by omega, ?_⟩
  simp only [isSpaceByte]
  simp only [Bool.or_eq_false_iff, beq_eq_false_iff_ne, ne_eq]
  omega

theorem parseDigitsGo_append (a : Nat) (xs ys : List Nat)
    (h : ∀ c ∈ xs, isDigitByte c = true) :
    parseDigitsGo a (xs ++ ys) = parseDigitsGo (parseDigitsGo a xs) ys := by
  induction xs generalizing a with
  | nil => rfl
  | cons c cs ih =>
    rw [List.cons_append, parseDigitsGo, parseDigitsGo,
      if_pos (h c (List.mem_cons_self ..)), if_pos (h c (List.mem_cons_self ..))]
    exact ih _ (fun d hd => h d (List.mem_cons_of_mem _ hd))

theorem parseDigitsGo_renderDec (n : Nat) :
    ∀ a, parseDigitsGo a (renderDec n) = a * 10 ^ (renderDec n).length + n := by
  induction n using Nat.strong_induction_on with
  | _ n ih =>
    intro a
    rw [renderDec_unfold]
    by_cases h10 : n < 10
    · rw [if_pos h10]
      have hd : isDigitByte (48 + n) = true := by
        simp [isDigitByte]; omega
      rw [parseDigitsGo, if_pos hd, parseDigitsGo]
      simp
      omega
    · have hdiv : n / 10 < n := Nat.div_lt_self (by omega) (by decide)
      rw [if_neg h10,
        parseDigitsGo_append _ _ _ (renderDec_digits (n / 10)), ih _ hdiv a]
      have hd : isDigitByte (48 + n % 10) = true := by
        have := Nat.mod_lt n (y := 10) (by decide)
        simp [isDigitByte]; omega
      rw [parseDigitsGo, if_pos hd, parseDigitsGo]
      have hmod : 48 + n % 10 - 48 = n % 10 := by omega
      rw [hmod]
      simp [List.length_append, pow_succ, pow_add]
      have := Nat.div_add_mod n 10
      ring_nf
      nlinarith [Nat.div_add_mod n 10]

theorem atoiBytes_renderDec (n : Nat) : atoiBytes (renderDec n) = n := by
  obtain ⟨c, t, hct⟩ : ∃ c t, renderDec n = c :: t := by
    cases h : renderDec n with
    | nil => exact absurd h (renderDec_ne_nil n)
    | cons c t => exact ⟨c, t, rfl⟩
  have hc : isDigitByte c = true := renderDec_digits n c (by rw [hct]; exact List.mem_cons_self ..)
  obtain ⟨-, -, hc45, hc43, -, hcsp⟩ := isDigitByte_facts hc
  unfold atoiBytes
  rw [hct]
  simp only [List.dropWhile_cons, hcsp, Bool.false_eq_true, if_false, List.headD_cons]
  rw [if_neg (by simpa using hc45), if_neg (by simpa using hc43)]
  have := parseDigitsGo_renderDec n 0
  rw [hct] at this
  simp only [Nat.zero_mul, Nat.zero_add] at this
  rw [this]

theorem strtol2Bytes_allBits (s : List Nat) (hne : s ≠ [])
    (h : ∀ c ∈ s, isBitByte c = true) : strtol2Bytes s = (binstrToInt s : Int) := by
  obtain ⟨c, t, rfl⟩ : ∃ c t, s = c :: t := by
    cases s with
    | nil => exact absurd rfl hne
    | cons c t => exact ⟨c, t, rfl⟩
  have hc := h c (List.mem_cons_self ..)
  obtain ⟨-, -, -, hcsp, -⟩ := isBitByte_facts hc
  have hc45 : c ≠ 45 ∧ c ≠ 43 := by
    simp only [isBitByte, Bool.or_eq_true, beq_iff_eq] at hc
    rcases hc with rfl | rfl <;> exact ⟨by decide, by decide⟩
  unfold strtol2Bytes
  simp only [List.dropWhile_cons, hcsp, Bool.false_eq_true, if_false, List.headD_cons]
  rw [if_neg (by simpa using hc45.1), if_neg (by simpa using hc45.2)]

theorem fReadlineAux_rest_le (len : Nat) :
    ∀ (input : List Nat) i acc, (fReadlineAux len i acc input).2.length ≤ input.length := by
  intro input
  induction input with
  | nil => intro i acc; simp [fReadlineAux]
  | cons c cs ih =>
    intro i acc
    rw [fReadlineAux]
    by_cases h1 : i + 1 < len
    · rw [if_pos h1]
      by_cases h10 : c = 10
      · rw [if_pos h10]; simp
      · rw [if_neg h10]
        by_cases h13 : c = 13
        · rw [if_pos h13]
          exact le_trans (ih i acc) (by simp)
        · rw [if_neg h13]
          exact le_trans (ih (i + 1) (c :: acc)) (by simp)
    · rw [if_neg h1]

theorem fReadlineAux_rest_lt (len : Nat) (hlen : 2 ≤ len) :
    ∀ (input : List Nat), input ≠ [] →
      (fReadlineAux len 0 [] input).2.length < input.length := by
  intro input hne
  match input with
  | c :: cs =>
    rw [fReadlineAux, if_pos (by omega)]
    by_cases h10 : c = 10
    · rw [if_pos h10]; simp
    · rw [if_neg h10]
      by_cases h13 : c = 13
      · rw [if_pos h13]
        exact Nat.lt_succ_of_le (fReadlineAux_rest_le len cs 0 [])
      · rw [if_neg h13]
        exact Nat.lt_succ_of_le (fReadlineAux_rest_le len cs 1 [c])

theorem fReadlineAux_nil (len : Nat) (i : Nat) (acc : List Nat) :
    fReadlineAux len i acc [] = (acc.reverse, []) := rfl

theorem readLinesGo_stable (comp : Bool) (len : Nat) (hlen : 2 ≤ len) :
    ∀ (n : Nat) (input : List Nat) (fuel₁ fuel₂ : Nat), input.length ≤ n →
      input.length < fuel₁ → input.length < fuel₂ →
      readLinesGo comp len fuel₁ input = readLinesGo comp len fuel₂ input := by
  intro n
  induction n with
  | zero =>
    intro input fuel₁ fuel₂ hn h1 h2
    have : input = [] := List.length_eq_zero.mp (by omega)
    subst this
    match fuel₁, fuel₂, h1, h2 with
    | f₁ + 1, f₂ + 1, _, _ =>
      rw [readLinesGo, readLinesGo]
      simp [fReadlineAux_nil]
  | succ n ih =>
    intro input fuel₁ fuel₂ hn h1 h2
    match fuel₁, fuel₂, h1, h2 with
    | f₁ + 1, f₂ + 1, _, _ =>
      rw [readLinesGo, readLinesGo]
      by_cases hinp : input = []
      · subst hinp; simp [fReadlineAux_nil]
      · have hlt := fReadlineAux_rest_lt len hlen input hinp
        have hrest : (fReadlineAux len 0 [] input).2.length ≤ n := by omega
        have := ih (fReadlineAux len 0 [] input).2 f₁ f₂ hrest (by omega) (by omega)
        simp only [this]

theorem readLines_unfold (comp : Bool) (len : Nat) (hlen : 2 ≤ len) (input : List Nat) :
    readLines comp len input =
      (let p := fReadlineAux len 0 [] input
       let ret : Bool := if comp then !(p.1.isEmpty && p.2.isEmpty) else !p.1.isEmpty
       if ret then p.1 :: readLines comp len p.2 else []) := by
  rw [readLines, readLinesGo]
  by_cases hinp : input = []
  · subst hinp; simp [fReadlineAux_nil]
  · have hlt := fReadlineAux_rest_lt len hlen input hinp
    simp only
    rw [readLines,
      readLinesGo_stable comp len hlen (fReadlineAux len 0 [] input).2.length
        (fReadlineAux len 0 [] input).2 input.length
        ((fReadlineAux len 0 [] input).2.length + 1) le_rfl (by omega) (by omega)]

theorem fReadlineAux_line (len : Nat) (l rest : List Nat) (t : List Nat)
    (ht : isLineTerm t) (hgood : goodLine len l) :
    ∀ acc i, i = acc.length → i + l.length + 2 ≤ len →
      fReadlineAux len i acc (l ++ t ++ rest) = (acc.reverse ++ l, rest) := by
  induction l with
  | nil =>
    intro acc i hi hlen
    rcases ht with rfl | rfl
    · rw [List.nil_append, List.cons_append, fReadlineAux,
        if_pos (by omega), if_pos rfl]
      simp
    · rw [List.nil_append, List.cons_append, fReadlineAux,
        if_pos (by omega), if_neg (by decide), if_pos rfl]
      rw [List.cons_append, fReadlineAux, if_pos (by omega), if_pos rfl]
      simp
  | cons c cs ih =>
    intro acc i hi hlen
    have hc : c ≠ 10 ∧ c ≠ 13 := hgood.1 c (List.mem_cons_self ..)
    rw [List.cons_append, List.cons_append, fReadlineAux,
      if_pos (by simp at hlen ⊢; omega), if_neg hc.1, if_neg hc.2]
    have hgood' : goodLine len cs :=
      ⟨fun d hd => hgood.1 d (List.mem_cons_of_mem _ hd), by
        have := hgood.2; simp at this ⊢; omega⟩
    have := ih hgood' (c :: acc) (i + 1) (by simp [hi]) (by simp at hlen ⊢; omega)
    rw [this]
    simp

theorem readLines_cons (comp : Bool) (len : Nat) (hlen : 2 ≤ len)
    (l t rest : List Nat) (ht : isLineTerm t) (hgood : goodLine len l) (hne : l ≠ []) :
    readLines comp len (l ++ t ++ rest) = l :: readLines comp len rest := by
  rw [readLines_unfold comp len hlen]
  have haux := fReadlineAux_line len l rest t ht hgood [] 0 rfl (by
    have := hgood.2; omega)
  simp only [haux, List.nil_append]
  have : l.isEmpty = false := by
    cases l with
    | nil => exact absurd rfl hne
    | cons a b => rfl
  rcases comp with _ | _ <;> simp [this]

@[simp] theorem readLines_nil (comp : Bool) (len : Nat) :
    readLines comp len [] = [] := by
  rw [readLines, readLinesGo]
  simp [fReadlineAux_nil]

@[simp] theorem serializeWith_nil (t : List Nat) : serializeWith t [] = [] := rfl

theorem serializeWith_cons (t : List Nat) (l : List Nat) (ls : List (List Nat)) :
    serializeWith t (l :: ls) = l ++ t ++ serializeWith t ls := by
  simp [serializeWith]

theorem readLines_serialize_append (comp : Bool) (len : Nat) (hlen : 2 ≤ len)
    (t : List Nat) (ht : isLineTerm t) (ls : List (List Nat)) (rest : List Nat)
    (hgood : ∀ l ∈ ls, goodLine len l ∧ l ≠ []) :
    readLines comp len (serializeWith t ls ++ rest) = ls ++ readLines comp len rest := by
  induction ls with
  | nil => simp [serializeWith]
  | cons l ls ih =>
    rw [serializeWith_cons, List.append_assoc, List.append_assoc]
    have hl := hgood l (List.mem_cons_self ..)
    rw [← List.append_assoc l t _]
    rw [readLines_cons comp len hlen l t _ ht hl.1 hl.2,
      ih (fun x hx => hgood x (List.mem_cons_of_mem _ hx))]
    rfl

theorem readLines_serialize (comp : Bool) (len : Nat) (hlen : 2 ≤ len)
    (t : List Nat) (ht : isLineTerm t) (ls : List (List Nat))
    (hgood : ∀ l ∈ ls, goodLine len l ∧ l ≠ []) :
    readLines comp len (serializeWith t ls) = ls := by
  have := readLines_serialize_append comp len hlen t ht ls [] hgood
  simpa using this

theorem assignCodes_extends (t : HuffNode) :
    ∀ (p : List Bool), ∀ e ∈ assignCodes t p, p <+: e.2 := by
  induction t with
  | leaf s f =>
    intro p e he
    simp only [assignCodes, List.mem_singleton] at he
    subst he
    exact List.prefix_rfl
  | node f l r ihl ihr =>
    intro p e he
    rcases List.mem_append.mp he with h | h
    · exact List.IsPrefix.trans (by simp) (ihl (p ++ [false]) e h)
    · exact List.IsPrefix.trans (by simp) (ihr (p ++ [true]) e h)

theorem not_prefix_of_ne_branch {p c₁ c₂ : List Bool} {a b : Bool} (hab : a ≠ b)
    (h₁ : p ++ [a] <+: c₁) (h₂ : p ++ [b] <+: c₂) : ¬ c₁ <+: c₂ := by
  intro hc
  have hf : p ++ [a] <+: c₂ := h₁.trans hc
  have hlen : (p ++ [a]).length = (p ++ [b]).length := by simp
  rcases List.prefix_or_prefix_of_prefix hf h₂ with h | h
  · have := List.IsPrefix.eq_of_length h hlen
    simp at this
    exact hab this
  · have := List.IsPrefix.eq_of_length h hlen.symm
    simp at this
    exact hab this.symm

theorem assignCodes_pairwise (t : HuffNode) (p : List Bool) :
    (assignCodes t p).Pairwise (fun e₁ e₂ => ¬ e₁.2 <+: e₂.2 ∧ ¬ e₂.2 <+: e₁.2) := by
  induction t generalizing p with
  | leaf s f => simp [assignCodes]
  | node f l r ihl ihr =>
    rw [assignCodes, List.pairwise_append]
    refine ⟨ihl _, ihr _, ?_⟩
    intro e₁ h₁ e₂ h₂
    have hx := assignCodes_extends l (p ++ [false]) e₁ h₁
    have hy := assignCodes_extends r (p ++ [true]) e₂ h₂
    exact ⟨not_prefix_of_ne_branch (by decide) hx hy,
      not_prefix_of_ne_branch (by decide) hy hx⟩

theorem kraftSum_assignCodes (t : HuffNode) (p : List Bool) :
    kraftSum (assignCodes t p) = (1 / 2 : ℚ) ^ p.length := by
  induction t generalizing p with
  | leaf s f => simp [assignCodes, kraftSum]
  | node f l r ihl ihr =>
    have hl := ihl (p ++ [false])
    have hr := ihr (p ++ [true])
    unfold kraftSum at hl hr ⊢
    rw [assignCodes, List.map_append, List.sum_append, hl, hr]
    simp only [List.length_append, List.length_cons, List.length_nil]
    rw [pow_succ]
    ring

/-- C2: for every frequency table with at least two distinct present symbols,
the codes assigned by `generate_huffman_codes`/`assign_codes` are pairwise
prefix-free and their Kraft sum is at most 1. -/
theorem generateHuffmanCodes_prefixFree_kraft (freq : Nat → Nat)
    (_h : 2 ≤ ((List.range 256).filter (fun i => decide (0 < freq i))).length) :
    ((generateHuffmanCodes freq).Pairwise
      (fun e₁ e₂ => ¬ e₁.2 <+: e₂.2 ∧ ¬ e₂.2 <+: e₁.2))
    ∧ kraftSum (generateHuffmanCodes freq) ≤ 1 := by
  unfold generateHuffmanCodes
  split
  · refine ⟨assignCodes_pairwise _ [], ?_⟩
    rw [kraftSum_assignCodes]
    norm_num
  · exact ⟨List.Pairwise.nil, by simp [kraftSum]⟩

set_option maxRecDepth 10000 in
/-- Witness for C2 at a concrete two-symbol frequency table. -/
theorem generateHuffmanCodes_prefixFree_kraft_witness :
    (2 ≤ ((List.range 256).filter
        (fun i => decide (0 < (fun j => if j < 2 then 1 else 0) i))).length)
    ∧ (((generateHuffmanCodes (fun j => if j < 2 then 1 else 0)).Pairwise
        (fun e₁ e₂ => ¬ e₁.2 <+: e₂.2 ∧ ¬ e₂.2 <+: e₁.2))
      ∧ kraftSum (generateHuffmanCodes (fun j => if j < 2 then 1 else 0)) ≤ 1) :=
  ⟨by decide, generateHuffmanCodes_prefixFree_kraft _ (by decide)⟩

theorem initFold_no_present (freq : Nat → Nat) :
    ∀ (l : List Nat) (acc : List HuffNode),
      l.filter (fun i => decide (0 < freq i)) = [] →
      l.foldl (fun h i => if 0 < freq i then heapPush h (HuffNode.leaf i (freq i)) else h) acc
        = acc := by
  intro l
  induction l with
  | nil => intro acc _; rfl
  | cons i t ih =>
    intro acc hf
    rw [List.filter_cons] at hf
    by_cases hp : 0 < freq i
    · simp [hp] at hf
    · rw [List.foldl_cons, if_neg hp]
      rw [show decide (0 < freq i) = false by simpa using hp] at hf
      simp only [Bool.false_eq_true, if_false] at hf
      exact ih acc hf

theorem initFold_single (freq : Nat → Nat) :
    ∀ (l : List Nat) (acc : List HuffNode) (s : Nat),
      l.filter (fun i => decide (0 < freq i)) = [s] →
      l.foldl (fun h i => if 0 < freq i then heapPush h (HuffNode.leaf i (freq i)) else h) acc
        = heapPush acc (HuffNode.leaf s (freq s)) := by
  intro l
  induction l with
  | nil => intro acc s hf; simp at hf
  | cons i t ih =>
    intro acc s hf
    rw [List.filter_cons] at hf
    by_cases hp : 0 < freq i
    · simp only [show decide (0 < freq i) = true by simpa using hp] at hf
      have hi : i = s := (List.cons_eq_cons.mp hf).1
      have ht : t.filter (fun i => decide (0 < freq i)) = [] := (List.cons_eq_cons.mp hf).2
      rw [List.foldl_cons, if_pos hp, initFold_no_present freq t _ ht, hi]
    · rw [show decide (0 < freq i) = false by simpa using hp] at hf
      simp only [Bool.false_eq_true, if_false] at hf
      rw [List.foldl_cons, if_neg hp]
      exact ih acc s hf

/-- C9: a frequency table with no present symbol yields an empty code table,
and a table with exactly one present symbol assigns that symbol the empty
codeword (code length 0). -/
theorem generateHuffmanCodes_degenerate (freq : Nat → Nat) :
    (((List.range 256).filter (fun i => decide (0 < freq i))) = [] →
      generateHuffmanCodes freq = [])
    ∧ (∀ s, ((List.range 256).filter (fun i => decide (0 < freq i))) = [s] →
      generateHuffmanCodes freq = [(s, [])]) := by
  constructor
  · intro h0
    have hinit : initHeap freq = [] := initFold_no_present freq (List.range 256) [] h0
    rw [generateHuffmanCodes, hinit]
    rfl
  · intro s h1
    have hinit : initHeap freq = [HuffNode.leaf s (freq s)] := by
      rw [initHeap, initFold_single freq (List.range 256) [] s h1]
      rfl
    rw [generateHuffmanCodes, hinit]
    rfl

/-- Witness for C9 at concrete empty and single-symbol frequency tables. -/
theorem generateHuffmanCodes_degenerate_witness :
    generateHuffmanCodes (fun _ => 0) = []
    ∧ generateHuffmanCodes (fun i => if i == 7 then 3 else 0) = [(7, [])] :=
  ⟨(generateHuffmanCodes_degenerate (fun _ => 0)).1 (by decide),
    (generateHuffmanCodes_degenerate (fun i => if i == 7 then 3 else 0)).2 7 (by decide)⟩

set_option maxRecDepth 40000 in
/-- C3 (code evaluated at the failing input): on a frequency table whose
Huffman tree assigns a 17-bit code, `stage_codebook_gen` still returns 0 —
it emits fixed 16-bit codeword records (truncating the deep codes) instead of
failing with a reportable error. -/
theorem stageCodebookGen_truncates_not_fails :
    (stageCodebookGen c3SymBytes c3CntBytes).2.2.2.2 = 0
    ∧ ((generateHuffmanCodes (parseSymFreqFiles c3SymBytes c3CntBytes)).any
        (fun e => decide (16 < e.2.length))) = true := by
  constructor
  · rfl
  · decide

/-! Claim C10: contrast between the two `f_readline` implementations. -/

theorem readLines_blank_stop (x : List Nat) : readLines false 256 (10 :: x) = [] := by
  rw [readLines_unfold false 256 (by decide)]
  simp only [fReadlineAux, if_pos (by decide : 0 + 1 < 256), if_pos rfl]
  simp

/-- C10: the decompression-side `f_readline` returns 0 for any empty line
while the compression-side one returns 1 for an empty line unless the file is
at end of file; consequently a decompression loop driven by this reader stops
at the first blank line and leaves every following record unprocessed. -/
theorem fReadline_blank_line_contrast :
    (∀ rest : List Nat, (fReadlineDecomp 256 (10 :: rest)).1 = 0)
    ∧ (∀ rest : List Nat, rest ≠ [] → (fReadlineComp 256 (10 :: rest)).1 = 1)
    ∧ (fReadlineComp 256 [10]).1 = 0
    ∧ (∀ l₁ l₂ : List (List Nat), (∀ l ∈ l₁, goodLine 256 l ∧ l ≠ []) →
        readLines false 256
          (serializeWith [13, 10] l₁ ++ [10] ++ serializeWith [13, 10] l₂) = l₁) := by
  refine ⟨?_, ?_, by decide, ?_⟩
  · intro rest
    unfold fReadlineDecomp
    simp only [fReadlineAux, if_pos (by decide : 0 + 1 < 256), if_pos rfl]
    simp
  · intro rest hne
    unfold fReadlineComp
    simp only [fReadlineAux, if_pos (by decide : 0 + 1 < 256), if_pos rfl]
    have : rest.isEmpty = false := by
      cases rest with
      | nil => exact absurd rfl hne
      | cons a b => rfl
    simp [this]
  · intro l₁ l₂ hgood
    rw [List.append_assoc,
      readLines_serialize_append false 256 (by decide) _ (Or.inr rfl) l₁ _ hgood]
    rw [show ([10] : List Nat) ++ serializeWith [13, 10] l₂
        = 10 :: serializeWith [13, 10] l₂ from rfl, readLines_blank_stop]
    simp

/-- Witness for C10 applied at a concrete blank-line input. -/
theorem fReadline_blank_line_contrast_witness :
    (fReadlineDecomp 256 (10 :: [65])).1 = 0
    ∧ (fReadlineComp 256 (10 :: [65])).1 = 1
    ∧ readLines false 256
        (serializeWith [13, 10] [[65]] ++ [10] ++ serializeWith [13, 10] [[66]]) = [[65]] :=
  ⟨fReadline_blank_line_contrast.1 [65],
   fReadline_blank_line_contrast.2.1 [65] (by decide),
   fReadline_blank_line_contrast.2.2.2 [[65]] [[66]] (by decide)⟩

/-- C5 counterexample: on the bundle `["Symbol", " 01"]` the code keeps the
line `" 01"` (one token, and that token is a binary string, but the line has a
leading space) in the codebook artifact, while the claim's classifier sends it
to the output artifact. -/
theorem splitClassify_spec_counterexample :
    (fun r => (r.2.1, r.2.2.1, r.2.2.2))
        (splitClassify [[83, 121, 109, 98, 111, 108], [32, 48, 49]])
      ≠ specHeaderPhase [[83, 121, 109, 98, 111, 108], [32, 48, 49]] := by
  decide

theorem isBinstr_no_space {l : List Nat} (h : isBinstr l = true) :
    l ≠ [] ∧ ∀ c ∈ l, isSpaceByte c = false ∧ isBitByte c = true := by
  simp only [isBinstr, Bool.and_eq_true, List.all_eq_true] at h
  constructor
  · intro he; subst he; simp at h
  · intro c hc
    exact ⟨(isBitByte_facts (h.2 c hc)).2.2.2.1, h.2 c hc⟩

theorem tokenCount_go_inToken (l : List Nat) (h : ∀ c ∈ l, isSpaceByte c = false) :
    ∀ n : Nat, l.foldl tokenCountStep (n, true) = (n, true) := by
  induction l with
  | nil => intro n; rfl
  | cons c cs ih =>
    intro n
    rw [List.foldl_cons]
    have : tokenCountStep (n, true) c = (n, true) := by
      unfold tokenCountStep
      rw [h c (List.mem_cons_self ..)]
      rfl
    rw [this]
    exact ih (fun d hd => h d (List.mem_cons_of_mem _ hd)) n

theorem tokenCount_binstr {l : List Nat} (h : isBinstr l = true) : tokenCount l = 1 := by
  obtain ⟨hne, hall⟩ := isBinstr_no_space h
  match l with
  | [] => exact absurd rfl hne
  | c :: cs =>
    unfold tokenCount
    rw [List.foldl_cons]
    have hstep : tokenCountStep (0, false) c = (1, true) := by
      unfold tokenCountStep
      rw [(hall c (List.mem_cons_self ..)).1]
      rfl
    rw [hstep,
      tokenCount_go_inToken cs (fun d hd => (hall d (List.mem_cons_of_mem _ hd)).1) 1]

theorem tokensOf_binstr {l : List Nat} (h : isBinstr l = true) : tokensOf l = [l] := by
  obtain ⟨hne, hall⟩ := isBinstr_no_space h
  match l with
  | [] => exact absurd rfl hne
  | c :: cs =>
    unfold tokensOf
    rw [List.length_cons, tokensGo]
    rw [(hall c (List.mem_cons_self ..)).1]
    simp only [Bool.false_eq_true, if_false]
    have htake : (c :: cs).takeWhile (fun d => !isSpaceByte d) = c :: cs := by
      apply List.takeWhile_eq_self_iff.mpr
      intro d hd
      rw [(hall d hd).1]
      rfl
    have hdrop : (c :: cs).dropWhile (fun d => !isSpaceByte d) = [] := by
      apply List.dropWhile_eq_nil_iff.mpr
      intro d hd
      rw [(hall d hd).1]
      rfl
    rw [htake, hdrop]
    match cs.length with
    | 0 => rfl
    | n + 1 => rfl

theorem splitFold_output (ls : List (List Nat)) :
    ∀ hdr cds out, ls.foldl splitStep (2, hdr, cds, out) = (2, hdr, cds, out ++ ls) := by
  induction ls with
  | nil => intro hdr cds out; simp
  | cons l t ih =>
    intro hdr cds out
    rw [List.foldl_cons]
    have hstep : splitStep (2, hdr, cds, out) l = (2, hdr, cds, out ++ [l]) := by
      unfold splitStep
      norm_num
    rw [hstep, ih]
    simp

theorem splitFold_codebook (ls : List (List Nat)) :
    ∀ hdr cds out,
      (fun r => (r.2.1, r.2.2.1, r.2.2.2)) (ls.foldl splitStep (1, hdr, cds, out))
        = (hdr, cds ++ (amendedCodebookPhase ls).1, out ++ (amendedCodebookPhase ls).2) := by
  induction ls with
  | nil => intro hdr cds out; simp [amendedCodebookPhase]
  | cons l t ih =>
    intro hdr cds out
    rw [List.foldl_cons]
    by_cases hcond : tokenCount l = 1 ∧ isBinstr l = true
    · have hstep : splitStep (1, hdr, cds, out) l = (2, hdr, cds, out ++ [l]) := by
        unfold splitStep
        norm_num [hcond.1, hcond.2]
      have hcond' : (tokensOf l).length = 1 ∧ isBinstr l = true :=
        ⟨by rw [tokensOf_binstr hcond.2]; rfl, hcond.2⟩
      rw [hstep, splitFold_output]
      simp [amendedCodebookPhase, hcond', specOutputPhase]
    · have hcond' : ¬((tokensOf l).length = 1 ∧ isBinstr l = true) := by
        intro hc
        exact hcond ⟨tokenCount_binstr hc.2, hc.2⟩
      have hstep : splitStep (1, hdr, cds, out) l = (1, hdr, cds ++ [l], out) := by
        unfold splitStep
        norm_num
        intro ht
        rcases Bool.eq_false_or_eq_true (isBinstr l) with hb | hb
        · exact absurd ⟨ht, hb⟩ hcond
        · exact hb
      rw [hstep, ih]
      simp [amendedCodebookPhase, hcond']

theorem splitFold_header (ls : List (List Nat)) :
    ∀ hdr cds out,
      (fun r => (r.2.1, r.2.2.1, r.2.2.2)) (ls.foldl splitStep (0, hdr, cds, out))
        = (hdr ++ (amendedHeaderPhase ls).1, cds ++ (amendedHeaderPhase ls).2.1,
            out ++ (amendedHeaderPhase ls).2.2) := by
  induction ls with
  | nil => intro hdr cds out; simp [amendedHeaderPhase]
  | cons l t ih =>
    intro hdr cds out
    rw [List.foldl_cons]
    by_cases hs : startsWithSymbol l = true
    · have hstep : splitStep (0, hdr, cds, out) l = (1, hdr, cds ++ [l], out) := by
        unfold splitStep
        norm_num [hs]
      rw [hstep, splitFold_codebook]
      simp [amendedHeaderPhase, hs]
    · have hstep : splitStep (0, hdr, cds, out) l = (0, hdr ++ [l], cds, out) := by
        unfold splitStep
        norm_num [hs]
      rw [hstep, ih]
      simp [amendedHeaderPhase, hs]

/-- C5 amended: the split classifier behaves as the claimed three-state
machine with the boundary test corrected to require the **entire line** to be
a non-empty binary string (equivalently, one token and no surrounding
whitespace), not merely its sole token. -/
theorem splitClassify_amended (lines : List (List Nat)) :
    (fun r => (r.2.1, r.2.2.1, r.2.2.2)) (splitClassify lines)
      = amendedHeaderPhase lines := by
  unfold splitClassify
  have := splitFold_header lines [] [] []
  simpa using this

theorem decryptFileRet_eq_zero : ∀ steps, decryptFileRet steps = 0 := by
  intro steps
  induction steps with
  | nil => rfl
  | cons p rest ih =>
    match p with
    | (Except.error _, _) => rfl
    | (Except.ok chunk, wok) =>
      rw [decryptFileRet]
      split
      · rfl
      · split
        · rfl
        · exact ih

theorem stageEncryptCompBinRet_eq_zero : ∀ steps, stageEncryptCompBinRet steps = 0 := by
  intro steps
  induction steps with
  | nil => rfl
  | cons p rest ih =>
    match p with
    | (Except.error _, _) => rfl
    | (Except.ok chunk, wok) =>
      rw [stageEncryptCompBinRet]
      split
      · rfl
      · split
        · rfl
        · exact ih

/-- C4 (code evaluated at failing inputs): with a failing read as the first
step — and in fact on every read/write outcome sequence — the decryption,
encryption and bundling stages return 0, the success status, not a non-zero
failure. -/
theorem ioFailure_stages_return_zero :
    decryptFileRet [(Except.error (), true)] = 0
    ∧ stageEncryptCompBinRet [(Except.error (), true)] = 0
    ∧ stageCreateCompBinRet [(Except.error (), true)] [] [] = 0
    ∧ (∀ steps, decryptFileRet steps = 0)
    ∧ (∀ steps, stageEncryptCompBinRet steps = 0)
    ∧ (∀ s₁ s₂ s₃, stageCreateCompBinRet s₁ s₂ s₃ = 0) :=
  ⟨rfl, rfl, rfl, decryptFileRet_eq_zero, stageEncryptCompBinRet_eq_zero,
    fun s₁ s₂ s₃ => by unfold stageCreateCompBinRet; rfl⟩

/-- C6: in the decompression table-load and decode stages a record with field
widths other than 8 (symbol), 16 (codeword), 5 (length) is skipped and the
loop continues — both loops compute exactly the filter-then-map of their
lockstep record streams — while in the occurrence-stream regeneration stage a
residual codeword longer than 16 bits is fatal: the stage fails exactly when
such a line exists. -/
theorem validation_skips_except_16bit_fatal :
    (∀ lss lcs lls, loadTableGo lss lcs lls
      = ((zip3L lss lcs lls).filter
          (fun t => decide (t.1.length = 8 ∧ t.2.1.length = 16 ∧ t.2.2.length = 5))).map
          (fun t => (binstrToInt t.1 % 256, binstrToInt t.2.1 % 2 ^ 32,
            binstrToInt t.2.2 % 256)))
    ∧ (∀ (dec : Nat → Nat → Nat) lcs lls, decompressGo dec lcs lls
      = (((lcs.zip lls).filter
            (fun t => decide (t.1.length = 16 ∧ t.2.length = 5))).map
          (fun t => renderBin 8 (dec (binstrToInt t.1 % 2 ^ 32) (binstrToInt t.2 % 256) % 256)
            ++ [13, 10])).flatten)
    ∧ (∀ ls, genOutStreamGo ls = Except.error ()
        ↔ ∃ l ∈ ls, 16 < ((rstrip l).filter isBitByte).length) := by
  refine ⟨?_, ?_, ?_⟩
  · intro lss
    induction lss with
    | nil => intro lcs lls; cases lcs <;> cases lls <;> rfl
    | cons ls lss ih =>
      intro lcs lls
      cases lcs with
      | nil => rfl
      | cons lc lcs =>
        cases lls with
        | nil => rfl
        | cons ll lls =>
          rw [loadTableGo, zip3L]
          by_cases h : ls.length = 8 ∧ lc.length = 16 ∧ ll.length = 5
          · rw [if_pos h, List.filter_cons, if_pos (by simpa using h), List.map_cons, ih]
          · rw [if_neg h, List.filter_cons, if_neg (by simpa using h), ih]
  · intro dec lcs
    induction lcs with
    | nil => intro lls; cases lls <;> rfl
    | cons lc lcs ih =>
      intro lls
      cases lls with
      | nil => rfl
      | cons ll lls =>
        rw [decompressGo, List.zip_cons_cons]
        by_cases h : lc.length = 16 ∧ ll.length = 5
        · rw [if_pos h, List.filter_cons, if_pos (by simpa using h), List.map_cons,
            List.flatten_cons, ih]
        · rw [if_neg h, List.filter_cons, if_neg (by simpa using h), ih]
  · intro ls
    induction ls with
    | nil =>
      simp only [genOutStreamGo]
      constructor
      · intro h; exact absurd h (by simp)
      · intro h; simp at h
    | cons l t ih =>
      rw [genOutStreamGo]
      by_cases hempty : ((rstrip l).filter isBitByte).isEmpty = true
      · rw [if_pos hempty]
        rw [ih]
        constructor
        · intro ⟨x, hx, hlen⟩; exact ⟨x, List.mem_cons_of_mem _ hx, hlen⟩
        · intro ⟨x, hx, hlen⟩
          rcases List.mem_cons.mp hx with rfl | hx'
          · exact absurd hlen (by
              have : ((rstrip x).filter isBitByte).length = 0 := by
                simpa [List.isEmpty_iff_length_eq_zero] using hempty
              omega)
          · exact ⟨x, hx', hlen⟩
      · rw [if_neg hempty]
        by_cases hlong : 16 < ((rstrip l).filter isBitByte).length
        · rw [if_pos hlong]
          simp only [true_iff]
          exact ⟨l, List.mem_cons_self .., hlong⟩
        · rw [if_neg hlong]
          cases hgo : genOutStreamGo t with
          | error e =>
            simp only [true_iff]
            have := (ih).mp (by rw [hgo])
            obtain ⟨x, hx, hlen⟩ := this
            exact ⟨x, List.mem_cons_of_mem _ hx, hlen⟩
          | ok p =>
            constructor
            · intro h; exact absurd h (by simp)
            · intro ⟨x, hx, hlen⟩
              rcases List.mem_cons.mp hx with rfl | hx'
              · exact absurd hlen hlong
              · have : genOutStreamGo t = Except.error () := ih.mpr ⟨x, hx', hlen⟩
                rw [hgo] at this
                exact absurd this (by simp)

theorem groups4_short (bs : List Nat) (h : bs.length ≤ 3) : groups4 bs = [] := by
  match bs, h with
  | [], _ => rfl
  | [a], _ => rfl
  | [a, b], _ => rfl
  | [a, b, c], _ => rfl

theorem mergeSymbolsGo_spec (mrg : Nat → Nat → Nat → Nat → Nat) :
    ∀ (lines : List (List Nat)) (buf : List Nat), buf.length ≤ 3 →
      mergeSymbolsGo mrg buf lines
        = ((groups4 (buf ++ (lines.filter validMergeRec).map binstrToByte)).map
            (fun g => renderBin 32 (mrg g.1 g.2.1 g.2.2.1 g.2.2.2) ++ [13, 10])).flatten := by
  intro lines
  induction lines with
  | nil =>
    intro buf hbuf
    rw [mergeSymbolsGo]
    simp only [List.filter_nil, List.map_nil, List.append_nil]
    rw [groups4_short buf hbuf]
    rfl
  | cons l ls ih =>
    intro buf hbuf
    rw [mergeSymbolsGo]
    by_cases hval : isBinstr l = true ∧ l.length = 8
    · have hvalb : validMergeRec l = true := by
        simp [validMergeRec, hval.1, hval.2]
      rw [List.filter_cons, if_pos hvalb, List.map_cons]
      by_cases h4 : (buf ++ [binstrToByte l]).length = 4
      · rw [if_pos hval]
        simp only [h4, if_pos rfl]
        have hbuf3 : buf.length = 3 := by simp at h4; omega
        obtain ⟨a, b, c, hb⟩ : ∃ a b c, buf = [a, b, c] := by
          match buf, hbuf3 with
          | [a, b, c], _ => exact ⟨a, b, c, rfl⟩
        subst hb
        rw [ih [] (by simp)]
        simp [groups4]
      · rw [if_pos hval]
        simp only [h4, if_neg (by simpa using h4)]
        rw [ih (buf ++ [binstrToByte l]) (by simp at h4 ⊢; omega)]
        simp
    · rw [if_neg hval, List.filter_cons,
        if_neg (by simp [validMergeRec]; intro h1 h2; exact absurd ⟨h1, h2⟩ hval),
        ih buf hbuf]

/-- C7: only complete groups of exactly 4 valid 8-bit records are merged into
32-bit words — the stage computes the map of the merger over the exact
4-groups of the valid records — and a trailing incomplete group of 1 to 3
records produces no output word. -/
theorem mergeSymbolsToWords_groups4 (mrg : Nat → Nat → Nat → Nat → Nat)
    (lines : List (List Nat)) :
    mergeSymbolsToWords mrg lines
      = ((groups4 ((lines.filter validMergeRec).map binstrToByte)).map
          (fun g => renderBin 32 (mrg g.1 g.2.1 g.2.2.1 g.2.2.2) ++ [13, 10])).flatten := by
  rw [mergeSymbolsToWords, mergeSymbolsGo_spec mrg lines [] (by simp)]
  rfl

theorem bitParseStep_nonbit (pw : Nat → Nat × Nat × Nat × Nat)
    (st : Nat × Nat × List Nat) (c : Nat) (h : isBitByte c = false) :
    bitParseStep pw st c = st := by
  match st with
  | (w, cnt, out) =>
    unfold bitParseStep
    rw [h]
    rfl

theorem bitFold_filter (pw : Nat → Nat × Nat × Nat × Nat) :
    ∀ (chars : List Nat) (st : Nat × Nat × List Nat),
      chars.foldl (bitParseStep pw) st = (chars.filter isBitByte).foldl (bitParseStep pw) st := by
  intro chars
  induction chars with
  | nil => intro st; rfl
  | cons c cs ih =>
    intro st
    rw [List.foldl_cons, List.filter_cons]
    by_cases h : isBitByte c = true
    · rw [if_pos h, List.foldl_cons, ih]
    · have hf : isBitByte c = false := by simpa using h
      rw [if_neg (by simp [hf]), bitParseStep_nonbit pw st c hf, ih]

theorem bitFold_invariant (pw : Nat → Nat × Nat × Nat × Nat) :
    ∀ (bits : List Nat) (w cnt : Nat) (out : List Nat),
      (∀ c ∈ bits, isBitByte c = true) → cnt < 32 → w < 2 ^ cnt →
      ((bits.foldl (bitParseStep pw) (w, cnt, out)).2.1 = (cnt + bits.length) % 32
        ∧ (bits.foldl (bitParseStep pw) (w, cnt, out)).2.1 < 32
        ∧ (bits.foldl (bitParseStep pw) (w, cnt, out)).1
            < 2 ^ (bits.foldl (bitParseStep pw) (w, cnt, out)).2.1) := by
  intro bits
  induction bits with
  | nil =>
    intro w cnt out _ hcnt hw
    refine ⟨?_, hcnt, hw⟩
    simp [Nat.mod_eq_of_lt hcnt]
  | cons c cs ih =>
    intro w cnt out hall hcnt hw
    have hc := hall c (List.mem_cons_self ..)
    have hcs := fun d hd => hall d (List.mem_cons_of_mem _ hd)
    have hb : c - 48 ≤ 1 := by
      simp only [isBitByte, Bool.or_eq_true, beq_iff_eq] at hc
      rcases hc with rfl | rfl <;> decide
    have hacc : 2 * w + (c - 48) < 2 ^ (cnt + 1) := by
      have : 2 ^ (cnt + 1) = 2 * 2 ^ cnt := by ring
      omega
    have hmod : (2 * w + (c - 48)) % 2 ^ 32 = 2 * w + (c - 48) :=
      Nat.mod_eq_of_lt (lt_of_lt_of_le hacc (Nat.pow_le_pow_right (by decide) (by omega)))
    rw [List.foldl_cons]
    by_cases h32 : cnt + 1 = 32
    · have hstep : bitParseStep pw (w, cnt, out) c
          = (0, 0, out ++ parsedRecords pw ((2 * w + (c - 48)) % 2 ^ 32)) := by
        unfold bitParseStep
        rw [hc]
        simp [h32]
      rw [hstep]
      have := ih 0 0 (out ++ parsedRecords pw ((2 * w + (c - 48)) % 2 ^ 32)) hcs
        (by decide) (by decide)
      refine ⟨?_, this.2.1, this.2.2⟩
      rw [this.1]
      simp only [List.length_cons]
      omega
    · have hstep : bitParseStep pw (w, cnt, out) c = (2 * w + (c - 48), cnt + 1, out) := by
        unfold bitParseStep
        rw [hc]
        have hb32 : 2 * w + (c - 48) < 4294967296 := by
          have hle := Nat.pow_le_pow_right (by decide : 1 ≤ 2) (by omega : cnt + 1 ≤ 32)
          have hlt := lt_of_lt_of_le hacc hle
          norm_num at hlt
          exact hlt
        simp [h32, Nat.mod_eq_of_lt hb32]
      rw [hstep]
      have := ih (2 * w + (c - 48)) (cnt + 1) out hcs (by omega) hacc
      refine ⟨?_, this.2.1, this.2.2⟩
      rw [this.1]
      congr 1
      simp
      omega

theorem bitFold_zeros (pw : Nat → Nat × Nat × Nat × Nat) :
    ∀ (k w cnt : Nat) (out : List Nat), cnt + k = 32 → w < 2 ^ cnt →
      (List.replicate k 48).foldl (bitParseStep pw) (w, cnt, out)
        = if k = 0 then (w, cnt, out)
          else (0, 0, out ++ parsedRecords pw ((w * 2 ^ k) % 2 ^ 32)) := by
  intro k
  induction k with
  | zero => intro w cnt out _ _; rfl
  | succ k ih =>
    intro w cnt out hcnt hw
    rw [List.replicate_succ, List.foldl_cons]
    have hcnt31 : cnt < 32 := by omega
    have hw2 : 2 * w < 2 ^ (cnt + 1) := by
      have : 2 ^ (cnt + 1) = 2 * 2 ^ cnt := by ring
      omega
    have hb32 : 2 * w < 4294967296 := by
      have hle := Nat.pow_le_pow_right (by decide : 1 ≤ 2) (by omega : cnt + 1 ≤ 32)
      have hlt := lt_of_lt_of_le hw2 hle
      norm_num at hlt
      exact hlt
    by_cases h32 : cnt + 1 = 32
    · have hk : k = 0 := by omega
      subst hk
      have hstep : bitParseStep pw (w, cnt, out) 48
          = (0, 0, out ++ parsedRecords pw (2 * w)) := by
        unfold bitParseStep
        simp [isBitByte, h32, Nat.mod_eq_of_lt hb32]
      rw [hstep]
      simp only [List.replicate_zero, List.foldl_nil, if_neg (by omega : ¬(0 + 1 = 0))]
      have harith : w * 2 ^ (0 + 1) % 2 ^ 32 = 2 * w := by
        have h1 : w * 2 ^ (0 + 1) = 2 * w := by ring
        rw [h1]
        have h2 : (2 : Nat) ^ 32 = 4294967296 := by norm_num
        rw [h2]
        exact Nat.mod_eq_of_lt hb32
      rw [harith]
    · have hstep : bitParseStep pw (w, cnt, out) 48 = (2 * w, cnt + 1, out) := by
        unfold bitParseStep
        simp [isBitByte, h32, Nat.mod_eq_of_lt hb32]
      rw [hstep, ih (2 * w) (cnt + 1) out (by omega) hw2]
      have hk0 : ¬(k = 0) := by omega
      rw [if_neg hk0, if_neg (by omega : ¬(k + 1 = 0))]
      have harith : 2 * w * 2 ^ k = w * 2 ^ (k + 1) := by ring
      rw [harith]

set_option maxRecDepth 2000 in
/-- C8: when the payload's 0/1 character count is not a multiple of 32, the
final partial word is zero-padded on the low-order side (the accumulator is
shifted left by `32 - bit_count`), parsed through the accelerator like a full
word with its 4 returned bytes appended as 8-bit records, and nothing else —
no padding-length information — is recorded: the output is byte-identical to
processing the payload with `32 - n % 32` zero characters appended. -/
theorem bitParseBody_pads_final_word (pw : Nat → Nat × Nat × Nat × Nat)
    (body : List Nat) (h : (body.filter isBitByte).length % 32 ≠ 0) :
    bitParseBody pw body
      = bitParseBody pw
          (body ++ List.replicate (32 - (body.filter isBitByte).length % 32) 48) := by
  have hbits : ∀ c ∈ body.filter isBitByte, isBitByte c = true := by
    intro c hc
    exact (List.mem_filter.mp hc).2
  have hinv := bitFold_invariant pw (body.filter isBitByte) 0 0 [] hbits (by decide) (by decide)
  rw [← bitFold_filter pw body (0, 0, [])] at hinv
  set st := body.foldl (bitParseStep pw) (0, 0, []) with hst
  have hcntval : st.2.1 = (body.filter isBitByte).length % 32 := by
    rw [hinv.1, Nat.zero_add]
  have hcntpos : 0 < st.2.1 := by
    rw [hcntval]
    omega
  unfold bitParseBody
  rw [if_pos hcntpos, List.foldl_append]
  rw [← hst]
  have hzeros := bitFold_zeros pw (32 - st.2.1) st.1 st.2.1 st.2.2 (by omega) hinv.2.2
  have hk0 : ¬(32 - st.2.1 = 0) := by
    have := hinv.2.1
    omega
  rw [hcntval] at hzeros hk0
  have hpair : (st.1, (body.filter isBitByte).length % 32, st.2.2) = st := by
    rw [← hcntval]
  rw [hpair] at hzeros
  rw [hzeros, if_neg hk0]
  rw [if_neg (by omega : ¬ (0 : Nat) < 0)]
  rw [hcntval]

/-- Witness for C8 at a one-bit payload. -/
theorem bitParseBody_pads_final_word_witness :
    bitParseBody pwSplit [49]
      = bitParseBody pwSplit
          ([49] ++ List.replicate (32 - ([49].filter isBitByte).length % 32) 48) :=
  bitParseBody_pads_final_word pwSplit [49] (by decide)

/-! Permutation facts about the heap array operations: each sift loop leaves
the array a permutation of a single `List.set`, so pushes add exactly their
node and pops remove exactly the returned root. -/

theorem cons_set_perm (d : α) :
    ∀ (t : List α) (k : Nat) (a : α), k < t.length →
      List.Perm (t.getD k d :: t.set k a) (a :: t) := by
  intro t
  induction t with
  | nil => intro k a hk; simp at hk
  | cons y u ih =>
    intro k a hk
    cases k with
    | zero =>
      simp only [List.getD_cons_zero, List.set_cons_zero]
      exact List.Perm.swap a y u
    | succ m =>
      simp only [List.getD_cons_succ, List.set_cons_succ]
      exact (List.Perm.swap y (u.getD m d) _).trans
        (((ih m a (by simpa using hk)).cons y).trans (List.Perm.swap a y u))

theorem set_swap_perm :
    ∀ (t : List α) (k : Nat) (a x : α), k < t.length →
      List.Perm (a :: t.set k x) (x :: t.set k a) := by
  intro t
  induction t with
  | nil => intro k a x hk; simp at hk
  | cons y u ih =>
    intro k a x hk
    cases k with
    | zero =>
      simp only [List.set_cons_zero]
      exact List.Perm.swap x a u
    | succ m =>
      simp only [List.set_cons_succ]
      exact (List.Perm.swap y a _).trans
        (((ih m a x (by simpa using hk)).cons y).trans (List.Perm.swap x y _))

theorem set_set_swap_perm (d : α) :
    ∀ (l : List α) (i j : Nat) (a : α), i < l.length → j < l.length → i ≠ j →
      List.Perm ((l.set i (l.getD j d)).set j a) (l.set i a) := by
  intro l
  induction l with
  | nil => intro i j a hi _ _; simp at hi
  | cons x t ih =>
    intro i j a hi hj hij
    cases i with
    | zero =>
      cases j with
      | zero => exact absurd rfl hij
      | succ m =>
        simp only [List.getD_cons_succ, List.set_cons_zero, List.set_cons_succ]
        exact cons_set_perm d t m a (by simpa using hj)
    | succ k =>
      cases j with
      | zero =>
        simp only [List.getD_cons_zero, List.set_cons_succ, List.set_cons_zero]
        exact set_swap_perm t k a x (by simpa using hi)
      | succ m =>
        simp only [List.getD_cons_succ, List.set_cons_succ]
        exact (ih k m a (by simpa using hi) (by simpa using hj)
          (fun h => hij (by rw [h]))).cons x

theorem length_heapPushAux :
    ∀ (fuel : Nat) (arr : List HuffNode) (nd : HuffNode) (i : Nat),
      (heapPushAux fuel arr nd i).length = arr.length := by
  intro fuel
  induction fuel with
  | zero => intro arr nd i; simp [heapPushAux]
  | succ fuel ih =>
    intro arr nd i
    rw [heapPushAux]
    split
    · rw [ih]; simp
    · simp

@[simp] theorem length_heapPush (arr : List HuffNode) (nd : HuffNode) :
    (heapPush arr nd).length = arr.length + 1 := by
  rw [heapPush, length_heapPushAux]
  simp

theorem heapPopSel_lt (arr : List HuffNode) (i : Nat) (h : 2 * i + 1 < arr.length) :
    heapPopSel arr i < arr.length := by
  rw [heapPopSel]
  split
  · rename_i hc; exact hc.1
  · exact h

theorem heapPopSel_gt (arr : List HuffNode) (i : Nat) : i < heapPopSel arr i := by
  rw [heapPopSel]
  split <;> omega

theorem length_heapPopAux :
    ∀ (fuel : Nat) (arr : List HuffNode) (last : HuffNode) (i : Nat),
      (heapPopAux fuel arr last i).length = arr.length := by
  intro fuel
  induction fuel with
  | zero => intro arr last i; simp [heapPopAux]
  | succ fuel ih =>
    intro arr last i
    rw [heapPopAux]
    split
    · split
      · simp
      · rw [ih]; simp
    · simp

@[simp] theorem length_heapPop (arr : List HuffNode) :
    (heapPop arr).2.length = arr.length - 1 := by
  rw [heapPop]
  simp only [length_heapPopAux, List.length_dropLast]

theorem heapPushAux_perm :
    ∀ (fuel : Nat) (arr : List HuffNode) (nd : HuffNode) (i : Nat), i < arr.length →
      List.Perm (heapPushAux fuel arr nd i) (arr.set i nd) := by
  intro fuel
  induction fuel with
  | zero => intro arr nd i _; rw [heapPushAux]
  | succ fuel ih =>
    intro arr nd i hi
    rw [heapPushAux]
    split
    · rename_i hcond
      have hlt : (i - 1) / 2 < i := by omega
      have hset : (i - 1) / 2 < (arr.set i (arr.getD ((i - 1) / 2) hDefault)).length := by
        simp
        omega
      exact (ih _ nd _ hset).trans
        (set_set_swap_perm hDefault arr i ((i - 1) / 2) nd hi (by omega) (by omega))
    · exact List.Perm.refl _

theorem heapPush_perm (arr : List HuffNode) (nd : HuffNode) :
    List.Perm (heapPush arr nd) (nd :: arr) := by
  rw [heapPush]
  have h1 := heapPushAux_perm (arr.length + 1) (arr ++ [nd]) nd arr.length (by simp)
  have h2 : (arr ++ [nd]).set arr.length nd = arr ++ [nd] := by
    rw [List.set_append_right _ _ le_rfl]
    simp
  rw [h2] at h1
  exact h1.trans (List.perm_append_singleton nd arr)

theorem heapPopAux_perm :
    ∀ (fuel : Nat) (arr : List HuffNode) (last : HuffNode) (i : Nat), i < arr.length →
      List.Perm (heapPopAux fuel arr last i) (arr.set i last) := by
  intro fuel
  induction fuel with
  | zero => intro arr last i _; rw [heapPopAux]
  | succ fuel ih =>
    intro arr last i hi
    rw [heapPopAux]
    split
    · rename_i hcond
      split
      · exact List.Perm.refl _
      · rename_i hfr
        have hslt : heapPopSel arr i < arr.length := heapPopSel_lt arr i hcond
        have his : i ≠ heapPopSel arr i := Nat.ne_of_lt (heapPopSel_gt arr i)
        have hset : heapPopSel arr i
            < (arr.set i (arr.getD (heapPopSel arr i) hDefault)).length := by
          simpa using hslt
        exact (ih _ last _ hset).trans
          (set_set_swap_perm hDefault arr i (heapPopSel arr i) last hi hslt his)
    · exact List.Perm.refl _

theorem heapPop_perm (arr : List HuffNode) (h : arr ≠ []) :
    List.Perm ((heapPop arr).1 :: (heapPop arr).2) arr := by
  match arr, h with
  | [x], _ =>
    rw [heapPop]
    exact List.Perm.refl _
  | x :: y :: t, _ =>
    rw [heapPop]
    simp only [List.headD_cons]
    have hdrop : (x :: y :: t).dropLast = x :: (y :: t).dropLast := rfl
    have hlen : 0 < (x :: y :: t).dropLast.length := by
      rw [hdrop]; simp
    have haux := heapPopAux_perm ((x :: y :: t).length + 1) (x :: y :: t).dropLast
      ((x :: y :: t).getLastD hDefault) 0 hlen
    refine (haux.cons x).trans ?_
    rw [hdrop, List.set_cons_zero]
    have hlast : (x :: y :: t).getLastD hDefault = (y :: t).getLast (by simp) := by
      rw [List.getLastD_eq_getLast?]
      rw [List.getLast?_eq_getLast (x :: y :: t) (by simp)]
      simp only [Option.getD_some]
      rw [List.getLast_cons (by simp)]
    rw [hlast]
    have hsplit : (y :: t).dropLast ++ [(y :: t).getLast (by simp)] = y :: t :=
      List.dropLast_append_getLast (by simp)
    refine List.Perm.cons x ?_
    have := List.perm_append_singleton ((y :: t).getLast (by simp)) (y :: t).dropLast
    exact (this.symm.trans (by rw [hsplit])).symm.symm

theorem heapSyms_perm {h₁ h₂ : List HuffNode} (hp : List.Perm h₁ h₂) :
    List.Perm (heapSyms h₁) (heapSyms h₂) := (hp.map HuffNode.leavesL).flatten

theorem heapSyms_heapPush (arr : List HuffNode) (nd : HuffNode) :
    List.Perm (heapSyms (heapPush arr nd)) (nd.leavesL ++ heapSyms arr) := by
  have := heapSyms_perm (heapPush_perm arr nd)
  simpa [heapSyms] using this

theorem heapSyms_heapPop (arr : List HuffNode) (h : arr ≠ []) :
    List.Perm ((heapPop arr).1.leavesL ++ heapSyms (heapPop arr).2) (heapSyms arr) := by
  have := heapSyms_perm (heapPop_perm arr h)
  simpa [heapSyms] using this

theorem heapSyms_buildLoopGo :
    ∀ (fuel : Nat) (h : List HuffNode),
      List.Perm (heapSyms (buildLoopGo fuel h)) (heapSyms h) := by
  intro fuel
  induction fuel with
  | zero => intro h; rw [buildLoopGo]
  | succ fuel ih =>
    intro h
    rw [buildLoopGo]
    split
    · rename_i hlen
      have hne : h ≠ [] := by
        intro he; subst he; simp at hlen
      have hne2 : (heapPop h).2 ≠ [] := by
        have := length_heapPop h
        intro he
        rw [he] at this
        simp at this
        omega
      refine (ih _).trans ?_
      refine (heapSyms_heapPush _ _).trans ?_
      have hmerge : (HuffNode.node ((heapPop h).1.freq + (heapPop (heapPop h).2).1.freq)
          (heapPop h).1 (heapPop (heapPop h).2).1).leavesL
          = (heapPop h).1.leavesL ++ (heapPop (heapPop h).2).1.leavesL := rfl
      rw [hmerge, List.append_assoc]
      refine (List.Perm.append_left (heapPop h).1.leavesL (heapSyms_heapPop _ hne2)).trans ?_
      exact heapSyms_heapPop h hne
    · exact List.Perm.refl _

theorem buildLoop_length (h : List HuffNode) (hne : h ≠ []) :
    (buildLoop h).length = 1 := by
  rw [buildLoop]
  have hgen : ∀ (n : Nat) (h : List HuffNode) (fuel : Nat), h.length ≤ n → h ≠ [] →
      h.length ≤ fuel + 1 → (buildLoopGo fuel h).length = 1 := by
    intro n
    induction n with
    | zero =>
      intro h fuel hn hne _
      have : h = [] := List.length_eq_zero.mp (by omega)
      exact absurd this hne
    | succ n ih =>
      intro h fuel hn hne hfuel
      match fuel with
      | 0 =>
        rw [buildLoopGo]
        have : h.length ≤ 1 := by omega
        match h, hne with
        | [x], _ => rfl
      | fuel + 1 =>
        rw [buildLoopGo]
        split
        · rename_i hlen
          have hlen2 : (heapPush (heapPop (heapPop h).2).2
              (HuffNode.node ((heapPop h).1.freq + (heapPop (heapPop h).2).1.freq)
                (heapPop h).1 (heapPop (heapPop h).2).1)).length = h.length - 1 := by
            rw [length_heapPush, length_heapPop, length_heapPop]
            omega
          refine ih _ fuel (by omega) ?_ (by omega)
          · intro he
            rw [he] at hlen2
            simp at hlen2
            omega
        · rename_i hlen
          match h, hne with
          | [x], _ => rfl
          | x :: y :: t, _ => simp at hlen
  exact hgen h.length h h.length le_rfl hne (by omega)

theorem initHeap_fold_length (freq : Nat → Nat) :
    ∀ (l : List Nat) (acc : List HuffNode),
      (l.foldl (fun h i => if 0 < freq i then heapPush h (HuffNode.leaf i (freq i)) else h)
        acc).length
      = acc.length + (l.filter (fun i => decide (0 < freq i))).length := by
  intro l
  induction l with
  | nil => intro acc; simp
  | cons i t ih =>
    intro acc
    rw [List.foldl_cons, List.filter_cons]
    by_cases hp : 0 < freq i
    · rw [if_pos hp, if_pos (by simpa using hp), ih]
      simp
      omega
    · rw [if_neg hp, if_neg (by simpa using hp), ih]

theorem initHeap_length (freq : Nat → Nat) :
    (initHeap freq).length = ((List.range 256).filter (fun i => decide (0 < freq i))).length := by
  rw [initHeap, initHeap_fold_length]
  simp

theorem initHeap_fold_syms (freq : Nat → Nat) :
    ∀ (l : List Nat) (acc : List HuffNode),
      List.Perm
        (heapSyms (l.foldl
          (fun h i => if 0 < freq i then heapPush h (HuffNode.leaf i (freq i)) else h) acc))
        ((l.filter (fun i => decide (0 < freq i))) ++ heapSyms acc) := by
  intro l
  induction l with
  | nil => intro acc; simp
  | cons i t ih =>
    intro acc
    rw [List.foldl_cons, List.filter_cons]
    by_cases hp : 0 < freq i
    · rw [if_pos hp, if_pos (by simpa using hp)]
      refine (ih _).trans ?_
      rw [List.cons_append]
      refine (List.Perm.append_left _ (heapSyms_heapPush acc (HuffNode.leaf i (freq i)))).trans ?_
      have hleaf : (HuffNode.leaf i (freq i)).leavesL = [i] := rfl
      rw [hleaf]
      exact (List.perm_middle).trans (List.Perm.refl _)
    · rw [if_neg hp, if_neg (by simpa using hp)]
      exact ih acc

theorem initHeap_syms (freq : Nat → Nat) :
    List.Perm (heapSyms (initHeap freq))
      ((List.range 256).filter (fun i => decide (0 < freq i))) := by
  have := initHeap_fold_syms freq (List.range 256) []
  simpa [initHeap, heapSyms] using this

theorem assignCodes_syms (t : HuffNode) :
    ∀ (p : List Bool), (assignCodes t p).map Prod.fst = t.leavesL := by
  induction t with
  | leaf s f => intro p; rfl
  | node f l r ihl ihr =>
    intro p
    rw [assignCodes, HuffNode.leavesL, List.map_append, ihl, ihr]

theorem generateHuffmanCodes_syms_perm (freq : Nat → Nat)
    (h : 1 ≤ ((List.range 256).filter (fun i => decide (0 < freq i))).length) :
    List.Perm ((generateHuffmanCodes freq).map Prod.fst)
      ((List.range 256).filter (fun i => decide (0 < freq i))) := by
  have hne : initHeap freq ≠ [] := by
    intro he
    have := initHeap_length freq
    rw [he] at this
    simp at this
    omega
  have hlen := buildLoop_length (initHeap freq) hne
  obtain ⟨root, hroot⟩ : ∃ root, buildLoop (initHeap freq) = [root] := by
    match hb : buildLoop (initHeap freq), hlen with
    | [root], _ => exact ⟨root, rfl⟩
  rw [generateHuffmanCodes, hroot]
  rw [assignCodes_syms root []]
  have h1 : List.Perm root.leavesL (heapSyms (buildLoop (initHeap freq))) := by
    rw [hroot]
    simp [heapSyms]
  refine h1.trans ?_
  refine (heapSyms_buildLoopGo _ _).trans ?_
  exact initHeap_syms freq

theorem generateHuffmanCodes_syms_nodup (freq : Nat → Nat)
    (h : 1 ≤ ((List.range 256).filter (fun i => decide (0 < freq i))).length) :
    ((generateHuffmanCodes freq).map Prod.fst).Nodup := by
  refine (generateHuffmanCodes_syms_perm freq h).nodup_iff.mpr ?_
  exact (List.nodup_range 256).filter _

theorem tableAfterWrites_not_mem :
    ∀ (ws : List (Nat × List Bool)) (acc : List Bool) (i : Nat), i ∉ ws.map Prod.fst →
      ws.foldl (fun acc e => if e.1 == i then e.2 else acc) acc = acc := by
  intro ws
  induction ws with
  | nil => intro acc i _; rfl
  | cons w t ih =>
    intro acc i hni
    rw [List.map_cons, List.mem_cons] at hni
    push_neg at hni
    rw [List.foldl_cons]
    have : (w.1 == i) = false := by
      simpa using fun he => hni.1 he.symm
    rw [this]
    simp only [Bool.false_eq_true, if_false]
    exact ih acc i hni.2

theorem tableAfterWrites_mem :
    ∀ (ws : List (Nat × List Bool)) (i : Nat) (c : List Bool),
      (ws.map Prod.fst).Nodup → (i, c) ∈ ws → tableAfterWrites ws i = c := by
  intro ws
  induction ws with
  | nil => intro i c _ hm; simp at hm
  | cons w t ih =>
    intro i c hnd hm
    rw [List.map_cons, List.nodup_cons] at hnd
    rw [tableAfterWrites, List.foldl_cons]
    rcases List.mem_cons.mp hm with rfl | hm'
    · simp only [beq_self_eq_true, if_true]
      exact tableAfterWrites_not_mem t c i (by simpa using hnd.1)
    · have hi : i ∈ t.map Prod.fst := List.mem_map_of_mem Prod.fst hm'
      have hne : (w.1 == i) = false := by
        simp only [beq_eq_false_iff_ne, ne_eq]
        intro he
        exact hnd.1 (he ▸ hi)
      rw [hne]
      simp only [Bool.false_eq_true, if_false]
      exact ih i c hnd.2 hm'

theorem generateHuffmanCodes_nonempty_codes (freq : Nat → Nat)
    (h : 2 ≤ ((List.range 256).filter (fun i => decide (0 < freq i))).length) :
    ∀ e ∈ generateHuffmanCodes freq, e.2 ≠ [] := by
  have hne : initHeap freq ≠ [] := by
    intro he
    have := initHeap_length freq
    rw [he] at this
    simp at this
    omega
  have hlen := buildLoop_length (initHeap freq) hne
  obtain ⟨root, hroot⟩ : ∃ root, buildLoop (initHeap freq) = [root] := by
    match hb : buildLoop (initHeap freq), hlen with
    | [root], _ => exact ⟨root, rfl⟩
  have hsyms := generateHuffmanCodes_syms_perm freq (by omega)
  have hcard : 2 ≤ (generateHuffmanCodes freq).length := by
    have := hsyms.length_eq
    simp only [List.length_map] at this
    omega
  intro e he
  have hgen : generateHuffmanCodes freq = assignCodes root [] := by
    rw [generateHuffmanCodes, hroot]
  rw [hgen] at he hcard
  match root with
  | HuffNode.leaf s f =>
    rw [assignCodes] at hcard
    simp at hcard
  | HuffNode.node f l r =>
    rw [assignCodes] at he
    rcases List.mem_append.mp he with hm | hm
    · have := assignCodes_extends l ([] ++ [false]) e hm
      intro he2
      rw [he2] at this
      simp at this
    · have := assignCodes_extends r ([] ++ [true]) e hm
      intro he2
      rw [he2] at this
      simp at this

theorem binstrToIntGo_renderCode (c : List Bool) :
    ∀ a, binstrToIntGo a (renderCode c) = c.foldl (fun v b => 2 * v + (if b then 1 else 0)) a := by
  induction c with
  | nil => intro a; rfl
  | cons b bs ih =>
    intro a
    rw [renderCode, List.map_cons, binstrToIntGo]
    have hbit : isBitByte (if b then 49 else 48) = true := by
      cases b <;> rfl
    rw [if_pos hbit]
    have hsub : (if b then 49 else 48) - 48 = if b then 1 else 0 := by
      cases b <;> rfl
    rw [hsub, List.foldl_cons]
    exact ih _

theorem binstrToInt_renderCode (c : List Bool) : binstrToInt (renderCode c) = codeVal c := by
  rw [binstrToInt, binstrToIntGo_renderCode, codeVal]

theorem renderCode_allBits (c : List Bool) : ∀ x ∈ renderCode c, isBitByte x = true := by
  intro x hx
  rw [renderCode] at hx
  obtain ⟨b, -, rfl⟩ := List.mem_map.mp hx
  cases b <;> rfl

@[simp] theorem length_renderCode (c : List Bool) : (renderCode c).length = c.length := by
  simp [renderCode]

theorem codeVal_lt (c : List Bool) : codeVal c < 2 ^ c.length := by
  rw [← binstrToInt_renderCode]
  have := binstrToInt_lt (renderCode c) (renderCode_allBits c)
  simpa using this

theorem renderBin_codeVal (c : List Bool) :
    renderBin c.length (codeVal c) = renderCode c := by
  rw [← binstrToInt_renderCode]
  have := renderBin_binstrToInt (renderCode c) (renderCode_allBits c)
  simpa using this

theorem serializeWith_append (t : List Nat) (as bs : List (List Nat)) :
    serializeWith t (as ++ bs) = serializeWith t as ++ serializeWith t bs := by
  simp [serializeWith]

theorem splitHeaderLines_append (front : List (List Nat)) (lastLine : List Nat)
    (body : List (List Nat)) (hfront : ∀ l ∈ front, startsWithBits l = false)
    (hlast : startsWithBits lastLine = true) :
    splitHeaderLines (front ++ lastLine :: body) = (front ++ [lastLine], body) := by
  induction front with
  | nil =>
    rw [List.nil_append, splitHeaderLines, if_pos hlast]
    rfl
  | cons l ls ih =>
    rw [List.cons_append, splitHeaderLines,
      if_neg (by simp [hfront l (List.mem_cons_self ..)]),
      ih (fun x hx => hfront x (List.mem_cons_of_mem _ hx))]
    rfl

theorem bitFold_feed (pw : Nat → Nat × Nat × Nat × Nat) :
    ∀ (bits : List Nat) (w cnt : Nat) (out : List Nat),
      (∀ c ∈ bits, isBitByte c = true) → cnt + bits.length = 32 → cnt < 32 → w < 2 ^ cnt →
      bits.foldl (bitParseStep pw) (w, cnt, out)
        = (0, 0, out ++ parsedRecords pw (w * 2 ^ bits.length + binstrToInt bits)) := by
  intro bits
  induction bits with
  | nil =>
    intro w cnt out _ hcnt hlt _
    simp at hcnt
    omega
  | cons c cs ih =>
    intro w cnt out hall hcnt hlt hw
    have hc := hall c (List.mem_cons_self ..)
    have hcs := fun d hd => hall d (List.mem_cons_of_mem _ hd)
    have hb : c - 48 ≤ 1 := by
      simp only [isBitByte, Bool.or_eq_true, beq_iff_eq] at hc
      rcases hc with rfl | rfl <;> decide
    have hacc : 2 * w + (c - 48) < 2 ^ (cnt + 1) := by
      have h2 : 2 ^ (cnt + 1) = 2 * 2 ^ cnt := by ring
      omega
    have hb32 : 2 * w + (c - 48) < 4294967296 := by
      have hle := Nat.pow_le_pow_right (by decide : 1 ≤ 2) (by omega : cnt + 1 ≤ 32)
      have hlt2 := lt_of_lt_of_le hacc hle
      norm_num at hlt2
      exact hlt2
    have hval : binstrToInt (c :: cs) = (c - 48) * 2 ^ cs.length + binstrToInt cs := by
      rw [binstrToInt, binstrToIntGo, if_pos hc]
      simpa using binstrToIntGo_acc (c - 48) cs hcs
    rw [List.foldl_cons]
    by_cases h32 : cnt + 1 = 32
    · have hcs0 : cs = [] := by
        have := hcnt
        simp at this
        exact List.length_eq_zero.mp (by omega)
      subst hcs0
      have hstep : bitParseStep pw (w, cnt, out) c
          = (0, 0, out ++ parsedRecords pw ((2 * w + (c - 48)) % 2 ^ 32)) := by
        unfold bitParseStep
        rw [hc]
        simp [h32]
      rw [hstep]
      simp only [List.foldl_nil]
      have harith : (2 * w + (c - 48)) % 2 ^ 32
          = w * 2 ^ ([c].length) + binstrToInt [c] := by
        have hmod : (2 * w + (c - 48)) % 2 ^ 32 = 2 * w + (c - 48) := by
          have h2 : (2 : Nat) ^ 32 = 4294967296 := by norm_num
          rw [h2]
          exact Nat.mod_eq_of_lt hb32
        rw [hmod]
        have hv : binstrToInt [c] = c - 48 := by
          rw [binstrToInt, binstrToIntGo, if_pos hc, binstrToIntGo]
          omega
        rw [hv]
        simp
        ring
      rw [harith]
    · have hmodv : (2 * w + (c - 48)) % 2 ^ 32 = 2 * w + (c - 48) := by
        have h2 : (2 : Nat) ^ 32 = 4294967296 := by norm_num
        rw [h2]
        exact Nat.mod_eq_of_lt hb32
      have hstep : bitParseStep pw (w, cnt, out) c = (2 * w + (c - 48), cnt + 1, out) := by
        unfold bitParseStep
        rw [hc]
        simp [h32, hmodv]
        exact hb32
      rw [hstep, ih (2 * w + (c - 48)) (cnt + 1) out hcs (by simp at hcnt ⊢; omega)
        (by omega) hacc]
      rw [hval]
      have harith : (2 * w + (c - 48)) * 2 ^ cs.length
          = w * 2 ^ (c :: cs).length + (c - 48) * 2 ^ cs.length := by
        simp [List.length_cons, pow_succ]
        ring
      rw [← Nat.add_assoc, harith]

theorem bitFold_lines (pw : Nat → Nat × Nat × Nat × Nat) :
    ∀ (lines : List (List Nat)) (out : List Nat),
      (∀ l ∈ lines, l.length = 32 ∧ ∀ c ∈ l, isBitByte c = true) →
      lines.flatten.foldl (bitParseStep pw) (0, 0, out)
        = (0, 0, out ++ (lines.map (fun l => parsedRecords pw (binstrToInt l))).flatten) := by
  intro lines
  induction lines with
  | nil => intro out _; simp
  | cons l ls ih =>
    intro out hall
    have hl := hall l (List.mem_cons_self ..)
    rw [List.flatten_cons, List.foldl_append]
    have hfeed := bitFold_feed pw l 0 0 out hl.2 (by rw [hl.1]) (by decide) (by decide)
    rw [hfeed]
    have := ih (out ++ parsedRecords pw (0 * 2 ^ l.length + binstrToInt l))
      (fun x hx => hall x (List.mem_cons_of_mem _ hx))
    rw [this]
    simp

theorem bitParseBody_lines (pw : Nat → Nat × Nat × Nat × Nat)
    (lines : List (List Nat))
    (hall : ∀ l ∈ lines, l.length = 32 ∧ ∀ c ∈ l, isBitByte c = true) :
    bitParseBody pw lines.flatten
      = (lines.map (fun l => parsedRecords pw (binstrToInt l))).flatten := by
  rw [bitParseBody]
  rw [bitFold_lines pw lines [] hall]
  simp

theorem parsedRecords_serialize (pw : Nat → Nat × Nat × Nat × Nat) (w : Nat) :
    parsedRecords pw w
      = serializeWith [10] ((wordBytes pw w).map (fun b => renderBin 8 b)) := by
  simp [parsedRecords, serializeWith, wordBytes]

theorem parsedBytes_serialize (pw : Nat → Nat × Nat × Nat × Nat)
    (bodyLines : List (List Nat)) :
    (bodyLines.map (fun l => parsedRecords pw (binstrToInt l))).flatten
      = serializeWith [10] ((payloadOf pw bodyLines).map (fun b => renderBin 8 b)) := by
  induction bodyLines with
  | nil => simp [payloadOf]
  | cons l ls ih =>
    rw [List.map_cons, List.flatten_cons, ih, parsedRecords_serialize]
    have hpay : payloadOf pw (l :: ls) = wordBytes pw (binstrToInt l) ++ payloadOf pw ls := by
      simp [payloadOf]
    rw [hpay, List.map_append, serializeWith_append]

theorem bytesOfBitsGo_nonbit (v cnt : Nat) (c : Nat) (rest : List Nat)
    (h : isBitByte c = false) :
    bytesOfBitsGo v cnt (c :: rest) = bytesOfBitsGo v cnt rest := by
  rw [bytesOfBitsGo, h]
  simp

theorem bytesOfBits_feed :
    ∀ (bits : List Nat) (v cnt : Nat) (rest : List Nat),
      (∀ c ∈ bits, isBitByte c = true) → cnt + bits.length = 8 → cnt < 8 → v < 2 ^ cnt →
      bytesOfBitsGo v cnt (bits ++ rest)
        = (v * 2 ^ bits.length + binstrToInt bits) :: bytesOfBitsGo 0 0 rest := by
  intro bits
  induction bits with
  | nil =>
    intro v cnt rest _ hcnt hlt _
    simp at hcnt
    omega
  | cons c cs ih =>
    intro v cnt rest hall hcnt hlt hv
    have hc := hall c (List.mem_cons_self ..)
    have hcs := fun d hd => hall d (List.mem_cons_of_mem _ hd)
    have hb : c - 48 ≤ 1 := by
      simp only [isBitByte, Bool.or_eq_true, beq_iff_eq] at hc
      rcases hc with rfl | rfl <;> decide
    have hacc : 2 * v + (c - 48) < 2 ^ (cnt + 1) := by
      have h2 : 2 ^ (cnt + 1) = 2 * 2 ^ cnt := by ring
      omega
    have hb32 : 2 * v + (c - 48) < 4294967296 := by
      have hle := Nat.pow_le_pow_right (by decide : 1 ≤ 2) (by omega : cnt + 1 ≤ 32)
      have hlt2 := lt_of_lt_of_le hacc hle
      norm_num at hlt2
      omega
    have hmodv : (2 * v + (c - 48)) % 2 ^ 32 = 2 * v + (c - 48) := by
      have h2 : (2 : Nat) ^ 32 = 4294967296 := by norm_num
      rw [h2]
      exact Nat.mod_eq_of_lt hb32
    have hval : binstrToInt (c :: cs) = (c - 48) * 2 ^ cs.length + binstrToInt cs := by
      rw [binstrToInt, binstrToIntGo, if_pos hc]
      simpa using binstrToIntGo_acc (c - 48) cs hcs
    rw [List.cons_append, bytesOfBitsGo, hc]
    by_cases h8 : cnt + 1 = 8
    · have hcs0 : cs = [] := by
        simp at hcnt
        exact List.length_eq_zero.mp (by omega)
      subst hcs0
      have hv1 : binstrToInt [c] = c - 48 := by
        rw [binstrToInt, binstrToIntGo, if_pos hc, binstrToIntGo]
        omega
      simp only [List.nil_append]
      simp [h8, Nat.mod_eq_of_lt hb32, hv1]
      ring
    · have hstep := ih (2 * v + (c - 48)) (cnt + 1) rest hcs (by simp at hcnt ⊢; omega)
        (by omega) hacc
      rw [if_pos (by trivial), if_neg h8, hmodv, hstep, hval]
      have harith : (2 * v + (c - 48)) * 2 ^ cs.length
          = v * 2 ^ (c :: cs).length + (c - 48) * 2 ^ cs.length := by
        simp [List.length_cons, pow_succ]
        ring
      rw [← Nat.add_assoc, harith]

theorem symbolsOf_records (bytes : List Nat) (hb : ∀ b ∈ bytes, b < 256) :
    symbolsOf (serializeWith [10] (bytes.map (fun b => renderBin 8 b))) = bytes := by
  induction bytes with
  | nil => rfl
  | cons b bs ih =>
    have hb0 := hb b (List.mem_cons_self ..)
    have hbs := fun x hx => hb x (List.mem_cons_of_mem _ hx)
    rw [List.map_cons, serializeWith_cons]
    rw [symbolsOf, List.append_assoc]
    have hfeed := bytesOfBits_feed (renderBin 8 b) 0 0
      ([10] ++ serializeWith [10] (bs.map (fun x => renderBin 8 x)))
      (fun c hc => mem_renderBin_isBit hc) (by simp) (by decide) (by decide)
    rw [hfeed]
    rw [binstrToInt_renderBin]
    have hmod : b % 2 ^ 8 = b := Nat.mod_eq_of_lt (by simpa using hb0)
    rw [hmod]
    have hskip : bytesOfBitsGo 0 0 ([10] ++ serializeWith [10] (bs.map (fun x => renderBin 8 x)))
        = bytesOfBitsGo 0 0 (serializeWith [10] (bs.map (fun x => renderBin 8 x))) := by
      exact bytesOfBitsGo_nonbit 0 0 10 _ (by decide)
    rw [hskip]
    rw [symbolsOf] at ih
    rw [ih hbs]
    simp

theorem payloadOf_lt (pw : Nat → Nat × Nat × Nat × Nat) (bodyLines : List (List Nat)) :
    ∀ b ∈ payloadOf pw bodyLines, b < 256 := by
  intro b hb
  rw [payloadOf] at hb
  rw [List.mem_flatten] at hb
  obtain ⟨l, hl, hbl⟩ := hb
  obtain ⟨x, -, rfl⟩ := List.mem_map.mp hl
  rw [wordBytes] at hbl
  have h256 : (0 : Nat) < 256 := by decide
  simp only [List.mem_cons, List.mem_singleton, List.not_mem_nil, or_false] at hbl
  rcases hbl with h | h | h | h
  all_goals rw [h]
  all_goals exact Nat.mod_lt _ h256

theorem readShortLineGo_line :
    ∀ (row : List Nat) (acc : List Nat) (sj : Nat) (rest : List Nat),
      (∀ c ∈ row, c ≠ 10 ∧ c ≠ 13) → sj + row.length ≤ 31 →
      readShortLineGo sj acc (row ++ [10] ++ rest) = (acc.reverse ++ row, rest) := by
  intro row
  induction row with
  | nil =>
    intro acc sj rest _ _
    rw [List.nil_append, List.cons_append, readShortLineGo, if_pos rfl]
    simp
  | cons c cs ih =>
    intro acc sj rest hall hlen
    have hc := hall c (List.mem_cons_self ..)
    rw [List.cons_append, List.cons_append, readShortLineGo,
      if_neg hc.1, if_pos (by simp at hlen; omega), if_neg hc.2]
    have := ih (c :: acc) (sj + 1) rest (fun d hd => hall d (List.mem_cons_of_mem _ hd))
      (by simp at hlen ⊢; omega)
    rw [this]
    simp

theorem renderDec_length_le : ∀ (k m : Nat), m < 10 ^ k → (renderDec m).length ≤ k + 1 := by
  intro k
  induction k with
  | zero =>
    intro m hm
    have : m = 0 := by simpa using hm
    subst this
    rw [renderDec_unfold]
    simp
  | succ k ih =>
    intro m hm
    rw [renderDec_unfold]
    by_cases h10 : m < 10
    · rw [if_pos h10]; simp
    · rw [if_neg h10]
      have hdiv : m / 10 < 10 ^ k := by
        apply Nat.div_lt_of_lt_mul
        rw [Nat.mul_comm]
        simpa [pow_succ] using hm
      have := ih (m / 10) hdiv
      simp [List.length_append]
      omega

theorem parseSymFreq_rows (freqF : Nat → Nat) :
    ∀ (present : List Nat) (fuel n : Nat) (tbl : Nat → Nat),
      (∀ s ∈ present, s < 256 ∧ 0 < freqF s ∧ freqF s < 2 ^ 24) →
      n + present.length ≤ 256 →
      (serializeWith [10] (present.map (fun s => renderBin 8 s))).length < fuel →
      parseSymFreqGo fuel (serializeWith [10] (present.map (fun s => renderBin 8 s)))
        (serializeWith [10] (present.map (fun s => renderDec (freqF s)))) n tbl
      = fun j => if j ∈ present then freqF j else tbl j := by
  intro present
  induction present with
  | nil =>
    intro fuel n tbl _ _ hfuel
    match fuel, hfuel with
    | fuel + 1, _ =>
      rw [parseSymFreqGo]
      rw [if_neg (by simp [serializeWith])]
      funext j
      simp
  | cons s t ih =>
    intro fuel n tbl hall hn hfuel
    have hs := hall s (List.mem_cons_self ..)
    have hts := fun x hx => hall x (List.mem_cons_of_mem _ hx)
    match fuel, hfuel with
    | fuel + 1, hfuel =>
      rw [List.map_cons, serializeWith_cons, List.map_cons, serializeWith_cons]
      rw [List.map_cons, serializeWith_cons] at hfuel
      rw [parseSymFreqGo]
      rw [if_pos (by
        refine ⟨by simp, by simp, by simp only [List.length_cons] at hn; omega⟩)]
      have hsym : readShortLine
          ((renderBin 8 s ++ [10]) ++ serializeWith [10] (t.map (fun x => renderBin 8 x)))
          = (renderBin 8 s, serializeWith [10] (t.map (fun x => renderBin 8 x))) := by
        rw [readShortLine]
        have := readShortLineGo_line (renderBin 8 s) [] 0
          (serializeWith [10] (t.map (fun x => renderBin 8 x)))
          (fun c hc => by
            have := isBitByte_facts (mem_renderBin_isBit hc)
            exact ⟨this.1, this.2.1⟩) (by simp)
        rw [this]
        simp
      have hfrq : readShortLine
          ((renderDec (freqF s) ++ [10])
            ++ serializeWith [10] (t.map (fun x => renderDec (freqF x))))
          = (renderDec (freqF s), serializeWith [10] (t.map (fun x => renderDec (freqF x)))) := by
        rw [readShortLine]
        have hlen : (renderDec (freqF s)).length ≤ 31 := by
          have h24 : freqF s < 10 ^ 8 := by
            have := hs.2.2
            have hp : (2 : Nat) ^ 24 < 10 ^ 8 := by norm_num
            omega
          have := renderDec_length_le 8 (freqF s) h24
          omega
        have := readShortLineGo_line (renderDec (freqF s)) [] 0
          (serializeWith [10] (t.map (fun x => renderDec (freqF x))))
          (fun c hc => by
            have := isDigitByte_facts (renderDec_digits _ c hc)
            exact ⟨this.1, this.2.1⟩) (by omega)
        rw [this]
        simp
      simp only [hsym, hfrq]
      have hstr : strtol2Bytes (renderBin 8 s) = (s : Int) := by
        rw [strtol2Bytes_allBits (renderBin 8 s) (by
            intro he
            have : (renderBin 8 s).length = 0 := by rw [he]; rfl
            simp at this)
          (fun c hc => mem_renderBin_isBit hc)]
        rw [binstrToInt_renderBin]
        rw [Nat.mod_eq_of_lt (by simpa using hs.1)]
      have hato : atoiBytes (renderDec (freqF s)) = (freqF s : Int) :=
        atoiBytes_renderDec (freqF s)
      rw [hstr, hato]
      rw [if_pos (by
        refine ⟨by positivity, by exact_mod_cast hs.1, by exact_mod_cast hs.2.1⟩)]
      have htoNat : ((s : Int).toNat) = s := Int.toNat_natCast s
      have hftoNat : ((freqF s : Int).toNat) = freqF s := Int.toNat_natCast _
      rw [htoNat, hftoNat]
      have hrec := ih fuel (n + 1) (fun j => if j = s then freqF s else tbl j) hts
        (by simp at hn ⊢; omega) (by
          simp only [serializeWith, List.map_map] at hfuel ⊢
          simp at hfuel ⊢
          omega)
      rw [hrec]
      funext j
      by_cases hjs : j = s
      · subst hjs
        by_cases hjt : j ∈ t
        · simp [hjt]
        · simp [hjt]
      · by_cases hjt : j ∈ t
        · simp [hjt, hjs]
        · simp [hjt, hjs]

theorem stageFreqCounter_eq (bytes : List Nat) (hb : ∀ b ∈ bytes, b < 256) :
    stageFreqCounter (serializeWith [10] (bytes.map (fun b => renderBin 8 b)))
      = (serializeWith [10] ((presentOf bytes).map (fun i => renderBin 8 i)),
         serializeWith [10] ((presentOf bytes).map (fun i => renderDec (freqOf bytes i)))) := by
  simp only [stageFreqCounter]
  rw [symbolsOf_records bytes hb]
  rfl

theorem initFold_congr (f g : Nat → Nat) :
    ∀ (is : List Nat) (h0 : List HuffNode), (∀ i ∈ is, f i = g i) →
      is.foldl (fun h i => if 0 < f i then heapPush h (HuffNode.leaf i (f i)) else h) h0
        = is.foldl (fun h i => if 0 < g i then heapPush h (HuffNode.leaf i (g i)) else h) h0 := by
  intro is
  induction is with
  | nil => intro h0 _; rfl
  | cons i t ih =>
    intro h0 hall
    simp only [List.foldl_cons]
    rw [hall i (List.mem_cons_self ..)]
    exact ih _ (fun x hx => hall x (List.mem_cons_of_mem _ hx))

theorem generateHuffmanCodes_congr (f g : Nat → Nat) (h : ∀ i < 256, f i = g i) :
    generateHuffmanCodes f = generateHuffmanCodes g := by
  have hinit : initHeap f = initHeap g := by
    rw [initHeap, initHeap]
    exact initFold_congr f g (List.range 256) [] (fun i hi => h i (List.mem_range.mp hi))
  rw [generateHuffmanCodes, generateHuffmanCodes, hinit]

theorem parseSymFreqFiles_table (bytes : List Nat) :
    parseSymFreqFiles
        (serializeWith [10] ((presentOf bytes).map (fun i => renderBin 8 i)))
        (serializeWith [10] ((presentOf bytes).map (fun i => renderDec (freqOf bytes i))))
      = fun j => if j < 256 then freqOf bytes j else 0 := by
  rw [parseSymFreqFiles]
  rw [parseSymFreq_rows (freqOf bytes) (presentOf bytes) _ 0 (fun _ => 0)
    (by
      intro s hs
      have hm := List.mem_filter.mp hs
      refine ⟨List.mem_range.mp hm.1, by simpa using hm.2, ?_⟩
      rw [freqOf]
      exact Nat.mod_lt _ (by norm_num))
    (by
      have := List.length_filter_le (fun i => decide (0 < freqOf bytes i)) (List.range 256)
      simp only [presentOf]
      simpa using this)
    (Nat.lt_succ_self _)]
  funext j
  by_cases hj : j ∈ presentOf bytes
  · have hm := List.mem_filter.mp hj
    rw [if_pos hj, if_pos (List.mem_range.mp hm.1)]
  · rw [if_neg hj]
    by_cases hj2 : j < 256
    · rw [if_pos hj2]
      by_contra hne
      refine hj (List.mem_filter.mpr ⟨List.mem_range.mpr hj2, ?_⟩)
      simp only [decide_eq_true_eq]
      omega
    · rw [if_neg hj2]

theorem stageCodebookGen_eq (bytes : List Nat) :
    stageCodebookGen
        (serializeWith [10] ((presentOf bytes).map (fun i => renderBin 8 i)))
        (serializeWith [10] ((presentOf bytes).map (fun i => renderDec (freqOf bytes i))))
      = (serializeWith [13, 10] ((presentOf bytes).map (fun i => renderBin 8 i)),
         serializeWith [13, 10] ((presentOf bytes).map (fun i =>
           renderBin 16 (codeVal (huffTableCode (freqOf bytes) i)))),
         serializeWith [13, 10] ((presentOf bytes).map (fun i =>
           renderBin 5 (huffTableCode (freqOf bytes) i).length)),
         serializeWith [13, 10] ([hmcHeaderLine, hmcSepLine]
           ++ (presentOf bytes).map (fun i => hmcRow i (huffTableCode (freqOf bytes) i))),
         0) := by
  simp only [stageCodebookGen]
  rw [parseSymFreqFiles_table bytes]
  have hrows : (List.range 256).filter
      (fun i => decide (0 < if i < 256 then freqOf bytes i else 0)) = presentOf bytes := by
    rw [presentOf]
    refine List.filter_congr ?_
    intro i hi
    rw [if_pos (List.mem_range.mp hi)]
  rw [hrows]
  have hcode : ∀ i : Nat, huffTableCode (fun j => if j < 256 then freqOf bytes j else 0) i
      = huffTableCode (freqOf bytes) i := by
    intro i
    rw [huffTableCode, huffTableCode,
      generateHuffmanCodes_congr (fun j => if j < 256 then freqOf bytes j else 0)
        (freqOf bytes) (fun j hj => if_pos hj)]
  simp only [hcode]
  simp [serializeWith, List.map_map, List.append_assoc, Function.comp_def]

theorem goodLine_bits (len : Nat) (l : List Nat) (hb : ∀ c ∈ l, isBitByte c = true)
    (hl : l.length + 2 ≤ len) : goodLine len l :=
  ⟨fun c hc => ⟨(isBitByte_facts (hb c hc)).1, (isBitByte_facts (hb c hc)).2.1⟩, hl⟩

theorem mem_code_of_pos (freq : Nat → Nat) (b : Nat) (hb : b < 256) (hpos : 0 < freq b) :
    (b, huffTableCode freq b) ∈ generateHuffmanCodes freq := by
  have hmemP : b ∈ (List.range 256).filter (fun i => decide (0 < freq i)) :=
    List.mem_filter.mpr ⟨List.mem_range.mpr hb, by simpa using hpos⟩
  have h1 : 1 ≤ ((List.range 256).filter (fun i => decide (0 < freq i))).length :=
    List.length_pos_of_mem hmemP
  have hmem2 : b ∈ (generateHuffmanCodes freq).map Prod.fst :=
    (generateHuffmanCodes_syms_perm freq h1).mem_iff.mpr hmemP
  obtain ⟨e, he, heq⟩ := List.mem_map.mp hmem2
  have hee : (b, e.2) ∈ generateHuffmanCodes freq := by
    have hpe : e = (b, e.2) := by
      cases e
      simp only at heq
      rw [heq]
    rw [← hpe]
    exact he
  have htab : huffTableCode freq b = e.2 := by
    rw [huffTableCode]
    exact tableAfterWrites_mem (generateHuffmanCodes freq) b e.2
      (generateHuffmanCodes_syms_nodup freq h1) hee
  rw [htab]
  exact hee

theorem stageHuffmanEncode_eq (enc : Nat → Nat × Nat) (cf : Nat → List Bool) (bytes : List Nat)
    (hb : ∀ b ∈ bytes, b < 256)
    (henc : ∀ b ∈ bytes, enc b = (codeVal (cf b), (cf b).length))
    (hlen16 : ∀ b ∈ bytes, (cf b).length ≤ 16) :
    stageHuffmanEncode enc (serializeWith [10] (bytes.map (fun b => renderBin 8 b)))
      = serializeWith [13, 10] (bytes.map (fun b => renderCode (cf b))) := by
  rw [stageHuffmanEncode]
  rw [readLines_serialize true 32 (by norm_num) [10] (Or.inl rfl) _
    (by
      intro l hl
      obtain ⟨b, hbm, rfl⟩ := List.mem_map.mp hl
      refine ⟨goodLine_bits 32 _ (fun c hc => mem_renderBin_isBit hc) (by simp), ?_⟩
      intro he
      have hzero : (renderBin 8 b).length = 0 := by rw [he]; rfl
      simp at hzero)]
  rw [encodeRecords, serializeWith, List.map_map, List.map_map]
  congr 1
  refine List.map_congr_left ?_
  intro b hbm
  simp only [Function.comp_apply]
  rw [binstrToInt_renderBin]
  have hb' := hb b hbm
  have hmodb : b % 2 ^ 8 % 256 = b := by
    have h8 : (2 : Nat) ^ 8 = 256 := by norm_num
    rw [h8]
    omega
  rw [hmodb, henc b hbm]
  have hl16 := hlen16 b hbm
  have hlm : (codeVal (cf b), (cf b).length).2 % 32 = (cf b).length := by
    simp only
    omega
  have hvm : (codeVal (cf b), (cf b).length).1 % 2 ^ 24 = codeVal (cf b) := by
    simp only
    refine Nat.mod_eq_of_lt ?_
    have := codeVal_lt (cf b)
    have hle : (2 : Nat) ^ (cf b).length ≤ 2 ^ 16 := Nat.pow_le_pow_right (by norm_num) hl16
    have h24 : (2 : Nat) ^ 16 < 2 ^ 24 := by norm_num
    omega
  rw [hlm, hvm, renderBin_codeVal]

theorem compressPipeline_eq (pw : Nat → Nat × Nat × Nat × Nat) (ciph : Nat → Nat → Nat)
    (enc : Nat → Nat × Nat)
    (front : List (List Nat)) (bitsLine : List Nat) (bodyLines : List (List Nat))
    (henc : ∀ e ∈ generateHuffmanCodes (freqOf (payloadOf pw bodyLines)),
      enc e.1 = (codeVal e.2, e.2.length))
    (hlen16 : ∀ e ∈ generateHuffmanCodes (freqOf (payloadOf pw bodyLines)), e.2.length ≤ 16)
    (hfront : ∀ l ∈ front, goodLine 256 l ∧ l ≠ [] ∧ startsWithBits l = false)
    (hbits : goodLine 256 bitsLine ∧ bitsLine ≠ [] ∧ startsWithBits bitsLine = true)
    (hbody : ∀ l ∈ bodyLines, l.length = 32 ∧ ∀ c ∈ l, isBitByte c = true)
    (hsize : (payloadOf pw bodyLines).length < 2 ^ 24) :
    compressPipeline pw ciph enc (serializeWith [13, 10] (front ++ bitsLine :: bodyLines))
      = cipherMap ciph cipherKey
          (serializeWith [10] (front ++ [bitsLine])
            ++ serializeWith [13, 10] ([hmcHeaderLine, hmcSepLine]
                ++ (presentOf (payloadOf pw bodyLines)).map
                    (fun i => hmcRow i (huffTableCode (freqOf (payloadOf pw bodyLines)) i)))
            ++ serializeWith [13, 10] ((payloadOf pw bodyLines).map
                (fun b => renderCode (huffTableCode (freqOf (payloadOf pw bodyLines)) b)))) := by
  have hpay := payloadOf_lt pw bodyLines
  have hbodyGood : ∀ l ∈ bodyLines, goodLine 256 l ∧ l ≠ [] := by
    intro l hl
    obtain ⟨h32, hbl⟩ := hbody l hl
    refine ⟨goodLine_bits 256 l hbl (by omega), ?_⟩
    intro he
    rw [he] at h32
    simp at h32
  have hlines : readLines true 256 (serializeWith [13, 10] (front ++ bitsLine :: bodyLines))
      = front ++ bitsLine :: bodyLines := by
    refine readLines_serialize true 256 (by norm_num) [13, 10] (Or.inr rfl) _ ?_
    intro l hl
    rcases List.mem_append.mp hl with hm | hm
    · exact ⟨(hfront l hm).1, (hfront l hm).2.1⟩
    · rcases List.mem_cons.mp hm with rfl | hm2
      · exact ⟨hbits.1, hbits.2.1⟩
      · exact hbodyGood l hm2
  have hsplit : splitHeaderLines (front ++ bitsLine :: bodyLines)
      = (front ++ [bitsLine], bodyLines) :=
    splitHeaderLines_append front bitsLine bodyLines (fun l hl => (hfront l hl).2.2) hbits.2.2
  have hbp : stageBitParser pw (serializeWith [13, 10] (front ++ bitsLine :: bodyLines))
      = (serializeWith [10] (front ++ [bitsLine]),
         serializeWith [10] ((payloadOf pw bodyLines).map (fun b => renderBin 8 b))) := by
    simp only [stageBitParser]
    rw [hlines, hsplit]
    simp only
    rw [bitParseBody_lines pw bodyLines hbody, parsedBytes_serialize]
  have hposf : ∀ b ∈ payloadOf pw bodyLines, 0 < freqOf (payloadOf pw bodyLines) b := by
    intro b hbm
    rw [freqOf]
    have hc1 : 0 < (payloadOf pw bodyLines).count b := List.count_pos_iff.mpr hbm
    have hcle : (payloadOf pw bodyLines).count b ≤ (payloadOf pw bodyLines).length :=
      List.count_le_length b (payloadOf pw bodyLines)
    rw [Nat.mod_eq_of_lt (by omega)]
    exact hc1
  have hcf : ∀ b ∈ payloadOf pw bodyLines,
      (b, huffTableCode (freqOf (payloadOf pw bodyLines)) b)
        ∈ generateHuffmanCodes (freqOf (payloadOf pw bodyLines)) := fun b hbm =>
    mem_code_of_pos _ b (hpay b hbm) (hposf b hbm)
  have hencode : stageHuffmanEncode enc
      (serializeWith [10] ((payloadOf pw bodyLines).map (fun b => renderBin 8 b)))
      = serializeWith [13, 10] ((payloadOf pw bodyLines).map
          (fun b => renderCode (huffTableCode (freqOf (payloadOf pw bodyLines)) b))) := by
    refine stageHuffmanEncode_eq enc _ _ hpay ?_ ?_
    · intro b hbm
      have := henc _ (hcf b hbm)
      simpa using this
    · intro b hbm
      have := hlen16 _ (hcf b hbm)
      simpa using this
  have hfc : stageFreqCounter
      (serializeWith [10] ((payloadOf pw bodyLines).map (fun b => renderBin 8 b)))
      = (serializeWith [10] ((presentOf (payloadOf pw bodyLines)).map (fun i => renderBin 8 i)),
         serializeWith [10] ((presentOf (payloadOf pw bodyLines)).map
           (fun i => renderDec (freqOf (payloadOf pw bodyLines) i)))) :=
    stageFreqCounter_eq _ hpay
  have hcb := stageCodebookGen_eq (payloadOf pw bodyLines)
  simp only [compressPipeline, hbp, hfc, hcb, hencode]

theorem cipherMap_cipherMap (ciph : Nat → Nat → Nat)
    (hc : ∀ b < 256, ciph b cipherKey < 256 ∧ ciph (ciph b cipherKey) cipherKey = b)
    (bytes : List Nat) (hb : ∀ b ∈ bytes, b < 256) :
    cipherMap ciph cipherKey (cipherMap ciph cipherKey bytes) = bytes := by
  rw [cipherMap, cipherMap, List.map_map]
  have hstep : ∀ b ∈ bytes,
      ((fun b => ciph b cipherKey % 256) ∘ fun b => ciph b cipherKey % 256) b = b := by
    intro b hbm
    have h1 := (hc b (hb b hbm)).1
    have h2 := (hc b (hb b hbm)).2
    simp only [Function.comp_apply]
    rw [Nat.mod_eq_of_lt h1, h2, Nat.mod_eq_of_lt (hb b hbm)]
  rw [List.map_congr_left hstep]
  exact List.map_id _

theorem serializeWith_mem_lt (t : List Nat) (ls : List (List Nat))
    (ht : ∀ c ∈ t, c < 256) (hl : ∀ l ∈ ls, ∀ c ∈ l, c < 256) :
    ∀ c ∈ serializeWith t ls, c < 256 := by
  intro c hc
  rw [serializeWith, List.mem_flatten] at hc
  obtain ⟨x, hx, hcx⟩ := hc
  obtain ⟨l, hlm, rfl⟩ := List.mem_map.mp hx
  rcases List.mem_append.mp hcx with h | h
  · exact hl l hlm c h
  · exact ht c h

theorem padRight_lt (l : List Nat) (w : Nat) (hl : ∀ c ∈ l, c < 256) :
    ∀ c ∈ padRight l w, c < 256 := by
  intro c hc
  rw [padRight] at hc
  rcases List.mem_append.mp hc with h | h
  · exact hl c h
  · rw [List.eq_of_mem_replicate h]
    norm_num

theorem pad2_facts (n : Nat) : ∀ c ∈ pad2 n, c < 256 ∧ c ≠ 10 ∧ c ≠ 13 := by
  intro c hc
  rw [pad2] at hc
  have hdig : c = 32 ∨ c ∈ renderDec n := by
    by_cases h10 : n < 10
    · rw [if_pos h10] at hc
      rcases List.mem_cons.mp hc with h | h
      · exact Or.inl h
      · exact Or.inr h
    · rw [if_neg h10] at hc
      exact Or.inr hc
  rcases hdig with rfl | h
  · refine ⟨by norm_num, by norm_num, by norm_num⟩
  · have hf := isDigitByte_facts (renderDec_digits n c h)
    exact ⟨hf.2.2.2.2.1, hf.1, hf.2.1⟩

theorem hmcRow_lt (i : Nat) (code : List Bool) : ∀ c ∈ hmcRow i code, c < 256 := by
  intro c hc
  rw [hmcRow] at hc
  rcases List.mem_append.mp hc with h | h
  · rcases List.mem_append.mp h with h2 | h2
    · rcases List.mem_append.mp h2 with h3 | h3
      · rcases List.mem_append.mp h3 with h4 | h4
        · exact padRight_lt _ _ (fun x hx => (isBitByte_facts (mem_renderBin_isBit hx)).2.2.1)
            c h4
        · rw [List.mem_singleton.mp h4]
          norm_num
      · exact padRight_lt _ _
          (fun x hx => (isBitByte_facts (renderCode_allBits code x hx)).2.2.1) c h3
    · rw [List.mem_singleton.mp h2]
      norm_num
  · exact (pad2_facts code.length c h).1

theorem hmcRow_no_crlf (i : Nat) (code : List Bool) :
    ∀ c ∈ hmcRow i code, c ≠ 10 ∧ c ≠ 13 := by
  intro c hc
  rw [hmcRow] at hc
  rcases List.mem_append.mp hc with h | h
  · rcases List.mem_append.mp h with h2 | h2
    · rcases List.mem_append.mp h2 with h3 | h3
      · rcases List.mem_append.mp h3 with h4 | h4
        · rw [padRight] at h4
          rcases List.mem_append.mp h4 with h5 | h5
          · have hf := isBitByte_facts (mem_renderBin_isBit h5)
            exact ⟨hf.1, hf.2.1⟩
          · rw [List.eq_of_mem_replicate h5]
            refine ⟨by norm_num, by norm_num⟩
        · rw [List.mem_singleton.mp h4]
          refine ⟨by norm_num, by norm_num⟩
      · rw [padRight] at h3
        rcases List.mem_append.mp h3 with h5 | h5
        · have hf := isBitByte_facts (renderCode_allBits code c h5)
          exact ⟨hf.1, hf.2.1⟩
        · rw [List.eq_of_mem_replicate h5]
          refine ⟨by norm_num, by norm_num⟩
    · rw [List.mem_singleton.mp h2]
      refine ⟨by norm_num, by norm_num⟩
  · exact (pad2_facts code.length c h).2

theorem pad2_length_le (n : Nat) (h : n < 100) : (pad2 n).length ≤ 3 := by
  rw [pad2]
  by_cases h10 : n < 10
  · rw [if_pos h10]
    have := renderDec_length_le 1 n (by omega)
    simp only [List.length_cons]
    omega
  · rw [if_neg h10]
    have h100 : n < 10 ^ 2 := by
      have : (10 : Nat) ^ 2 = 100 := by norm_num
      omega
    have := renderDec_length_le 2 n h100
    omega

theorem hmcRow_goodLine (i : Nat) (code : List Bool) (hlen : code.length ≤ 16) :
    goodLine 256 (hmcRow i code) ∧ hmcRow i code ≠ [] := by
  constructor
  · refine ⟨hmcRow_no_crlf i code, ?_⟩
    rw [hmcRow]
    have h1 : (padRight (renderBin 8 i) 10).length = 10 := by
      rw [padRight]
      simp
    have h2 : (padRight (renderCode code) 20).length = 20 := by
      rw [padRight]
      simp only [List.length_append, List.length_replicate, length_renderCode]
      omega
    have h3 : (pad2 code.length).length ≤ 3 := pad2_length_le _ (by omega)
    simp only [List.length_append, h1, h2, List.length_cons, List.length_nil]
    omega
  · intro he
    have : (hmcRow i code).length = 0 := by rw [he]; rfl
    rw [hmcRow] at this
    simp [padRight] at this

theorem bits_not_symbol {l : List Nat} (h : startsWithBits l = true) :
    startsWithSymbol l = false := by
  rw [startsWithBits] at h
  rw [startsWithSymbol]
  match l with
  | [] => simp [List.isPrefixOf] at h
  | c :: t =>
    simp only [List.isPrefixOf, Bool.and_eq_true, beq_iff_eq] at h
    obtain ⟨rfl, -⟩ := h
    simp [List.isPrefixOf]

theorem isBinstr_hmcRow (i : Nat) (code : List Bool) : isBinstr (hmcRow i code) = false := by
  have h32 : (32 : Nat) ∈ hmcRow i code := by
    rw [hmcRow]
    simp
  cases hb : isBinstr (hmcRow i code)
  · rfl
  · exfalso
    rw [isBinstr, Bool.and_eq_true, List.all_eq_true] at hb
    have := hb.2 32 h32
    simp [isBitByte] at this

theorem isBinstr_renderCode {c : List Bool} (h : c ≠ []) : isBinstr (renderCode c) = true := by
  rw [isBinstr, Bool.and_eq_true]
  refine ⟨?_, List.all_eq_true.mpr (renderCode_allBits c)⟩
  match c with
  | b :: t => rfl

theorem amendedCodebookPhase_shape (mid : List (List Nat)) (l0 : List Nat)
    (rest : List (List Nat)) (hmid : ∀ l ∈ mid, isBinstr l = false)
    (hl0 : isBinstr l0 = true) :
    amendedCodebookPhase (mid ++ l0 :: rest) = (mid, l0 :: rest) := by
  induction mid with
  | nil =>
    rw [List.nil_append, amendedCodebookPhase,
      if_pos ⟨by rw [tokensOf_binstr hl0]; rfl, hl0⟩]
    rfl
  | cons m t ih =>
    rw [List.cons_append, amendedCodebookPhase, if_neg (by
      intro hcond
      rw [hmid m (List.mem_cons_self ..)] at hcond
      exact absurd hcond.2 (by simp))]
    rw [ih (fun x hx => hmid x (List.mem_cons_of_mem _ hx))]

theorem amendedHeaderPhase_shape (front2 mid : List (List Nat)) (symLine l0 : List Nat)
    (rest : List (List Nat))
    (hfront : ∀ l ∈ front2, startsWithSymbol l = false)
    (hsym : startsWithSymbol symLine = true)
    (hmid : ∀ l ∈ mid, isBinstr l = false) (hl0 : isBinstr l0 = true) :
    amendedHeaderPhase (front2 ++ symLine :: (mid ++ l0 :: rest))
      = (front2, symLine :: mid, l0 :: rest) := by
  induction front2 with
  | nil =>
    rw [List.nil_append, amendedHeaderPhase, if_pos hsym,
      amendedCodebookPhase_shape mid l0 rest hmid hl0]
  | cons f t ih =>
    rw [List.cons_append, amendedHeaderPhase, if_neg (by
      rw [hfront f (List.mem_cons_self ..)]
      simp)]
    rw [ih (fun x hx => hfront x (List.mem_cons_of_mem _ hx))]

theorem splitCompBin_eq (hdr rows : List (List Nat)) (c0 : List Nat)
    (crest : List (List Nat))
    (hhdr : ∀ l ∈ hdr, goodLine 256 l ∧ l ≠ [] ∧ startsWithSymbol l = false)
    (hrows : ∀ l ∈ rows, goodLine 256 l ∧ l ≠ [] ∧ isBinstr l = false)
    (hcode : ∀ l ∈ c0 :: crest, goodLine 256 l ∧ l ≠ [])
    (hc0 : isBinstr c0 = true) :
    splitCompBin (serializeWith [10] hdr
        ++ (serializeWith [13, 10] (hmcHeaderLine :: hmcSepLine :: rows)
            ++ serializeWith [13, 10] (c0 :: crest)))
      = (serializeWith [13, 10] hdr,
         serializeWith [13, 10] (hmcHeaderLine :: hmcSepLine :: rows),
         serializeWith [13, 10] (c0 :: crest)) := by
  have hlines : readLines false 256 (serializeWith [10] hdr
      ++ (serializeWith [13, 10] (hmcHeaderLine :: hmcSepLine :: rows)
          ++ serializeWith [13, 10] (c0 :: crest)))
      = hdr ++ ((hmcHeaderLine :: hmcSepLine :: rows) ++ (c0 :: crest)) := by
    rw [readLines_serialize_append false 256 (by norm_num) [10] (Or.inl rfl) hdr _
      (fun l hl => ⟨(hhdr l hl).1, (hhdr l hl).2.1⟩)]
    rw [readLines_serialize_append false 256 (by norm_num) [13, 10] (Or.inr rfl) _ _
      (by
        intro l hl
        rcases List.mem_cons.mp hl with rfl | hl2
        · exact ⟨by decide, by decide⟩
        rcases List.mem_cons.mp hl2 with rfl | hl3
        · exact ⟨by decide, by decide⟩
        · exact ⟨(hrows l hl3).1, (hrows l hl3).2.1⟩)]
    rw [readLines_serialize false 256 (by norm_num) [13, 10] (Or.inr rfl) _ hcode]
  simp only [splitCompBin]
  rw [hlines]
  have hshape := amendedHeaderPhase_shape hdr (hmcSepLine :: rows) hmcHeaderLine c0 crest
    (fun l hl => (hhdr l hl).2.2) (by decide)
    (by
      intro l hl
      rcases List.mem_cons.mp hl with rfl | hl2
      · decide
      · exact (hrows l hl2).2.2)
    hc0
  have hfold := splitFold_header
    (hdr ++ hmcHeaderLine :: ((hmcSepLine :: rows) ++ c0 :: crest)) [] [] []
  rw [hshape] at hfold
  simp only [List.nil_append] at hfold
  rw [splitClassify]
  simp only [List.cons_append] at hfold
  rw [Prod.mk.injEq, Prod.mk.injEq] at hfold
  obtain ⟨h1, h2, h3⟩ := hfold
  simp only [List.cons_append]
  rw [h1, h2, h3]

theorem dropWhile_space_head (c : Nat) (l : List Nat) (hc : isSpaceByte c = false) :
    (c :: l).dropWhile isSpaceByte = c :: l := by
  simp [List.dropWhile, hc]

theorem dropWhile_space_all (sp : List Nat) (hsp : ∀ c ∈ sp, isSpaceByte c = true) :
    ∀ l : List Nat, (sp ++ l).dropWhile isSpaceByte = l.dropWhile isSpaceByte := by
  induction sp with
  | nil => intro l; rfl
  | cons c t ih =>
    intro l
    rw [List.cons_append, List.dropWhile_cons,
      if_pos (by rw [hsp c (List.mem_cons_self ..)]),
      ih (fun x hx => hsp x (List.mem_cons_of_mem _ hx))]

theorem dropWhile_space_of_forall (tok rest : List Nat) (hne : tok ≠ [])
    (h : ∀ c ∈ tok, isSpaceByte c = false) :
    (tok ++ rest).dropWhile isSpaceByte = tok ++ rest := by
  match tok, hne with
  | c :: t, _ =>
    rw [List.cons_append]
    exact dropWhile_space_head c _ (h c (List.mem_cons_self ..))

theorem takeWhile_nonspace_all (tok : List Nat) (h : ∀ c ∈ tok, isSpaceByte c = false) :
    tok.takeWhile (fun c => !isSpaceByte c) = tok := by
  induction tok with
  | nil => rfl
  | cons c t ih =>
    rw [List.takeWhile_cons, if_pos (by rw [h c (List.mem_cons_self ..)]; rfl),
      ih (fun x hx => h x (List.mem_cons_of_mem _ hx))]

theorem takeWhile_nonspace_stop (tok rest : List Nat)
    (h : ∀ c ∈ tok, isSpaceByte c = false) :
    (tok ++ 32 :: rest).takeWhile (fun c => !isSpaceByte c) = tok := by
  induction tok with
  | nil =>
    rw [List.nil_append, List.takeWhile_cons, if_neg (by decide)]
  | cons c t ih =>
    rw [List.cons_append, List.takeWhile_cons,
      if_pos (by rw [h c (List.mem_cons_self ..)]; rfl),
      ih (fun x hx => h x (List.mem_cons_of_mem _ hx))]

theorem extractTokens_nil (caps : List Nat) : extractTokens caps [] = [] := by
  match caps with
  | [] => rfl
  | c :: cs => simp [extractTokens]

theorem extractTokens_mid (cap : Nat) (caps : List Nat) (sp tok rest : List Nat)
    (hsp : ∀ c ∈ sp, isSpaceByte c = true)
    (hne : tok ≠ []) (hns : ∀ c ∈ tok, isSpaceByte c = false) (hcap : tok.length ≤ cap) :
    extractTokens (cap :: caps) (sp ++ (tok ++ 32 :: rest))
      = tok :: extractTokens caps (32 :: rest) := by
  simp only [extractTokens]
  rw [dropWhile_space_all sp hsp, dropWhile_space_of_forall tok _ hne hns]
  have hemp : (tok ++ 32 :: rest).isEmpty = false := by
    match tok, hne with
    | c :: t, _ => rfl
  simp only [hemp, Bool.false_eq_true, if_false]
  rw [takeWhile_nonspace_stop tok rest hns, List.take_of_length_le hcap, List.drop_left]

theorem extractTokens_last (cap : Nat) (caps : List Nat) (sp tok : List Nat)
    (hsp : ∀ c ∈ sp, isSpaceByte c = true)
    (hne : tok ≠ []) (hns : ∀ c ∈ tok, isSpaceByte c = false) (hcap : tok.length ≤ cap) :
    extractTokens (cap :: caps) (sp ++ tok) = tok :: extractTokens caps [] := by
  simp only [extractTokens]
  rw [dropWhile_space_all sp hsp]
  have hd : tok.dropWhile isSpaceByte = tok := by
    match tok, hne with
    | c :: t, _ => exact dropWhile_space_head c t (hns c (List.mem_cons_self ..))
  rw [hd]
  have hemp : tok.isEmpty = false := by
    match tok, hne with
    | c :: t, _ => rfl
  simp only [hemp, Bool.false_eq_true, if_false]
  rw [takeWhile_nonspace_all tok hns, List.take_of_length_le hcap, List.drop_length]

theorem renderDec_nonspace (n : Nat) : ∀ c ∈ renderDec n, isSpaceByte c = false :=
  fun c hc => (isDigitByte_facts (renderDec_digits n c hc)).2.2.2.2.2

theorem extractTokens_hmcRow (i : Nat) (code : List Bool) (hne : code ≠ [])
    (hlen : code.length ≤ 16) :
    extractTokens [63, 127, 63] (hmcRow i code)
      = [renderBin 8 i, renderCode code, renderDec code.length] := by
  have hm : 20 - code.length = (19 - code.length) + 1 := by
    have : 0 < code.length := List.length_pos.mpr hne
    omega
  have hpr1 : padRight (renderBin 8 i) 10 = renderBin 8 i ++ [32, 32] := by
    rw [padRight, length_renderBin]
    rfl
  have hpr2 : padRight (renderCode code) 20
      = renderCode code ++ 32 :: List.replicate (19 - code.length) 32 := by
    rw [padRight, length_renderCode, hm, List.replicate_succ]
  have h1 : hmcRow i code = [] ++ (renderBin 8 i ++ 32 :: (32 :: 32 :: (renderCode code
      ++ 32 :: (List.replicate (19 - code.length) 32 ++ 32 :: pad2 code.length)))) := by
    rw [hmcRow, hpr1, hpr2]
    simp [List.append_assoc]
  rw [h1]
  rw [extractTokens_mid 63 [127, 63] [] (renderBin 8 i) _ (by simp)
    (by
      intro he
      have : (renderBin 8 i).length = 0 := by rw [he]; rfl
      simp at this)
    (fun c hc => (isBitByte_facts (mem_renderBin_isBit hc)).2.2.2.1)
    (by simp)]
  have h2 : (32 :: 32 :: 32 :: (renderCode code
      ++ 32 :: (List.replicate (19 - code.length) 32 ++ 32 :: pad2 code.length)))
      = [32, 32, 32] ++ (renderCode code
        ++ 32 :: (List.replicate (19 - code.length) 32 ++ 32 :: pad2 code.length)) := rfl
  rw [h2]
  rw [extractTokens_mid 127 [63] [32, 32, 32] (renderCode code) _ (by decide)
    (by
      intro he
      have : (renderCode code).length = 0 := by rw [he]; rfl
      rw [length_renderCode] at this
      exact hne (List.length_eq_zero.mp this))
    (fun c hc => (isBitByte_facts (renderCode_allBits code c hc)).2.2.2.1)
    (by rw [length_renderCode]; omega)]
  have hdribs : (renderDec code.length).length ≤ 63 := by
    have h100 : code.length < 10 ^ 2 := by
      have : (10 : Nat) ^ 2 = 100 := by norm_num
      omega
    have := renderDec_length_le 2 code.length h100
    omega
  have h3 : (32 :: (List.replicate (19 - code.length) 32 ++ 32 :: pad2 code.length))
      = (32 :: (List.replicate (19 - code.length) 32 ++ 32 :: (if code.length < 10
          then [32] else []))) ++ renderDec code.length := by
    rw [pad2]
    by_cases h10 : code.length < 10
    · rw [if_pos h10, if_pos h10]
      simp
    · rw [if_neg h10, if_neg h10]
      simp
  rw [h3]
  rw [extractTokens_last 63 [] _ (renderDec code.length)
    (by
      intro c hc
      rcases List.mem_cons.mp hc with rfl | hc2
      · rfl
      rcases List.mem_append.mp hc2 with hc3 | hc3
      · rw [List.eq_of_mem_replicate hc3]; rfl
      rcases List.mem_cons.mp hc3 with rfl | hc4
      · rfl
      · by_cases h10 : code.length < 10
        · rw [if_pos h10] at hc4
          rw [List.mem_singleton.mp hc4]
          rfl
        · rw [if_neg h10] at hc4
          simp at hc4)
    (renderDec_ne_nil _) (renderDec_nonspace _) hdribs]
  rfl

theorem rstrip_last_keep (l : List Nat) (d : Nat) (hd : (d == 32 || d == 9) = false) :
    rstrip (l ++ [d]) = l ++ [d] := by
  rw [rstrip, List.reverse_append]
  simp only [List.reverse_cons, List.reverse_nil, List.nil_append, List.cons_append]
  rw [List.dropWhile_cons, if_neg (by rw [hd]; simp)]
  simp

theorem rstrip_hmcRow (i : Nat) (code : List Bool) :
    rstrip (hmcRow i code) = hmcRow i code := by
  obtain h | ⟨l', d, hd⟩ := List.eq_nil_or_concat (renderDec code.length)
  · exact absurd h (renderDec_ne_nil _)
  rw [List.concat_eq_append] at hd
  have hdm : d ∈ renderDec code.length := by
    rw [hd]
    simp
  have hdd : isDigitByte d = true := renderDec_digits _ d hdm
  rw [isDigitByte, Bool.and_eq_true, decide_eq_true_eq, decide_eq_true_eq] at hdd
  have hrow : hmcRow i code = (padRight (renderBin 8 i) 10 ++ [32]
      ++ padRight (renderCode code) 20 ++ [32]
      ++ (if code.length < 10 then [32] else []) ++ l') ++ [d] := by
    rw [hmcRow, pad2]
    by_cases h10 : code.length < 10
    · rw [if_pos h10, if_pos h10, hd]
      simp
    · rw [if_neg h10, if_neg h10, hd]
      simp
  rw [hrow, rstrip_last_keep _ d (by
    simp only [Bool.or_eq_false_iff, beq_eq_false_iff_ne, ne_eq]
    omega)]

theorem isBinstr_of_bits {l : List Nat} (hne : l ≠ []) (hb : ∀ c ∈ l, isBitByte c = true) :
    isBinstr l = true := by
  rw [isBinstr, Bool.and_eq_true]
  exact ⟨by match l, hne with | c :: t, _ => rfl, List.all_eq_true.mpr hb⟩

theorem genTableRowsGo_rows (cf : Nat → List Bool) (present : List Nat)
    (h : ∀ i ∈ present, cf i ≠ [] ∧ (cf i).length ≤ 16) :
    ∃ p, genTableRowsGo (present.map (fun i => hmcRow i (cf i))) = Except.ok p := by
  induction present with
  | nil => exact ⟨([], [], []), rfl⟩
  | cons i t ih =>
    obtain ⟨p, hp⟩ := ih (fun x hx => h x (List.mem_cons_of_mem _ hx))
    have hi := h i (List.mem_cons_self ..)
    rw [List.map_cons]
    simp only [genTableRowsGo]
    rw [rstrip_hmcRow]
    have hemp : (hmcRow i (cf i)).isEmpty = false := by
      have hne := (hmcRow_goodLine i (cf i) hi.2).2
      match hmc : hmcRow i (cf i), hne with
      | c :: cs, _ => rfl
    simp only [hemp, Bool.false_eq_true, if_false]
    rw [extractTokens_hmcRow i (cf i) hi.1 hi.2]
    rw [if_neg (by simp)]
    simp only [List.getD_cons_zero, List.getD_cons_succ]
    rw [if_neg (by
      simp only [length_renderBin, isBinstr_of_bits (by
          intro he
          have : (renderBin 8 i).length = 0 := by rw [he]; rfl
          simp at this)
        (fun c hc => mem_renderBin_isBit hc)]
      simp)]
    rw [if_neg (by rw [isBinstr_renderCode hi.1]; simp)]
    rw [if_neg (by
      rw [atoiBytes_renderDec]
      omega)]
    rw [if_neg (by
      rw [length_renderCode]
      omega)]
    rw [hp]
    exact ⟨_, rfl⟩

theorem genTableFilesFromHMC_ok (cf : Nat → List Bool) (present : List Nat)
    (h : ∀ i ∈ present, cf i ≠ [] ∧ (cf i).length ≤ 16) :
    ∃ p, genTableFilesFromHMC (serializeWith [13, 10]
        (hmcHeaderLine :: hmcSepLine :: present.map (fun i => hmcRow i (cf i))))
      = Except.ok p := by
  rw [genTableFilesFromHMC]
  rw [readLines_serialize false 256 (by norm_num) [13, 10] (Or.inr rfl) _ (by
    intro l hl
    rcases List.mem_cons.mp hl with rfl | hl2
    · exact ⟨by decide, by decide⟩
    rcases List.mem_cons.mp hl2 with rfl | hl3
    · exact ⟨by decide, by decide⟩
    obtain ⟨i, him, rfl⟩ := List.mem_map.mp hl3
    exact hmcRow_goodLine i (cf i) (h i him).2)]
  rw [hmcSkipHeader, if_pos (by decide)]
  rw [List.drop_one, List.tail_cons]
  exact genTableRowsGo_rows cf present h

theorem rstrip_bits {l : List Nat} (hb : ∀ c ∈ l, isBitByte c = true) : rstrip l = l := by
  obtain rfl | ⟨l', d, hd⟩ := List.eq_nil_or_concat l
  · rfl
  rw [List.concat_eq_append] at hd
  subst hd
  have hdb := hb d (by simp)
  refine rstrip_last_keep l' d ?_
  simp only [isBitByte, Bool.or_eq_true, beq_iff_eq] at hdb
  rcases hdb with rfl | rfl <;> decide

theorem genOutStreamGo_codes (codes : List (List Bool))
    (h : ∀ c ∈ codes, c ≠ [] ∧ c.length ≤ 16) :
    genOutStreamGo (codes.map renderCode)
      = Except.ok (serializeWith [13, 10] (codes.map (fun c => renderBin 16 (codeVal c))),
          serializeWith [13, 10] (codes.map (fun c => renderBin 5 c.length))) := by
  induction codes with
  | nil => rfl
  | cons c t ih =>
    have hc := h c (List.mem_cons_self ..)
    rw [List.map_cons]
    simp only [genOutStreamGo]
    rw [rstrip_bits (renderCode_allBits c)]
    rw [List.filter_eq_self.mpr (fun x hx => renderCode_allBits c x hx)]
    have hemp : (renderCode c).isEmpty = false := by
      match c, hc.1 with
      | b :: bs, _ => rfl
    simp only [hemp, Bool.false_eq_true, if_false]
    rw [if_neg (by rw [length_renderCode]; omega)]
    rw [ih (fun x hx => h x (List.mem_cons_of_mem _ hx))]
    rw [binstrToInt_renderCode, length_renderCode]
    rw [List.map_cons, List.map_cons, serializeWith_cons, serializeWith_cons]

theorem decompressGo_eq (dec : Nat → Nat → Nat) (cf : Nat → List Bool) (bytes : List Nat)
    (h : ∀ b ∈ bytes, b < 256 ∧ (cf b).length ≤ 16
      ∧ dec (codeVal (cf b)) (cf b).length = b) :
    decompressGo dec (bytes.map (fun b => renderBin 16 (codeVal (cf b))))
        (bytes.map (fun b => renderBin 5 (cf b).length))
      = serializeWith [13, 10] (bytes.map (fun b => renderBin 8 b)) := by
  induction bytes with
  | nil => rfl
  | cons b t ih =>
    have hb := h b (List.mem_cons_self ..)
    rw [List.map_cons, List.map_cons, decompressGo]
    rw [if_pos ⟨length_renderBin 16 _, length_renderBin 5 _⟩]
    have hcv : binstrToInt (renderBin 16 (codeVal (cf b))) = codeVal (cf b) := by
      rw [binstrToInt_renderBin]
      refine Nat.mod_eq_of_lt ?_
      have h1 := codeVal_lt (cf b)
      have h2 : (2 : Nat) ^ (cf b).length ≤ 2 ^ 16 :=
        Nat.pow_le_pow_right (by norm_num) hb.2.1
      omega
    have hlv : binstrToInt (renderBin 5 (cf b).length) = (cf b).length := by
      rw [binstrToInt_renderBin]
      refine Nat.mod_eq_of_lt ?_
      have h32 : (2 : Nat) ^ 5 = 32 := by norm_num
      omega
    rw [hcv, hlv]
    have hcv32 : codeVal (cf b) % 2 ^ 32 = codeVal (cf b) := by
      refine Nat.mod_eq_of_lt ?_
      have h1 := codeVal_lt (cf b)
      have h2 : (2 : Nat) ^ (cf b).length ≤ 2 ^ 16 :=
        Nat.pow_le_pow_right (by norm_num) hb.2.1
      have h3 : (2 : Nat) ^ 16 < 2 ^ 32 := by norm_num
      omega
    have hl256 : (cf b).length % 256 = (cf b).length := Nat.mod_eq_of_lt (by omega)
    rw [hcv32, hl256, hb.2.2, Nat.mod_eq_of_lt hb.1]
    rw [ih (fun x hx => h x (List.mem_cons_of_mem _ hx))]
    rw [List.map_cons, serializeWith_cons]

theorem binstrToByteGo_eq (s : List Nat) (hb : ∀ c ∈ s, isBitByte c = true) :
    ∀ v k, v < 256 → k + s.length ≤ 8 → binstrToByteGo v k s = binstrToIntGo v s % 256 := by
  induction s with
  | nil =>
    intro v k hv _
    rw [binstrToByteGo, binstrToIntGo, Nat.mod_eq_of_lt hv]
  | cons c cs ih =>
    intro v k hv hk
    have hc := hb c (List.mem_cons_self ..)
    have hcs : ∀ d ∈ cs, isBitByte d = true := fun d hd => hb d (List.mem_cons_of_mem _ hd)
    rw [binstrToByteGo, if_pos (by
      rw [hc]
      simp only [Bool.and_true, decide_eq_true_eq]
      simp at hk
      omega)]
    rw [binstrToIntGo, if_pos hc]
    rw [ih hcs _ (k + 1) (Nat.mod_lt _ (by norm_num)) (by simp at hk ⊢; omega)]
    rw [binstrToIntGo_acc _ cs hcs, binstrToIntGo_acc _ cs hcs]
    exact (((Nat.mod_modEq (2 * v + (c - 48)) 256).mul_right (2 ^ cs.length)).add_right
      (binstrToInt cs))

theorem binstrToByte_renderBin (b : Nat) (hb : b < 256) :
    binstrToByte (renderBin 8 b) = b := by
  rw [binstrToByte]
  rw [binstrToByteGo_eq (renderBin 8 b) (fun c hc => mem_renderBin_isBit hc) 0 0
    (by norm_num) (by simp)]
  have : binstrToIntGo 0 (renderBin 8 b) = binstrToInt (renderBin 8 b) := rfl
  rw [this, binstrToInt_renderBin]
  have h8 : (2 : Nat) ^ 8 = 256 := by norm_num
  rw [h8]
  omega

theorem validMergeRec_renderBin (b : Nat) : validMergeRec (renderBin 8 b) = true := by
  rw [validMergeRec, isBinstr_of_bits (by
      intro he
      have : (renderBin 8 b).length = 0 := by rw [he]; rfl
      simp at this)
    (fun c hc => mem_renderBin_isBit hc)]
  simp

theorem groups4_payload (mrg : Nat → Nat → Nat → Nat → Nat)
    (pw : Nat → Nat × Nat × Nat × Nat) (bodyLines : List (List Nat))
    (hpw : ∀ w < 2 ^ 32, (pw w).1 < 256 ∧ (pw w).2.1 < 256 ∧ (pw w).2.2.1 < 256
      ∧ (pw w).2.2.2 < 256)
    (hmrg : ∀ w < 2 ^ 32, mrg (pw w).1 (pw w).2.1 (pw w).2.2.1 (pw w).2.2.2 = w)
    (hbody : ∀ l ∈ bodyLines, l.length = 32 ∧ ∀ c ∈ l, isBitByte c = true) :
    ((groups4 (payloadOf pw bodyLines)).map
        (fun g => renderBin 32 (mrg g.1 g.2.1 g.2.2.1 g.2.2.2) ++ [13, 10])).flatten
      = serializeWith [13, 10] bodyLines := by
  induction bodyLines with
  | nil => rfl
  | cons l ls ih =>
    have hl := hbody l (List.mem_cons_self ..)
    have hw : binstrToInt l < 2 ^ 32 := by
      have := binstrToInt_lt l hl.2
      rw [hl.1] at this
      exact this
    have hpw4 := hpw _ hw
    have hpay : payloadOf pw (l :: ls)
        = wordBytes pw (binstrToInt l) ++ payloadOf pw ls := by
      simp [payloadOf]
    rw [hpay, wordBytes]
    simp only [List.cons_append, List.nil_append]
    rw [groups4]
    simp only [List.map_cons, List.flatten_cons]
    rw [Nat.mod_eq_of_lt hpw4.1, Nat.mod_eq_of_lt hpw4.2.1,
      Nat.mod_eq_of_lt hpw4.2.2.1, Nat.mod_eq_of_lt hpw4.2.2.2]
    rw [hmrg _ hw]
    have hrb : renderBin 32 (binstrToInt l) = l := by
      have := renderBin_binstrToInt l hl.2
      rw [hl.1] at this
      exact this
    rw [hrb]
    rw [ih (fun x hx => hbody x (List.mem_cons_of_mem _ hx))]
    rw [serializeWith_cons]

theorem mergeSymbolsToWordsBytes_eq (mrg : Nat → Nat → Nat → Nat → Nat)
    (pw : Nat → Nat × Nat × Nat × Nat) (bodyLines : List (List Nat))
    (hpw : ∀ w < 2 ^ 32, (pw w).1 < 256 ∧ (pw w).2.1 < 256 ∧ (pw w).2.2.1 < 256
      ∧ (pw w).2.2.2 < 256)
    (hmrg : ∀ w < 2 ^ 32, mrg (pw w).1 (pw w).2.1 (pw w).2.2.1 (pw w).2.2.2 = w)
    (hbody : ∀ l ∈ bodyLines, l.length = 32 ∧ ∀ c ∈ l, isBitByte c = true) :
    mergeSymbolsToWordsBytes mrg
        (serializeWith [13, 10] ((payloadOf pw bodyLines).map (fun b => renderBin 8 b)))
      = serializeWith [13, 10] bodyLines := by
  rw [mergeSymbolsToWordsBytes]
  rw [readLines_serialize false 256 (by norm_num) [13, 10] (Or.inr rfl) _ (by
    intro x hx
    obtain ⟨b, hbm, rfl⟩ := List.mem_map.mp hx
    refine ⟨goodLine_bits 256 _ (fun c hc => mem_renderBin_isBit hc) (by simp), ?_⟩
    intro he
    have : (renderBin 8 b).length = 0 := by rw [he]; rfl
    simp at this)]
  rw [mergeSymbolsToWords, mergeSymbolsGo_spec mrg _ [] (by simp), List.nil_append]
  rw [List.filter_eq_self.mpr (by
    intro x hx
    obtain ⟨b, hbm, rfl⟩ := List.mem_map.mp hx
    exact validMergeRec_renderBin b)]
  rw [List.map_map]
  have hid : (payloadOf pw bodyLines).map (binstrToByte ∘ fun b => renderBin 8 b)
      = payloadOf pw bodyLines := by
    have hcongr : ∀ b ∈ payloadOf pw bodyLines,
        (binstrToByte ∘ fun b => renderBin 8 b) b = b := by
      intro b hbm
      exact binstrToByte_renderBin b (payloadOf_lt pw bodyLines b hbm)
    rw [List.map_congr_left hcongr]
    exact List.map_id _
  rw [hid]
  exact groups4_payload mrg pw bodyLines hpw hmrg hbody

theorem splitCompBin_eq2 (hdr rows codeLines : List (List Nat))
    (hhdr : ∀ l ∈ hdr, goodLine 256 l ∧ l ≠ [] ∧ startsWithSymbol l = false)
    (hrows : ∀ l ∈ rows, goodLine 256 l ∧ l ≠ [] ∧ isBinstr l = false)
    (hcode : ∀ l ∈ codeLines, goodLine 256 l ∧ l ≠ [])
    (hc0 : ∀ l ∈ codeLines, isBinstr l = true) (hne : codeLines ≠ []) :
    splitCompBin (serializeWith [10] hdr
        ++ (serializeWith [13, 10] (hmcHeaderLine :: hmcSepLine :: rows)
            ++ serializeWith [13, 10] codeLines))
      = (serializeWith [13, 10] hdr,
         serializeWith [13, 10] (hmcHeaderLine :: hmcSepLine :: rows),
         serializeWith [13, 10] codeLines) := by
  match codeLines, hne with
  | c0 :: crest, _ =>
    exact splitCompBin_eq hdr rows c0 crest hhdr hrows hcode (hc0 c0 (List.mem_cons_self ..))

/-- C1: for every well-formed header-plus-payload input — CRLF-terminated
header lines followed by a `Bits:` sentinel line and a body of full 32-bit
binary lines (so the payload's symbol count is an exact multiple of 4 and its
bit count a multiple of 4×32) — running the compression pipeline
(`stage_bit_parser` through `stage_encrypt_comp_bin`) and then the
decompression pipeline (`decrypt_file` through `merge_header_and_data`) with
the same key 0x5A reproduces the original header and payload byte-for-byte,
assuming the accelerators meet their section 4.3 contracts: `cipherByte` is an
involutory byte transform, `parseWord`/`mergeBytes4` are mutually inverse
between 32-bit words and 4-byte groups, and `encodeSymbol`/`decodeCodeword`
are mutually consistent with the generated (≤16-bit) code table. -/
theorem compress_then_decompress_roundtrip
    (pw : Nat → Nat × Nat × Nat × Nat) (mrg : Nat → Nat → Nat → Nat → Nat)
    (ciph : Nat → Nat → Nat) (enc : Nat → Nat × Nat) (dec : Nat → Nat → Nat)
    (front : List (List Nat)) (bitsLine : List Nat) (bodyLines : List (List Nat))
    (hpw : ∀ w < 2 ^ 32, (pw w).1 < 256 ∧ (pw w).2.1 < 256 ∧ (pw w).2.2.1 < 256
      ∧ (pw w).2.2.2 < 256)
    (hmrg : ∀ w < 2 ^ 32, mrg (pw w).1 (pw w).2.1 (pw w).2.2.1 (pw w).2.2.2 = w)
    (hciph : ∀ b < 256, ciph b cipherKey < 256 ∧ ciph (ciph b cipherKey) cipherKey = b)
    (henc : ∀ e ∈ generateHuffmanCodes (freqOf (payloadOf pw bodyLines)),
      enc e.1 = (codeVal e.2, e.2.length))
    (hdec : ∀ e ∈ generateHuffmanCodes (freqOf (payloadOf pw bodyLines)),
      dec (codeVal e.2) e.2.length = e.1)
    (hlen16 : ∀ e ∈ generateHuffmanCodes (freqOf (payloadOf pw bodyLines)),
      e.2.length ≤ 16)
    (hfront : ∀ l ∈ front, goodLine 256 l ∧ l ≠ [] ∧ (∀ c ∈ l, c < 256)
      ∧ startsWithBits l = false ∧ startsWithSymbol l = false)
    (hbits : goodLine 256 bitsLine ∧ bitsLine ≠ [] ∧ (∀ c ∈ bitsLine, c < 256)
      ∧ startsWithBits bitsLine = true)
    (hbody : ∀ l ∈ bodyLines, l.length = 32 ∧ ∀ c ∈ l, isBitByte c = true)
    (hsize : (payloadOf pw bodyLines).length < 2 ^ 24)
    (htwo : 2 ≤ (presentOf (payloadOf pw bodyLines)).length) :
    decompressPipeline ciph dec mrg (compressPipeline pw ciph enc
        (serializeWith [13, 10] (front ++ bitsLine :: bodyLines)))
      = Except.ok (serializeWith [13, 10] (front ++ bitsLine :: bodyLines)) := by
  have hpay := payloadOf_lt pw bodyLines
  have htwoF : 2 ≤ ((List.range 256).filter
      (fun i => decide (0 < freqOf (payloadOf pw bodyLines) i))).length := by
    have := htwo
    rw [presentOf] at this
    exact this
  -- per-byte facts for every payload byte
  have hposf : ∀ b ∈ payloadOf pw bodyLines, 0 < freqOf (payloadOf pw bodyLines) b := by
    intro b hbm
    rw [freqOf]
    have hc1 : 0 < (payloadOf pw bodyLines).count b := List.count_pos_iff.mpr hbm
    have hcle : (payloadOf pw bodyLines).count b ≤ (payloadOf pw bodyLines).length :=
      List.count_le_length b (payloadOf pw bodyLines)
    rw [Nat.mod_eq_of_lt (by omega)]
    exact hc1
  have hbgen : ∀ b ∈ payloadOf pw bodyLines,
      (b, huffTableCode (freqOf (payloadOf pw bodyLines)) b)
        ∈ generateHuffmanCodes (freqOf (payloadOf pw bodyLines)) := fun b hbm =>
    mem_code_of_pos _ b (hpay b hbm) (hposf b hbm)
  -- per-present-symbol facts
  have higen : ∀ i ∈ presentOf (payloadOf pw bodyLines),
      (i, huffTableCode (freqOf (payloadOf pw bodyLines)) i)
        ∈ generateHuffmanCodes (freqOf (payloadOf pw bodyLines)) := by
    intro i him
    have hm := List.mem_filter.mp him
    exact mem_code_of_pos _ i (List.mem_range.mp hm.1) (by simpa using hm.2)
  have hcfOk : ∀ i ∈ presentOf (payloadOf pw bodyLines),
      huffTableCode (freqOf (payloadOf pw bodyLines)) i ≠ []
      ∧ (huffTableCode (freqOf (payloadOf pw bodyLines)) i).length ≤ 16 := by
    intro i him
    refine ⟨?_, ?_⟩
    · have := generateHuffmanCodes_nonempty_codes (freqOf (payloadOf pw bodyLines)) htwoF
        _ (higen i him)
      simpa using this
    · have := hlen16 _ (higen i him)
      simpa using this
  have hbOk : ∀ b ∈ payloadOf pw bodyLines,
      huffTableCode (freqOf (payloadOf pw bodyLines)) b ≠ []
      ∧ (huffTableCode (freqOf (payloadOf pw bodyLines)) b).length ≤ 16 := by
    intro b hbm
    refine ⟨?_, ?_⟩
    · have := generateHuffmanCodes_nonempty_codes (freqOf (payloadOf pw bodyLines)) htwoF
        _ (hbgen b hbm)
      simpa using this
    · have := hlen16 _ (hbgen b hbm)
      simpa using this
  have hpne : payloadOf pw bodyLines ≠ [] := by
    intro he
    rw [he] at htwo
    simp [presentOf, freqOf] at htwo
  -- compression
  rw [compressPipeline_eq pw ciph enc front bitsLine bodyLines henc hlen16
    (fun l hl => ⟨(hfront l hl).1, (hfront l hl).2.1, (hfront l hl).2.2.2.1⟩)
    ⟨hbits.1, hbits.2.1, hbits.2.2.2⟩ hbody hsize]
  simp only [List.cons_append, List.nil_append, List.append_assoc]
  -- bundle bytes are bytes
  have hbun : ∀ b ∈ serializeWith [10] (front ++ [bitsLine])
      ++ (serializeWith [13, 10] (hmcHeaderLine :: hmcSepLine ::
            (presentOf (payloadOf pw bodyLines)).map
              (fun i => hmcRow i (huffTableCode (freqOf (payloadOf pw bodyLines)) i)))
          ++ serializeWith [13, 10] ((payloadOf pw bodyLines).map
              (fun b => renderCode (huffTableCode (freqOf (payloadOf pw bodyLines)) b)))),
      b < 256 := by
    intro b hbm
    rcases List.mem_append.mp hbm with h | h
    · refine serializeWith_mem_lt [10] _ (by norm_num) ?_ b h
      intro l hl
      rcases List.mem_append.mp hl with h2 | h2
      · exact (hfront l h2).2.2.1
      · rw [List.mem_singleton.mp h2]
        exact hbits.2.2.1
    rcases List.mem_append.mp h with h2 | h2
    · refine serializeWith_mem_lt [13, 10] _ (by norm_num) ?_ b h2
      intro l hl
      rcases List.mem_cons.mp hl with rfl | hl2
      · intro c hc
        have : ∀ x ∈ hmcHeaderLine, x < 256 := by decide
        exact this c hc
      rcases List.mem_cons.mp hl2 with rfl | hl3
      · intro c hc
        have : ∀ x ∈ hmcSepLine, x < 256 := by decide
        exact this c hc
      obtain ⟨i, him, rfl⟩ := List.mem_map.mp hl3
      exact hmcRow_lt i _
    · refine serializeWith_mem_lt [13, 10] _ (by norm_num) ?_ b h2
      intro l hl
      obtain ⟨x, hxm, rfl⟩ := List.mem_map.mp hl
      exact fun c hc => (isBitByte_facts (renderCode_allBits _ c hc)).2.2.1
  simp only [decompressPipeline]
  rw [cipherMap_cipherMap ciph hciph _ hbun]
  have hsplitEq := splitCompBin_eq2 (front ++ [bitsLine])
    ((presentOf (payloadOf pw bodyLines)).map
      (fun i => hmcRow i (huffTableCode (freqOf (payloadOf pw bodyLines)) i)))
    ((payloadOf pw bodyLines).map
      (fun b => renderCode (huffTableCode (freqOf (payloadOf pw bodyLines)) b)))
    (by
      intro l hl
      rcases List.mem_append.mp hl with h2 | h2
      · exact ⟨(hfront l h2).1, (hfront l h2).2.1, (hfront l h2).2.2.2.2⟩
      · rw [List.mem_singleton.mp h2]
        exact ⟨hbits.1, hbits.2.1, bits_not_symbol hbits.2.2.2⟩)
    (by
      intro l hl
      obtain ⟨i, him, rfl⟩ := List.mem_map.mp hl
      obtain ⟨hg, hne⟩ := hmcRow_goodLine i _ (hcfOk i him).2
      exact ⟨hg, hne, isBinstr_hmcRow i _⟩)
    (by
      intro l hl
      obtain ⟨x, hxm, rfl⟩ := List.mem_map.mp hl
      refine ⟨goodLine_bits 256 _ (renderCode_allBits _) ?_, ?_⟩
      · rw [length_renderCode]
        have := (hbOk x hxm).2
        omega
      · intro he
        have : (renderCode (huffTableCode (freqOf (payloadOf pw bodyLines)) x)).length = 0 := by
          rw [he]
          rfl
        rw [length_renderCode] at this
        exact (hbOk x hxm).1 (List.length_eq_zero.mp this))
    (by
      intro l hl
      obtain ⟨x, hxm, rfl⟩ := List.mem_map.mp hl
      exact isBinstr_renderCode (hbOk x hxm).1)
    (by
      intro he
      rw [List.map_eq_nil_iff] at he
      exact hpne he)
  simp only [hsplitEq]
  obtain ⟨pT, hpT⟩ := genTableFilesFromHMC_ok
    (huffTableCode (freqOf (payloadOf pw bodyLines)))
    (presentOf (payloadOf pw bodyLines)) hcfOk
  rw [hpT]
  have hcl : ((payloadOf pw bodyLines).map
        (huffTableCode (freqOf (payloadOf pw bodyLines)))).map renderCode
      = (payloadOf pw bodyLines).map
          (fun b => renderCode (huffTableCode (freqOf (payloadOf pw bodyLines)) b)) := by
    rw [List.map_map]
    rfl
  have hos : genOutStreamFiles (serializeWith [13, 10] ((payloadOf pw bodyLines).map
      (fun b => renderCode (huffTableCode (freqOf (payloadOf pw bodyLines)) b))))
      = Except.ok
          (serializeWith [13, 10] ((payloadOf pw bodyLines).map
            (fun b => renderBin 16 (codeVal (huffTableCode (freqOf (payloadOf pw bodyLines)) b)))),
           serializeWith [13, 10] ((payloadOf pw bodyLines).map
            (fun b => renderBin 5 (huffTableCode (freqOf (payloadOf pw bodyLines)) b).length))) := by
    rw [genOutStreamFiles]
    rw [readLines_serialize false 256 (by norm_num) [13, 10] (Or.inr rfl) _ (by
      intro l hl
      obtain ⟨x, hxm, rfl⟩ := List.mem_map.mp hl
      refine ⟨goodLine_bits 256 _ (renderCode_allBits _) ?_, ?_⟩
      · rw [length_renderCode]
        have := (hbOk x hxm).2
        omega
      · intro he
        have : (renderCode (huffTableCode (freqOf (payloadOf pw bodyLines)) x)).length = 0 := by
          rw [he]
          rfl
        rw [length_renderCode] at this
        exact (hbOk x hxm).1 (List.length_eq_zero.mp this))]
    rw [← hcl]
    rw [genOutStreamGo_codes _ (by
      intro c hc
      obtain ⟨x, hxm, rfl⟩ := List.mem_map.mp hc
      exact hbOk x hxm)]
    rw [List.map_map, List.map_map]
    rfl
  rw [hos]
  dsimp only
  have hdf : decompressFromFiles dec
      (serializeWith [13, 10] ((payloadOf pw bodyLines).map
        (fun b => renderBin 16 (codeVal (huffTableCode (freqOf (payloadOf pw bodyLines)) b)))))
      (serializeWith [13, 10] ((payloadOf pw bodyLines).map
        (fun b => renderBin 5 (huffTableCode (freqOf (payloadOf pw bodyLines)) b).length)))
      = serializeWith [13, 10] ((payloadOf pw bodyLines).map (fun b => renderBin 8 b)) := by
    rw [decompressFromFiles]
    rw [readLines_serialize false 256 (by norm_num) [13, 10] (Or.inr rfl) _ (by
      intro l hl
      obtain ⟨x, hxm, rfl⟩ := List.mem_map.mp hl
      refine ⟨goodLine_bits 256 _ (fun c hc => mem_renderBin_isBit hc) (by simp), ?_⟩
      intro he
      have : (renderBin 16 (codeVal (huffTableCode (freqOf (payloadOf pw bodyLines)) x))).length
          = 0 := by
        rw [he]
        rfl
      simp at this)]
    rw [readLines_serialize false 256 (by norm_num) [13, 10] (Or.inr rfl) _ (by
      intro l hl
      obtain ⟨x, hxm, rfl⟩ := List.mem_map.mp hl
      refine ⟨goodLine_bits 256 _ (fun c hc => mem_renderBin_isBit hc) (by simp), ?_⟩
      intro he
      have : (renderBin 5 (huffTableCode (freqOf (payloadOf pw bodyLines)) x).length).length
          = 0 := by
        rw [he]
        rfl
      simp at this)]
    exact decompressGo_eq dec _ _ (fun b hbm =>
      ⟨hpay b hbm, (hbOk b hbm).2, by
        have := hdec _ (hbgen b hbm)
        simpa using this⟩)
  rw [hdf]
  rw [mergeSymbolsToWordsBytes_eq mrg pw bodyLines hpw hmrg hbody]
  rw [mergeHeaderAndData]
  rw [readLines_serialize false 256 (by norm_num) [13, 10] (Or.inr rfl) _ (by
    intro l hl
    rcases List.mem_append.mp hl with h2 | h2
    · exact ⟨(hfront l h2).1, (hfront l h2).2.1⟩
    · rw [List.mem_singleton.mp h2]
      exact ⟨hbits.1, hbits.2.1⟩)]
  rw [readLines_serialize false 256 (by norm_num) [13, 10] (Or.inr rfl) _ (by
    intro l hl
    obtain ⟨h32, hbl⟩ := hbody l hl
    refine ⟨goodLine_bits 256 l hbl (by omega), ?_⟩
    intro he
    rw [he] at h32
    simp at h32)]
  rw [← serializeWith_append]
  simp only [List.append_assoc, List.cons_append, List.nil_append]

set_option maxRecDepth 40000 in
theorem compress_then_decompress_roundtrip_witness :
    decompressPipeline rtCiph rtDec rtMrg (compressPipeline rtPw rtCiph rtEnc
        (serializeWith [13, 10] ([] ++ rtBits :: rtBody)))
      = Except.ok (serializeWith [13, 10] ([] ++ rtBits :: rtBody)) :=
  compress_then_decompress_roundtrip rtPw rtMrg rtCiph rtEnc rtDec [] rtBits rtBody
    (by
      intro w hw
      simp only [rtPw]
      exact ⟨Nat.mod_lt _ (by norm_num), Nat.mod_lt _ (by norm_num),
        Nat.mod_lt _ (by norm_num), Nat.mod_lt _ (by norm_num)⟩)
    (by
      intro w hw
      simp only [rtPw, rtMrg]
      norm_num
      omega)
    (by
      intro b hb
      simp only [rtCiph]
      omega)
    (by decide)
    (by decide)
    (by decide)
    (fun l hl => absurd hl (List.not_mem_nil l))
    (by decide)
    (by decide)
    (by decide)
    (by decide)

end HuffmanCodesign
